import Mathlib

/-!
# mongo-ext: query-parameter filters, their rendering, and criteria

A shallow embedding of `filter.go` (expression model, fluent builder, renderer)
and `criteria.go` (condition catalog, value coercion, key-grouping parser, sort
and pagination), followed by theorems about them.

Conventions of the embedding.

* Go strings are Lean strings; `len(s) > 0` is `s.length > 0` (both say that the
  string is non-empty).
* A Go map is an association list with pairwise distinct keys.  Where the code
  ranges over a map, the order of the list is the order of that enumeration:
  for `url.Values` it is the order of the argument list itself, for the inner
  maps of `tmp2` it is chosen by a `MapOrder`.
* A run-time panic (failed type assertion, index out of range, nil dereference,
  a format verb without operand) is the result `none`.
* `github.com/spf13/cast` is an external library: its four conversions are the
  fields of a `Cast`, over which every general theorem is universally
  quantified.  `goCast` gives their values on a small fragment of inputs and is
  used for concrete evaluations only.
-/

namespace MongoExt

/-! ## Values carried by leaves and produced by the renderer -/

/-- A float64 datum: a finite value `(-1)^neg * mant * 2^exp`, an infinity, or NaN. -/
inductive Float64 where
  | finite (neg : Bool) (mant : Nat) (exp : Int)
  | inf (neg : Bool)
  | nan
  deriving DecidableEq, Repr

/-- The float64 of an integer (exact for magnitudes below `2^53`). -/
def Float64.ofInt (i : Int) : Float64 := .finite (decide (i < 0)) i.natAbs 0

/-- A `time.Time` instant, as nanoseconds since the Unix epoch. -/
structure Time where
  unixNano : Int
  deriving DecidableEq, Repr

/-- The dynamic values (`any`) that occur as `Field.Value` and in rendered
documents: `nil`, `bool`, `int64`, `float64`, `time.Time`, `string`,
`primitive.Regex`, slices (`[]any`, `[]string`, `bson.A`), `bson.M` and `bson.D`. -/
inductive Val where
  | null
  | bool (b : Bool)
  | int (i : Int)
  | float (x : Float64)
  | time (t : Time)
  | str (s : String)
  | regex (pattern options : String)
  | arr (xs : List Val)
  | M (kvs : List (String × Val))
  | D (kvs : List (String × Val))

/-! ## Association lists as Go maps -/

/-- Lookup `m[k]` with its presence flag. -/
def mapGet {β : Type} (m : List (String × β)) (k : String) : Option β :=
  match m with
  | [] => none
  | (k1, v) :: rest => if k1 = k then some v else mapGet rest k

/-- Assignment `m[k] = v`: replaces the entry of `k` or adds one. -/
def mapSet {β : Type} (m : List (String × β)) (k : String) (v : β) : List (String × β) :=
  match m with
  | [] => [(k, v)]
  | (k1, v1) :: rest => if k1 = k then (k, v) :: rest else (k1, v1) :: mapSet rest k v

/-! ## filter.go -/

abbrev Operator := String

def OpEq : Operator := "$eq"
def OpNe : Operator := "$ne"
def OpGt : Operator := "$gt"
def OpGte : Operator := "$gte"
def OpLt : Operator := "$lt"
def OpLte : Operator := "$lte"
def OpIn : Operator := "$in"
def OpNin : Operator := "$nin"
def OpAnd : Operator := "$and"
def OpOr : Operator := "$or"
def OpNor : Operator := "$nor"
def OpNot : Operator := "$not"
def OpAll : Operator := "$all"
def OpSize : Operator := "$size"
def OpElemMatch : Operator := "$elemMatch"
def OpExists : Operator := "$exists"
def OpRegex : Operator := "$regex"

/-- The two implementations of the interface `Expr`: `*Logical` and `*Field`. -/
inductive Expr where
  | logical (op : Operator) (data : List Expr)
  | field (op : Operator) (name : String) (value : Val)

abbrev Filter := List Expr

/-- The struct `Logical`, as it is held through a `*Logical` pointer. -/
structure Logical where
  Op : Operator
  Data : List Expr

/-- A `*Logical` used as an `Expr`. -/
def Logical.toExpr (l : Logical) : Expr := .logical l.Op l.Data

def And (expr : List Expr) : Expr := .logical OpAnd expr
def Or (expr : List Expr) : Expr := .logical OpOr expr
def Nor (expr : List Expr) : Expr := .logical OpNor expr
def Eq (name : String) (value : Val) : Expr := .field OpEq name value
def Ne (name : String) (value : Val) : Expr := .field OpNe name value
def Gt (name : String) (value : Val) : Expr := .field OpGt name value
def Gte (name : String) (value : Val) : Expr := .field OpGte name value
def Lt (name : String) (value : Val) : Expr := .field OpLt name value
def Lte (name : String) (value : Val) : Expr := .field OpLte name value
def In (name : String) (value : List Val) : Expr := .field OpIn name (.arr value)
def Nin (name : String) (value : List Val) : Expr := .field OpNin name (.arr value)
def Size (name : String) (value : Nat) : Expr := .field OpSize name (.int value)
def Exists (name : String) (value : Bool) : Expr := .field OpExists name (.bool value)
def All (name : String) (value : List Val) : Expr := .field OpAll name (.arr value)

/-- `Regex(name, pattern, opts...)`: the options are `strings.Join(opts, "")`. -/
def Regex (name : String) (pattern : String) (opts : List String) : Expr :=
  .field OpRegex name (.regex pattern (String.join opts))

mutual
/-- `Build` of an `Expr`: `(*Logical).Build` gives the array of its rendered
children, `(*Field).Build` the document `bson.M{Op: Value}`. -/
def Expr.Build : Expr → Val
  | .logical _ data => .arr (Logical.buildData data)
  | .field op _ value => .M [(op, value)]
/-- One iteration of the loop of `(*Logical).Build`: the entry `result[i]`. -/
def Logical.buildItem : Expr → Val
  | .logical op data => .M [(op, .arr (Logical.buildData data))]
  | .field op name value =>
    if name.length > 0 then .M [(name, .M [(op, value)])] else .M [(op, value)]
/-- The loop of `(*Logical).Build` over `l.Data`. -/
def Logical.buildData : List Expr → List Val
  | [] => []
  | item :: rest => Logical.buildItem item :: Logical.buildData rest
end

/-- `(*Logical).Build`. -/
def Logical.Build (l : Logical) : Val := l.toExpr.Build

/-- The statement `for k, v := range m { result[k] = v }`. -/
def mergeInto (result m : List (String × Val)) : List (String × Val) :=
  m.foldl (fun r kv => mapSet r kv.1 kv.2) result

/-- One iteration of the loop of `Filter.Build`. -/
def Filter.buildStep (result : List (String × Val)) (i : Expr) : List (String × Val) :=
  match i with
  | .logical op data => mapSet result op (Expr.Build (.logical op data))
  | .field op name value =>
    if name.length > 0 then mapSet result name (Expr.Build (.field op name value))
    else
      match Expr.Build (.field op name value) with
      | .M m => mergeInto result m
      | _ => result

/-- `Filter.Build`: the empty filter renders to `bson.D{}`, any other to a `bson.M`. -/
def Filter.Build (f : Filter) : Val :=
  if f.length = 0 then .D [] else .M (f.foldl Filter.buildStep [])

/-- One iteration of the loop of `ElemMatch`. -/
def ElemMatch.step (value : List (String × Val)) (e : Expr) : List (String × Val) :=
  match e.Build with
  | .M m =>
    match e with
    | .field _ name _ => if name.length > 0 then mapSet value name (.M m) else mergeInto value m
    | .logical _ _ => mergeInto value m
  | _ => value

def ElemMatch (name : String) (query : List Expr) : Expr :=
  .field OpElemMatch name (.M (query.foldl ElemMatch.step []))

/-! ## criteria.go -/

def QueryIndex : String := "index"
def QuerySize : String := "size"
def QuerySort : String := "sort"
def QuerySortArr : String := "sort[]"
def QueryCondition : String := "condition"
def QueryField : String := "field"
def QueryValue : String := "value"

def CondEmpty : String := ""
def CondEq : String := "eq"
def CondNe : String := "ne"
def CondGt : String := "gt"
def CondGte : String := "gte"
def CondLt : String := "lt"
def CondLte : String := "lte"
def CondIn : String := "in"
def CondNin : String := "nin"
def CondRegex : String := "regex"
def CondLike : String := "like"

/-- The table `conditions`, as the lookup `op, ok := conditions[code]`. -/
def conditions (code : String) : Option Operator :=
  if code = CondEmpty then some OpEq
  else if code = CondEq then some OpEq
  else if code = CondNe then some OpNe
  else if code = CondGt then some OpGt
  else if code = CondGte then some OpGte
  else if code = CondLt then some OpLt
  else if code = CondLte then some OpLte
  else if code = CondIn then some OpIn
  else if code = CondNin then some OpNin
  else if code = CondRegex then some OpRegex
  else if code = CondLike then some OpRegex
  else none

/-- From util.go. -/
def DefaultSize : Int := 20

/-- The type `url.Values`; the order of the list is the order in which
`for key := range values` enumerates the keys. -/
abbrev Values := List (String × List String)

/-- `url.Values.Get`: the first value of the key, `""` when there is none. -/
def Values.Get (v : Values) (key : String) : String :=
  match mapGet v key with
  | some (x :: _) => x
  | _ => ""

/-- The conversions of `github.com/spf13/cast` on strings; `none` is a non-nil error. -/
structure Cast where
  ToFloat64E : String → Option Float64
  ToInt64E : String → Option Int
  ToBoolE : String → Option Bool
  ToTimeE : String → Option Time

/-- `cast.ToInt64`: the value of `ToInt64E`, and `0` on error. -/
def Cast.ToInt64 (c : Cast) (s : String) : Int := (c.ToInt64E s).getD 0

/-- `strings.EqualFold` against an ASCII-letter word: equality after ASCII lower-casing. -/
def EqualFold (s t : String) : Bool :=
  s.toList.map Char.toLower == t.toList.map Char.toLower

/-- `strings.Split(s, sep)` for a one-character separator. -/
def Split (s : String) (sep : Char) : List String :=
  (s.toList.splitOn sep).map String.mk

/-- The generic `apply`: the flag tells whether `fn` accepted `data[0]`; the
later elements that `fn` rejects are skipped. -/
def apply {T : Type} (data : List String) (fn : String → Option T) : Option (List T × Bool) :=
  match data with
  | [] => none
  | d0 :: rest =>
    match fn d0 with
    | some n => some (n :: rest.filterMap fn, true)
    | none => some ([], false)

/-- The coercion `parse(val, op)`. -/
def parse (c : Cast) (val : String) (op : Operator) : Option Val :=
  if val = "" ∨ op = OpRegex then some (.str val)
  else if EqualFold val "null" ∨ EqualFold val "nil" then some .null
  else if op = OpIn ∨ op = OpNin then
    match apply (Split val ',') c.ToFloat64E with
    | none => none
    | some (newValue, true) => some (.arr (newValue.map Val.float))
    | some (_, false) =>
      match apply (Split val ',') c.ToInt64E with
      | none => none
      | some (newValue, true) => some (.arr (newValue.map Val.int))
      | some (_, false) =>
        match apply (Split val ',') c.ToTimeE with
        | none => none
        | some (newValue, true) => some (.arr (newValue.map Val.time))
        | some (_, false) => some (.arr ((Split val ',').map Val.str))
  else
    match c.ToFloat64E val with
    | some x => some (.float x)
    | none =>
      match c.ToInt64E val with
      | some i => some (.int i)
      | none =>
        match c.ToBoolE val with
        | some b => some (.bool b)
        | none =>
          match c.ToTimeE val with
          | some t => some (.time t)
          | none => some (.str val)

/-- The separator test of `fields`: `r == ']' || r == '['`. -/
def isBracket (r : Char) : Bool := r == ']' || r == '['

/-- The function `fields`: `strings.FieldsFunc` with the two brackets as separators. -/
def fields (key : String) : List String :=
  ((key.toList.splitOnP isBracket).filter (fun p => !p.isEmpty)).map String.mk

/-- The function `value`: the format `"%s[%s][%s][%s]"` needs exactly four operands. -/
def value (values : Values) (fs : List String) : Option String :=
  match fs with
  | [a, b, c, d] => some (values.Get (a ++ "[" ++ b ++ "][" ++ c ++ "][" ++ d ++ "]"))
  | _ => none

/-- One iteration of the loop of `order`. -/
def order.step (o : List (String × Val)) (item : String) : Option (List (String × Val)) :=
  if item.length > 0 then
    match item.toList.head? with
    | none => none
    | some ch =>
      if ch = '-' then
        if item.length > 1 then some (o ++ [(String.mk (item.toList.drop 1), .int (-1))])
        else some o
      else some (o ++ [(item, .int 1)])
  else some o

/-- The function `order`: a `bson.D` of `(field, 1)` and `(field, -1)`. -/
def order (data : List String) : Option Val :=
  (data.foldlM order.step []).map Val.D

/-- The maps `tmp1` and `tmp2` of `Parse`. -/
structure ParseState where
  tmp1 : List String
  tmp2 : List (String × List (String × Logical))

/-- Lines 163-167 of criteria.go: make sure that `tmp2[d0][d1]` exists. -/
def ensureGroup (tmp2 : List (String × List (String × Logical))) (d0 d1 : String) :
    List (String × List (String × Logical)) :=
  match mapGet tmp2 d0 with
  | none => mapSet tmp2 d0 [(d1, ⟨OpOr, []⟩)]
  | some inner =>
    match mapGet inner d1 with
    | none => mapSet tmp2 d0 (mapSet inner d1 ⟨OpOr, []⟩)
    | some _ => tmp2

/-- Line 175 of criteria.go: `tmp2[d0][d1].Data = append(tmp2[d0][d1].Data, expr)`. -/
def appendExpr (tmp2 : List (String × List (String × Logical))) (d0 d1 : String) (expr : Expr) :
    Option (List (String × List (String × Logical))) :=
  match mapGet ((mapGet tmp2 d0).getD []) d1 with
  | none => none
  | some l => some (mapSet tmp2 d0 (mapSet ((mapGet tmp2 d0).getD []) d1 ⟨l.Op, l.Data ++ [expr]⟩))

/-- Lines 169-174 of criteria.go: the leaf of a triple. -/
def mkExpr (op : Operator) (field : String) (val : Val) : Option Expr :=
  if op = OpRegex then
    match val with
    | .str s => some (Regex field s ["i"])
    | _ => none
  else some (.field op field val)

/-- The body of the first loop of `Parse`, for one key. -/
def parseKey (c : Cast) (values : Values) (st : ParseState) (key : String) :
    Option ParseState :=
  match fields key with
  | [d0, d1, d2, _] =>
    if (d0 ++ "[" ++ d1 ++ "][" ++ d2 ++ "]") ∈ st.tmp1 then some st
    else
      match value values [d0, d1, d2, QueryField] with
      | none => none
      | some field =>
        if field = "" then some ⟨(d0 ++ "[" ++ d1 ++ "][" ++ d2 ++ "]") :: st.tmp1, st.tmp2⟩
        else
          match value values [d0, d1, d2, QueryCondition] with
          | none => none
          | some code =>
            match conditions code with
            | none => some ⟨(d0 ++ "[" ++ d1 ++ "][" ++ d2 ++ "]") :: st.tmp1, st.tmp2⟩
            | some op =>
              match value values [d0, d1, d2, QueryValue] with
              | none => none
              | some raw =>
                match parse c raw op with
                | none => none
                | some val =>
                  match mkExpr op field val with
                  | none => none
                  | some expr =>
                    match appendExpr (ensureGroup st.tmp2 d0 d1) d0 d1 expr with
                    | none => none
                    | some t => some ⟨(d0 ++ "[" ++ d1 ++ "][" ++ d2 ++ "]") :: st.tmp1, t⟩
  | _ => some st

/-- The first loop of `Parse` over the keys in their enumeration order. -/
def parseLoop (c : Cast) (values : Values) : List String → ParseState → Option ParseState
  | [], st => some st
  | key :: rest, st =>
    match parseKey c values st key with
    | none => none
    | some st1 => parseLoop c values rest st1

/-- The order in which `for _, or := range items` enumerates an inner map of
`tmp2`; it may depend on the name and on the map. -/
structure MapOrder where
  items : String → List (String × Logical) → List (String × Logical)
  perm : ∀ n l, (items n l).Perm l

/-- Enumeration in the order of first insertion. -/
def MapOrder.insertion : MapOrder := ⟨fun _ l => l, fun _ l => List.Perm.refl l⟩

/-- Enumeration in the reverse order of first insertion. -/
def MapOrder.reversed : MapOrder := ⟨fun _ l => l.reverse, fun _ l => List.reverse_perm l⟩

/-- Lines 182-186 of criteria.go: an OR container with one element stands for that element. -/
def orExpr (l : Logical) : Expr :=
  match l.Data with
  | [e] => e
  | _ => l.toExpr

/-- The body of the second loop of `Parse`, for one name of `tmp2`. -/
def combineStep (ord : MapOrder) (result : List (String × Filter))
    (entry : String × List (String × Logical)) : List (String × Filter) :=
  match (ord.items entry.1 entry.2).map (fun kv => orExpr kv.2) with
  | [] => result
  | [e] => mapSet result entry.1 [e]
  | e1 :: e2 :: es => mapSet result entry.1 [Expr.logical OpAnd (e1 :: e2 :: es)]

/-- The function `Parse`. -/
def Parse (c : Cast) (ord : MapOrder) (values : Values) : Option (List (String × Filter)) :=
  match parseLoop c values (values.map Prod.fst) ⟨[], []⟩ with
  | none => none
  | some st => some (st.tmp2.foldl (combineStep ord) [])

/-- The function `ToFilter`: a missing name gives the nil filter. -/
def ToFilter (c : Cast) (ord : MapOrder) (values : Values) (name : String) : Option Filter :=
  match Parse c ord values with
  | none => none
  | some result => some ((mapGet result name).getD [])

/-- The struct `Criteria`; the field `Sort` is named `SortBy` here, `Sort` being reserved. -/
structure Criteria where
  Filter : Val
  SortBy : Option Val
  Index : Int
  Size : Int

/-- The sort of `ToCriteria`: from `sort[]` if present, else from `sort`, else nil. -/
def sortOf (values : Values) : Option (Option Val) :=
  match mapGet values QuerySortArr with
  | some o => (order o).map some
  | none =>
    match mapGet values QuerySort with
    | some o => (order o).map some
    | none => some none

/-- The function `ToCriteria`. -/
def ToCriteria (c : Cast) (ord : MapOrder) (values : Values) (filterName : String) :
    Option Criteria :=
  match sortOf values with
  | none => none
  | some s =>
    match ToFilter c ord values filterName with
    | none => none
    | some f =>
      some ⟨Filter.Build f, s,
        if c.ToInt64 (values.Get QueryIndex) < 0 then 0 else c.ToInt64 (values.Get QueryIndex),
        if c.ToInt64 (values.Get QuerySize) ≤ 0 then DefaultSize
        else c.ToInt64 (values.Get QuerySize)⟩

/-- The function `GetCriteria`; `parseQuery` is `url.ParseQuery`, whose error is of type `E`. -/
def GetCriteria {E : Type} (parseQuery : String → Values × Option E) (c : Cast) (ord : MapOrder)
    (query filterName : String) : Option (Criteria × Option E) :=
  match (parseQuery query).2 with
  | some err => some (⟨.null, none, 0, DefaultSize⟩, some err)
  | none => (ToCriteria c ord (parseQuery query).1 filterName).map (fun cr => (cr, none))

/-! ## Vocabulary of the statements -/

/-- The function `fields` on the list of the characters of a key. -/
def fieldsL (cs : List Char) : List (List Char) :=
  (cs.splitOnP isBracket).filter (fun p => !p.isEmpty)

/-- A segment of the key grammar: a non-empty string without bracket. -/
def isSegment (s : String) : Bool :=
  !s.toList.isEmpty && s.toList.all (fun r => !isBracket r)

/-- All three components of a triple are segments. -/
def segTriple (t : String × String × String) : Prop :=
  isSegment t.1 = true ∧ isSegment t.2.1 = true ∧ isSegment t.2.2 = true

/-- The key `d0[d1][d2]` under which `Parse` remembers a triple in `tmp1`. -/
def groupKey (d0 d1 d2 : String) : String := d0 ++ "[" ++ d1 ++ "][" ++ d2 ++ "]"

/-- The key `d0[d1][d2][attr]` that the function `value` looks up. -/
def attrKey (d0 d1 d2 attr : String) : String :=
  d0 ++ "[" ++ d1 ++ "][" ++ d2 ++ "][" ++ attr ++ "]"

/-- The entries of a multimap that holds exactly the three keys of one triple. -/
def tripleEntries (name a o f v code : String) : Values :=
  [(attrKey name a o QueryField, [f]), (attrKey name a o QueryValue, [v]),
    (attrKey name a o QueryCondition, [code])]

/-- The fluent constructor of a comparison operator, applied to a name and one value. -/
def comparisonCtor (op : Operator) : Option (String → Val → Expr) :=
  if op = OpEq then some Eq
  else if op = OpNe then some Ne
  else if op = OpGt then some Gt
  else if op = OpGte then some Gte
  else if op = OpLt then some Lt
  else if op = OpLte then some Lte
  else none

/-- The fluent constructor of `in` and `nin`, applied to a name and its variadic values. -/
def listCtor (op : Operator) : Option (String → List Val → Expr) :=
  if op = OpIn then some In
  else if op = OpNin then some Nin
  else none

/-- The triple `(name, andIndex, orIndex)` that a key of four fields names. -/
def tripleOf (key : String) : Option (String × String × String) :=
  match fields key with
  | [d0, d1, d2, _] => some (d0, d1, d2)
  | _ => none

/-- The leaf that `Parse` builds for a triple, `none` when the triple is dropped
(empty field or unknown condition code). -/
def leafOf (c : Cast) (values : Values) (t : String × String × String) : Option Expr :=
  if values.Get (attrKey t.1 t.2.1 t.2.2 QueryField) = "" then none
  else
    match conditions (values.Get (attrKey t.1 t.2.1 t.2.2 QueryCondition)) with
    | none => none
    | some op =>
      match parse c (values.Get (attrKey t.1 t.2.1 t.2.2 QueryValue)) op with
      | none => none
      | some val => mkExpr op (values.Get (attrKey t.1 t.2.1 t.2.2 QueryField)) val

/-- The effect of lines 163-175 of criteria.go on `tmp2`: the leaf is appended to
the OR container of `(d0, d1)`, which is created when missing. -/
def addLeaf (tmp2 : List (String × List (String × Logical))) (d0 d1 : String) (e : Expr) :
    List (String × List (String × Logical)) :=
  mapSet tmp2 d0 (mapSet ((mapGet tmp2 d0).getD []) d1
    ⟨((mapGet ((mapGet tmp2 d0).getD []) d1).getD ⟨OpOr, []⟩).Op,
      ((mapGet ((mapGet tmp2 d0).getD []) d1).getD ⟨OpOr, []⟩).Data ++ [e]⟩)

/-- The state after the body of the first loop of `Parse` has run for one key. -/
def keyStep (c : Cast) (values : Values) (st : ParseState) (key : String) : ParseState :=
  match tripleOf key with
  | none => st
  | some t =>
    if groupKey t.1 t.2.1 t.2.2 ∈ st.tmp1 then st
    else
      ⟨groupKey t.1 t.2.1 t.2.2 :: st.tmp1,
        match leafOf c values t with
        | none => st.tmp2
        | some e => addLeaf st.tmp2 t.1 t.2.1 e⟩

/-- The triples in the order in which the first loop of `Parse` handles them:
each one at its first occurrence, unless its group key is already in `seen`. -/
def firstOcc : List String → List (String × String × String) → List (String × String × String)
  | _, [] => []
  | seen, t :: ts =>
    if groupKey t.1 t.2.1 t.2.2 ∈ seen then firstOcc seen ts
    else t :: firstOcc (groupKey t.1 t.2.1 t.2.2 :: seen) ts

/-- The triples of a multimap in the order in which `Parse` handles them. -/
def triplesOf (values : Values) : List (String × String × String) :=
  firstOcc [] ((values.map Prod.fst).filterMap tripleOf)

/-- The map `tmp2` after the given triples have been handled. -/
def addTriples (c : Cast) (values : Values) (ts : List (String × String × String))
    (tmp2 : List (String × List (String × Logical))) : List (String × List (String × Logical)) :=
  ts.foldl (fun m t =>
    match leafOf c values t with
    | none => m
    | some e => addLeaf m t.1 t.2.1 e) tmp2

/-! ## Values of the `cast` conversions on a fragment of inputs -/

/-- A decimal literal without sign: a non-empty string of ASCII digits. -/
def isDigits (s : String) : Bool :=
  !s.toList.isEmpty && s.toList.all Char.isDigit

/-- The number written by a string of decimal digits. -/
def digitsVal (s : String) : Nat :=
  s.toList.foldl (fun n ch => 10 * n + (ch.toNat - 48)) 0

/-- An integer literal `d...d` or `-d...d` of at most 15 digits without a
superfluous leading zero, and its value. -/
def smallIntLit (s : String) : Option Int :=
  match s.toList with
  | '-' :: rest =>
    if isDigits (String.mk rest) && rest.length ≤ 15 && (rest.head? != some '0' || rest.length = 1)
    then some (-(digitsVal (String.mk rest) : Int)) else none
  | cs =>
    if isDigits s && cs.length ≤ 15 && (cs.head? != some '0' || cs.length = 1)
    then some (digitsVal s : Int) else none

/-- The results of `strconv.ParseBool`. -/
def parseBool (s : String) : Option Bool :=
  if s ∈ ["1", "t", "T", "TRUE", "true", "True"] then some true
  else if s ∈ ["0", "f", "F", "FALSE", "false", "False"] then some false
  else none

/-- The `cast` conversions on a fragment of inputs: a short decimal integer literal
converts to that float64 and to that int64; the twelve spellings of
`strconv.ParseBool` convert to a boolean; the letter-only words of the evaluations
below (`ABC`, `abc`, `WSH`, `WP`: no spelling of a boolean, of an infinity or of NaN)
convert to nothing.  Strings outside the fragment (fractions, exponents, dates, ...)
are rejected here; no evaluation below passes such a string to a conversion. -/
def goCast : Cast where
  ToFloat64E s := (smallIntLit s).map Float64.ofInt
  ToInt64E s := smallIntLit s
  ToBoolE s := parseBool s
  ToTimeE _ := none

/-! ## Vocabulary of the statements: groups, shapes and literals -/

/-- The entries of a multimap that holds exactly two complete triples of one group, both
with the condition `eq`. -/
def pairEntries (name a o1 o2 f1 v1 f2 v2 : String) : Values :=
  tripleEntries name a o1 f1 v1 CondEq ++ tripleEntries name a o2 f2 v2 CondEq

/-- The OR container of the group `(n, a)` in `tmp2`, if there is one. -/
def groupAt (tmp2 : List (String × List (String × Logical))) (n a : String) : Option Logical :=
  mapGet ((mapGet tmp2 n).getD []) a

/-- The leaves of the group `(n, a)`: those of its triples that are not dropped, in the
order in which `Parse` handles them. -/
def leavesOf (c : Cast) (values : Values) (ts : List (String × String × String))
    (n a : String) : List Expr :=
  (ts.filter (fun t => decide (t.1 = n ∧ t.2.1 = a))).filterMap (leafOf c values)

/-- A triple is kept: its field is non-empty and its condition code is in the catalog. -/
def qualifies (values : Values) (t : String × String × String) : Prop :=
  values.Get (attrKey t.1 t.2.1 t.2.2 QueryField) ≠ ""
    ∧ (conditions (values.Get (attrKey t.1 t.2.1 t.2.2 QueryCondition))).isSome = true

/-- The well-formedness of `tmp2` as a map of non-empty maps. -/
def tmp2WF (m : List (String × List (String × Logical))) : Prop :=
  (m.map Prod.fst).Nodup
    ∧ ∀ n inner, mapGet m n = some inner → (inner.map Prod.fst).Nodup ∧ inner ≠ []

/-- The list `and.Data` that the second loop of `Parse` builds for one name. -/
def andData (ord : MapOrder) (n : String) (inner : List (String × Logical)) : List Expr :=
  (ord.items n inner).map (fun kv => orExpr kv.2)

/-- Lines 188-195 of criteria.go: the filter stored for a name, if any. -/
def nameFilter (data : List Expr) : Option Filter :=
  match data with
  | [] => none
  | [e] => some [e]
  | e1 :: e2 :: es => some [Expr.logical OpAnd (e1 :: e2 :: es)]

/-- The map `tmp2` that the first loop of `Parse` leaves. -/
def tmp2Of (c : Cast) (values : Values) : List (String × List (String × Logical)) :=
  addTriples c values (triplesOf values) []

/-- The expression is a `*Field`. -/
def Expr.isLeaf : Expr → Bool
  | .field _ _ _ => true
  | .logical _ _ => false

mutual
/-- The nodes of an expression tree: the expression and everything below it. -/
def Expr.nodes : Expr → List Expr
  | .logical op data => .logical op data :: Expr.nodesOfList data
  | .field op name value => [.field op name value]
/-- The nodes of the trees of a list of expressions. -/
def Expr.nodesOfList : List Expr → List Expr
  | [] => []
  | e :: es => Expr.nodes e ++ Expr.nodesOfList es
end

/-- The expression of an andIndex group: a leaf, or an OR of at least two leaves. -/
def isGroupExpr (e : Expr) : Prop :=
  e.isLeaf = true
    ∨ ∃ data, e = .logical OpOr data ∧ 2 ≤ data.length ∧ ∀ x ∈ data, x.isLeaf = true

/-- The expression stored for a name: a group expression, or an AND of at least two of them. -/
def isNameExpr (e : Expr) : Prop :=
  isGroupExpr e
    ∨ ∃ data, e = .logical OpAnd data ∧ 2 ≤ data.length ∧ ∀ x ∈ data, isGroupExpr x

/-- The expression of the andIndex group `(n, a)`: its OR container, or the sole leaf. -/
def groupExpr (c : Cast) (values : Values) (n a : String) : Expr :=
  orExpr ⟨OpOr, leavesOf c values (triplesOf values) n a⟩

/-- A decimal integer literal: an optional sign followed by a non-empty string of digits. -/
def isIntLit (s : String) : Bool :=
  match s.toList with
  | '-' :: rest => isDigits (String.mk rest)
  | '+' :: rest => isDigits (String.mk rest)
  | _ => isDigits s

/-- The comma-separated list of the given strings. -/
def joinComma : List String → String
  | [] => ""
  | [s] => s
  | s :: t :: rest => s ++ "," ++ joinComma (t :: rest)

/-- The characters of integer literals: digits and signs. -/
def isLitChar (ch : Char) : Prop := ch.isDigit = true ∨ ch = '-' ∨ ch = '+'

/-- The list that `parse` returns under `$in` and `$nin` for the split elements `data`
with first element `d0`: the kind is chosen by `d0` alone, and the elements that do not
convert to that kind are left out. -/
def listOf (c : Cast) (d0 : String) (data : List String) : List Val :=
  match c.ToFloat64E d0 with
  | some _ => (data.filterMap c.ToFloat64E).map Val.float
  | none =>
    match c.ToInt64E d0 with
    | some _ => (data.filterMap c.ToInt64E).map Val.int
    | none =>
      match c.ToTimeE d0 with
      | some _ => (data.filterMap c.ToTimeE).map Val.time
      | none => data.map Val.str

/-- The sort specification in the words of the specification: the entries that are
non-empty and not the single character `-`, in input order; an entry that starts with `-`
gives the entry without its first character and the direction `-1`, any other entry gives
itself and the direction `1`. -/
def orderSpec (data : List String) : List (String × Val) :=
  (data.filter (fun s => decide (s ≠ "" ∧ s ≠ "-"))).map
    (fun s => if s.toList.head? = some '-' then (String.mk (s.toList.drop 1), Val.int (-1))
      else (s, Val.int 1))

/-- The entry of a child in the rendering of a Logical, in the words of the
specification: `{n: {o: v}}` for a named leaf, `{o: v}` for an anonymous leaf, and
`{p: rendered array}` for a Logical child with operator `p`. -/
def childEntrySpec : Expr → Val
  | .field o n v => if n = "" then .M [(o, v)] else .M [(n, .M [(o, v)])]
  | .logical p d => .M [(p, Expr.Build (.logical p d))]

/-- The key and the value that a top-level expression contributes to the document of
`Filter.Build`: a Logical its operator and rendered array, a named leaf its name and
operator document, an anonymous leaf its operator and value. -/
def topEntry : Expr → String × Val
  | .logical op data => (op, Expr.Build (.logical op data))
  | .field op name value => if name = "" then (op, value) else (name, .M [(op, value)])

/-- The value is a float64. -/
def Val.isFloat : Val → Bool
  | .float _ => true
  | _ => false

/-- The value is an int64. -/
def Val.isInt : Val → Bool
  | .int _ => true
  | _ => false

/-- The value is a timestamp. -/
def Val.isTime : Val → Bool
  | .time _ => true
  | _ => false

/-- The value is a string. -/
def Val.isStr : Val → Bool
  | .str _ => true
  | _ => false

/-- The multimap of the query of the comment of `MustGetCriteria`, after decoding. -/
def exampleValues : Values :=
  [("index", ["20"]), ("size", ["20"]), ("sort[]", ["sku", "-amount"])]
    ++ tripleEntries "filters" "0" "0" "sku" "WSH%29%" "like"
    ++ tripleEntries "filters" "0" "1" "sku" "WP%29%" "like"
    ++ tripleEntries "filters" "1" "0" "price" "40" "eq"
    ++ tripleEntries "filters" "2" "0" "price" "49.99" "to"

mutual
/-- Two rendered documents are equal up to a permutation of the entries inside each
`$and`/`$or` array. -/
inductive DocSim : Val → Val → Prop
  | refl (v : Val) : DocSim v v
  | doc (kvs kvs2 : List (String × Val)) : EntriesSim kvs kvs2 → DocSim (.M kvs) (.M kvs2)
/-- The entries of two documents agree key by key, up to `DocSim` of the values and up to
a permutation of the array under a key `$and` or `$or`. -/
inductive EntriesSim : List (String × Val) → List (String × Val) → Prop
  | nil : EntriesSim [] []
  | cons (k : String) (v w : Val) (l1 l2 : List (String × Val)) :
      DocSim v w → EntriesSim l1 l2 → EntriesSim ((k, v) :: l1) ((k, w) :: l2)
  | logical (k : String) (xs l ys : List Val) (l1 l2 : List (String × Val)) :
      (k = OpAnd ∨ k = OpOr) → xs.Perm l → ListSim l ys → EntriesSim l1 l2 →
      EntriesSim ((k, .arr xs) :: l1) ((k, .arr ys) :: l2)
/-- Two lists of documents agree entry by entry up to `DocSim`. -/
inductive ListSim : List Val → List Val → Prop
  | nil : ListSim [] []
  | cons (a b : Val) (l1 l2 : List Val) : DocSim a b → ListSim l1 l2 →
      ListSim (a :: l1) (b :: l2)
end

/-- Two group expressions are equal, or are OR containers with the same leaves in another
order. -/
def GroupSim (e1 e2 : Expr) : Prop :=
  e1 = e2 ∨ ∃ l1 l2, e1 = .logical OpOr l1 ∧ e2 = .logical OpOr l2 ∧ l1.Perm l2

/-- The name has at most one valid triple: any two keys whose triples carry the name and
are kept by `Parse` name the same triple. -/
def atMostOneValid (values : Values) (n : String) : Prop :=
  ∀ key1 ∈ values.map Prod.fst, ∀ key2 ∈ values.map Prod.fst, ∀ t u,
    tripleOf key1 = some t → tripleOf key2 = some u → t.1 = n → u.1 = n →
    qualifies values t → qualifies values u → t = u

/-! ## Lemmas: association lists -/

theorem mapGet_mapSet_self {β : Type} (m : List (String × β)) (k : String) (v : β) :
    mapGet (mapSet m k v) k = some v := by
  induction m with
  | nil => simp [mapSet, mapGet]
  | cons hd tl ih =>
    obtain ⟨k1, v1⟩ := hd
    by_cases h : k1 = k
    · simp [mapSet, mapGet, h]
    · simp [mapSet, mapGet, h, ih]

theorem mapGet_mapSet_of_ne {β : Type} (m : List (String × β)) (k k2 : String) (v : β)
    (h : k ≠ k2) : mapGet (mapSet m k v) k2 = mapGet m k2 := by
  induction m with
  | nil => simp [mapSet, mapGet, h]
  | cons hd tl ih =>
    obtain ⟨k1, v1⟩ := hd
    by_cases h1 : k1 = k
    · subst h1
      simp [mapSet, mapGet, h]
    · by_cases h2 : k1 = k2
      · subst h2
        simp [mapSet, mapGet, h1]
      · simp [mapSet, mapGet, h1, h2, ih]

theorem mapGet_isSome_iff {β : Type} (m : List (String × β)) (k : String) :
    (mapGet m k).isSome ↔ k ∈ m.map Prod.fst := by
  induction m with
  | nil => simp [mapGet]
  | cons hd tl ih =>
    obtain ⟨k1, v1⟩ := hd
    by_cases h : k1 = k
    · simp [mapGet, h]
    · have h2 : ¬ k = k1 := fun e => h e.symm
      simp [mapGet, h, h2, ih]

theorem mapGet_mem {β : Type} (m : List (String × β)) (k : String) (v : β)
    (h : mapGet m k = some v) : (k, v) ∈ m := by
  induction m with
  | nil => simp [mapGet] at h
  | cons hd tl ih =>
    obtain ⟨k1, v1⟩ := hd
    by_cases h1 : k1 = k
    · simp [mapGet, h1] at h
      simp [h1, h]
    · simp [mapGet, h1] at h
      exact List.mem_cons_of_mem _ (ih h)

theorem mapGet_of_mem_nodup {β : Type} (m : List (String × β)) (k : String) (v : β)
    (hn : (m.map Prod.fst).Nodup) (h : (k, v) ∈ m) : mapGet m k = some v := by
  induction m with
  | nil => simp at h
  | cons hd tl ih =>
    obtain ⟨k1, v1⟩ := hd
    simp only [List.map_cons, List.nodup_cons] at hn
    rcases List.mem_cons.1 h with h1 | h1
    · cases h1
      simp [mapGet]
    · have hk : k1 ≠ k := by
        intro e
        subst e
        exact hn.1 (List.mem_map.2 ⟨(k1, v), h1, rfl⟩)
      simp [mapGet, hk, ih hn.2 h1]

theorem mapSet_keys {β : Type} (m : List (String × β)) (k : String) (v : β) :
    (mapSet m k v).map Prod.fst = if k ∈ m.map Prod.fst then m.map Prod.fst
      else m.map Prod.fst ++ [k] := by
  induction m with
  | nil => simp [mapSet]
  | cons hd tl ih =>
    obtain ⟨k1, v1⟩ := hd
    by_cases h : k1 = k
    · simp [mapSet, h]
    · have h2 : ¬ k = k1 := fun e => h e.symm
      by_cases h3 : k ∈ tl.map Prod.fst
      · simp only [mapSet, h, if_false, List.map_cons, ih, h3, if_true, List.mem_cons, or_true]
      · simp only [mapSet, h, if_false, List.map_cons, ih, h3, List.mem_cons, h2, or_self,
          List.cons_append]

theorem mapSet_nodup {β : Type} (m : List (String × β)) (k : String) (v : β)
    (hn : (m.map Prod.fst).Nodup) : ((mapSet m k v).map Prod.fst).Nodup := by
  rw [mapSet_keys]
  split
  · exact hn
  · rename_i h
    exact List.Nodup.append hn (List.nodup_singleton k) (by simpa using h)

theorem mapSet_length_of_mem {β : Type} (m : List (String × β)) (k : String) (v : β)
    (h : k ∈ m.map Prod.fst) : (mapSet m k v).length = m.length := by
  have h1 := congrArg List.length (mapSet_keys m k v)
  simpa [h] using h1

theorem mapSet_length_of_not_mem {β : Type} (m : List (String × β)) (k : String) (v : β)
    (h : k ∉ m.map Prod.fst) : (mapSet m k v).length = m.length + 1 := by
  have h1 := congrArg List.length (mapSet_keys m k v)
  simpa [h] using h1

/-! ## Lemmas: the coercion -/

theorem Split_ne_nil (s : String) (sep : Char) : Split s sep ≠ [] := by
  unfold Split
  intro h
  have h1 := List.map_eq_nil_iff.1 h
  exact List.splitOnP_ne_nil _ _ h1

theorem apply_isSome_of_ne_nil {T : Type} (data : List String) (fn : String → Option T)
    (h : data ≠ []) : ∃ r, apply data fn = some r := by
  cases data with
  | nil => exact absurd rfl h
  | cons d0 rest =>
    cases hf : fn d0 with
    | none => exact ⟨([], false), by simp [apply, hf]⟩
    | some n => exact ⟨(n :: rest.filterMap fn, true), by simp [apply, hf]⟩

theorem parse_total (c : Cast) (val : String) (op : Operator) : ∃ v, parse c val op = some v := by
  unfold parse
  obtain ⟨d0, rest, hs⟩ := List.exists_cons_of_ne_nil (Split_ne_nil val ',')
  split_ifs
  · exact ⟨_, rfl⟩
  · exact ⟨_, rfl⟩
  · rw [hs]
    simp only [apply]
    cases c.ToFloat64E d0 <;> cases c.ToInt64E d0 <;> cases c.ToTimeE d0 <;> simp
  · cases c.ToFloat64E val <;> cases c.ToInt64E val <;> cases c.ToBoolE val <;>
      cases c.ToTimeE val <;> simp

theorem parse_regex_or_empty (c : Cast) (val : String) (op : Operator)
    (h : op = OpRegex ∨ val = "") : parse c val op = some (.str val) := by
  unfold parse
  rw [if_pos (Or.symm h)]

/-! ## Lemmas: the key grammar -/

theorem fields_eq (key : String) : fields key = (fieldsL key.toList).map String.mk := rfl

theorem fieldsL_nil : fieldsL [] = [] := by
  simp [fieldsL, List.splitOnP_nil]

theorem fieldsL_sep (sep : Char) (hsep : isBracket sep = true) (rest : List Char) :
    fieldsL (sep :: rest) = fieldsL rest := by
  have h := List.splitOnP_first isBracket [] (by simp) sep hsep rest
  simp only [List.nil_append] at h
  simp [fieldsL, h]

theorem fieldsL_seg (seg : List Char) (hne : seg ≠ []) (hseg : ∀ x ∈ seg, ¬ isBracket x = true)
    (sep : Char) (hsep : isBracket sep = true) (rest : List Char) :
    fieldsL (seg ++ sep :: rest) = seg :: fieldsL rest := by
  have h := List.splitOnP_first isBracket seg hseg sep hsep rest
  unfold fieldsL
  rw [h, List.filter_cons]
  cases seg with
  | nil => exact absurd rfl hne
  | cons a as => simp

theorem isSegment_iff (s : String) :
    isSegment s = true ↔ s.toList ≠ [] ∧ ∀ x ∈ s.toList, ¬ isBracket x = true := by
  simp [isSegment, List.isEmpty_iff]

theorem isBracket_open : isBracket '[' = true := by decide

theorem isBracket_close : isBracket ']' = true := by decide

theorem groupKey_toList (d0 d1 d2 : String) :
    (groupKey d0 d1 d2).toList
      = d0.toList ++ '[' :: (d1.toList ++ ']' :: '[' :: (d2.toList ++ [']'])) := by
  simp [groupKey, String.toList]

theorem attrKey_toList (d0 d1 d2 attr : String) :
    (attrKey d0 d1 d2 attr).toList
      = d0.toList ++ '[' :: (d1.toList ++ ']' :: '[' :: (d2.toList ++ ']' :: '[' ::
          (attr.toList ++ [']']))) := by
  simp [attrKey, String.toList]

theorem attrKey_eq (d0 d1 d2 attr : String) :
    attrKey d0 d1 d2 attr = groupKey d0 d1 d2 ++ "[" ++ attr ++ "]" := by
  apply String.ext
  simp [attrKey, groupKey]

theorem fields_attrKey (d0 d1 d2 attr : String) (h0 : isSegment d0 = true)
    (h1 : isSegment d1 = true) (h2 : isSegment d2 = true) (h3 : isSegment attr = true) :
    fields (attrKey d0 d1 d2 attr) = [d0, d1, d2, attr] := by
  rw [isSegment_iff] at h0 h1 h2 h3
  rw [fields_eq, attrKey_toList, fieldsL_seg _ h0.1 h0.2 _ isBracket_open,
    fieldsL_seg _ h1.1 h1.2 _ isBracket_close, fieldsL_sep _ isBracket_open,
    fieldsL_seg _ h2.1 h2.2 _ isBracket_close, fieldsL_sep _ isBracket_open,
    fieldsL_seg _ h3.1 h3.2 _ isBracket_close, fieldsL_nil]
  rfl

theorem fields_groupKey (d0 d1 d2 : String) (h0 : isSegment d0 = true)
    (h1 : isSegment d1 = true) (h2 : isSegment d2 = true) :
    fields (groupKey d0 d1 d2) = [d0, d1, d2] := by
  rw [isSegment_iff] at h0 h1 h2
  rw [fields_eq, groupKey_toList, fieldsL_seg _ h0.1 h0.2 _ isBracket_open,
    fieldsL_seg _ h1.1 h1.2 _ isBracket_close, fieldsL_sep _ isBracket_open,
    fieldsL_seg _ h2.1 h2.2 _ isBracket_close, fieldsL_nil]
  rfl

theorem groupKey_inj (d0 d1 d2 e0 e1 e2 : String) (h0 : isSegment d0 = true)
    (h1 : isSegment d1 = true) (h2 : isSegment d2 = true) (g0 : isSegment e0 = true)
    (g1 : isSegment e1 = true) (g2 : isSegment e2 = true)
    (h : groupKey d0 d1 d2 = groupKey e0 e1 e2) : d0 = e0 ∧ d1 = e1 ∧ d2 = e2 := by
  have hd := fields_groupKey d0 d1 d2 h0 h1 h2
  have he := fields_groupKey e0 e1 e2 g0 g1 g2
  rw [h, he] at hd
  simpa using hd.symm

theorem splitOnP_pieces (cs : List Char) :
    ∀ piece ∈ cs.splitOnP isBracket, ∀ x ∈ piece, ¬ isBracket x = true := by
  induction cs with
  | nil => simp [List.splitOnP_nil]
  | cons c cs ih =>
    rw [List.splitOnP_cons]
    by_cases hc : isBracket c = true
    · simp only [hc, if_true]
      intro piece hp
      rcases List.mem_cons.1 hp with h | h
      · subst h
        simp
      · exact ih piece h
    · simp only [hc]
      intro piece hp
      obtain ⟨p0, ps, hps⟩ := List.exists_cons_of_ne_nil (List.splitOnP_ne_nil isBracket cs)
      rw [hps] at hp ih
      simp only [Bool.false_eq_true, if_false, List.modifyHead_cons, List.mem_cons] at hp
      rcases hp with h | h
      · subst h
        intro x hx
        rcases List.mem_cons.1 hx with h1 | h1
        · subst h1
          exact hc
        · exact ih p0 (List.mem_cons_self _ _) x h1
      · exact ih piece (List.mem_cons_of_mem _ h)

theorem fields_isSegment (key : String) : ∀ d ∈ fields key, isSegment d = true := by
  intro d hd
  rw [fields_eq, fieldsL] at hd
  obtain ⟨piece, hp, rfl⟩ := List.mem_map.1 hd
  rw [List.mem_filter] at hp
  rw [isSegment_iff]
  refine ⟨?_, splitOnP_pieces _ piece hp.1⟩
  have h2 := hp.2
  simp only [Bool.not_eq_true', List.isEmpty_eq_false] at h2
  cases piece with
  | nil => simp at h2
  | cons a as => simp [String.toList]

theorem tripleOf_isSegment (key : String) (t : String × String × String)
    (h : tripleOf key = some t) :
    isSegment t.1 = true ∧ isSegment t.2.1 = true ∧ isSegment t.2.2 = true := by
  unfold tripleOf at h
  have hs := fields_isSegment key
  split at h
  · rename_i d0 d1 d2 d3 heq
    rw [heq] at hs
    cases h
    exact ⟨hs d0 (by simp), hs d1 (by simp), hs d2 (by simp)⟩
  · cases h

theorem tripleOf_attrKey (d0 d1 d2 attr : String) (h0 : isSegment d0 = true)
    (h1 : isSegment d1 = true) (h2 : isSegment d2 = true) (h3 : isSegment attr = true) :
    tripleOf (attrKey d0 d1 d2 attr) = some (d0, d1, d2) := by
  simp [tripleOf, fields_attrKey d0 d1 d2 attr h0 h1 h2 h3]

/-! ## Lemmas: the first loop of `Parse` -/

theorem mapSet_mapSet {β : Type} (m : List (String × β)) (k : String) (v v2 : β) :
    mapSet (mapSet m k v) k v2 = mapSet m k v2 := by
  induction m with
  | nil => simp [mapSet]
  | cons hd tl ih =>
    obtain ⟨k1, v1⟩ := hd
    by_cases h : k1 = k
    · simp [mapSet, h]
    · simp [mapSet, h, ih]

theorem appendExpr_ensureGroup (tmp2 : List (String × List (String × Logical)))
    (d0 d1 : String) (e : Expr) :
    appendExpr (ensureGroup tmp2 d0 d1) d0 d1 e = some (addLeaf tmp2 d0 d1 e) := by
  unfold appendExpr ensureGroup addLeaf
  cases h0 : mapGet tmp2 d0 with
  | none =>
    simp [mapGet_mapSet_self, mapGet, mapSet, mapSet_mapSet]
  | some inner =>
    cases h1 : mapGet inner d1 with
    | none => simp [h0, h1, mapGet_mapSet_self, mapSet_mapSet]
    | some l => simp [h0, h1]

theorem mkExpr_parse (c : Cast) (op : Operator) (field raw : String) (val : Val)
    (h : parse c raw op = some val) : ∃ e, mkExpr op field val = some e := by
  unfold mkExpr
  by_cases hop : op = OpRegex
  · rw [parse_regex_or_empty c raw op (Or.inl hop)] at h
    cases h
    simp [hop]
  · simp [hop]

theorem tripleOf_eq_some (key d0 d1 d2 d3 : String) (h : fields key = [d0, d1, d2, d3]) :
    tripleOf key = some (d0, d1, d2) := by
  simp [tripleOf, h]

theorem tripleOf_eq_none (key : String)
    (h : ∀ d0 d1 d2 d3 : String, fields key = [d0, d1, d2, d3] → False) :
    tripleOf key = none := by
  unfold tripleOf
  split
  · rename_i d0 d1 d2 d3 heq
    exact absurd heq (h d0 d1 d2 d3)
  · rfl

theorem parseKey_eq (c : Cast) (values : Values) (st : ParseState) (key : String) :
    parseKey c values st key = some (keyStep c values st key) := by
  unfold parseKey
  split
  · rename_i d0 d1 d2 d3 heq
    simp only [keyStep, tripleOf_eq_some key d0 d1 d2 d3 heq, groupKey]
    by_cases hin : (d0 ++ "[" ++ d1 ++ "][" ++ d2 ++ "]") ∈ st.tmp1
    · simp [hin]
    · simp only [hin, if_false, value, leafOf, attrKey, groupKey]
      by_cases hf : values.Get (d0 ++ "[" ++ d1 ++ "][" ++ d2 ++ "][" ++ QueryField ++ "]") = ""
      · simp [hf]
      · simp only [hf, if_false]
        cases hc : conditions
            (values.Get (d0 ++ "[" ++ d1 ++ "][" ++ d2 ++ "][" ++ QueryCondition ++ "]")) with
        | none => simp
        | some op =>
          obtain ⟨val, hv⟩ := parse_total c
            (values.Get (d0 ++ "[" ++ d1 ++ "][" ++ d2 ++ "][" ++ QueryValue ++ "]")) op
          obtain ⟨e, he⟩ := mkExpr_parse c op
            (values.Get (d0 ++ "[" ++ d1 ++ "][" ++ d2 ++ "][" ++ QueryField ++ "]")) _ val hv
          simp [hv, he, appendExpr_ensureGroup]
  · rename_i hne
    simp only [keyStep, tripleOf_eq_none key hne]

theorem parseLoop_eq (c : Cast) (values : Values) (keys : List String) (st : ParseState) :
    parseLoop c values keys st = some (keys.foldl (keyStep c values) st) := by
  induction keys generalizing st with
  | nil => rfl
  | cons key rest ih => simp [parseLoop, parseKey_eq, ih]

theorem foldl_keyStep_tmp2 (c : Cast) (values : Values) (keys : List String) (st : ParseState) :
    (keys.foldl (keyStep c values) st).tmp2
      = addTriples c values (firstOcc st.tmp1 (keys.filterMap tripleOf)) st.tmp2 := by
  induction keys generalizing st with
  | nil => rfl
  | cons key rest ih =>
    rw [List.foldl_cons, ih]
    unfold keyStep
    cases ht : tripleOf key with
    | none => simp [List.filterMap_cons, ht]
    | some t =>
      by_cases hin : groupKey t.1 t.2.1 t.2.2 ∈ st.tmp1
      · simp [List.filterMap_cons, ht, firstOcc, hin]
      · simp [List.filterMap_cons, ht, firstOcc, hin, addTriples]

theorem Parse_eq (c : Cast) (ord : MapOrder) (values : Values) :
    Parse c ord values
      = some ((addTriples c values (triplesOf values) []).foldl (combineStep ord) []) := by
  unfold Parse
  rw [parseLoop_eq]
  simp only [foldl_keyStep_tmp2]
  rfl

/-! ## Lemmas: the order in which triples are handled -/

theorem segTriple_inj (t u : String × String × String) (ht : segTriple t) (hu : segTriple u)
    (h : groupKey t.1 t.2.1 t.2.2 = groupKey u.1 u.2.1 u.2.2) : t = u := by
  obtain ⟨t0, t1, t2⟩ := t
  obtain ⟨u0, u1, u2⟩ := u
  obtain ⟨h0, h1, h2⟩ := groupKey_inj t0 t1 t2 u0 u1 u2 ht.1 ht.2.1 ht.2.2 hu.1 hu.2.1 hu.2.2 h
  simp [h0, h1, h2]

theorem firstOcc_sub (seen : List String) (ts : List (String × String × String)) :
    ∀ t ∈ firstOcc seen ts, t ∈ ts ∧ groupKey t.1 t.2.1 t.2.2 ∉ seen := by
  induction ts generalizing seen with
  | nil => simp [firstOcc]
  | cons u us ih =>
    intro t ht
    unfold firstOcc at ht
    by_cases hin : groupKey u.1 u.2.1 u.2.2 ∈ seen
    · rw [if_pos hin] at ht
      exact ⟨List.mem_cons_of_mem _ (ih seen t ht).1, (ih seen t ht).2⟩
    · rw [if_neg hin] at ht
      rcases List.mem_cons.1 ht with h | h
      · subst h
        exact ⟨List.mem_cons_self _ _, hin⟩
      · have h2 := ih _ t h
        exact ⟨List.mem_cons_of_mem _ h2.1, fun hs => h2.2 (List.mem_cons_of_mem _ hs)⟩

theorem firstOcc_mem (seen : List String) (ts : List (String × String × String))
    (hseg : ∀ t ∈ ts, segTriple t) :
    ∀ t ∈ ts, groupKey t.1 t.2.1 t.2.2 ∉ seen → t ∈ firstOcc seen ts := by
  induction ts generalizing seen with
  | nil => simp
  | cons u us ih =>
    intro t ht hns
    have hseg2 : ∀ t ∈ us, segTriple t := fun x hx => hseg x (List.mem_cons_of_mem _ hx)
    unfold firstOcc
    by_cases hin : groupKey u.1 u.2.1 u.2.2 ∈ seen
    · rw [if_pos hin]
      rcases List.mem_cons.1 ht with h | h
      · subst h
        exact absurd hin hns
      · exact ih seen hseg2 t h hns
    · rw [if_neg hin]
      rcases List.mem_cons.1 ht with h | h
      · subst h
        exact List.mem_cons_self _ _
      · by_cases hk : groupKey t.1 t.2.1 t.2.2 = groupKey u.1 u.2.1 u.2.2
        · have := segTriple_inj t u (hseg t ht) (hseg u (List.mem_cons_self _ _)) hk
          subst this
          exact List.mem_cons_self _ _
        · refine List.mem_cons_of_mem _ (ih _ hseg2 t h ?_)
          intro hm
          rcases List.mem_cons.1 hm with h3 | h3
          · exact hk h3
          · exact hns h3

theorem firstOcc_nodup (seen : List String) (ts : List (String × String × String)) :
    (firstOcc seen ts).Nodup := by
  induction ts generalizing seen with
  | nil => simp [firstOcc]
  | cons u us ih =>
    unfold firstOcc
    by_cases hin : groupKey u.1 u.2.1 u.2.2 ∈ seen
    · rw [if_pos hin]
      exact ih seen
    · rw [if_neg hin]
      refine List.nodup_cons.2 ⟨?_, ih _⟩
      intro hm
      exact (firstOcc_sub _ us u hm).2 (List.mem_cons_self _ _)

theorem mem_triplesOf (values : Values) (t : String × String × String) :
    t ∈ triplesOf values ↔ ∃ key ∈ values.map Prod.fst, tripleOf key = some t := by
  unfold triplesOf
  constructor
  · intro h
    have h1 := (firstOcc_sub [] _ t h).1
    obtain ⟨key, hk, hkt⟩ := List.mem_filterMap.1 h1
    exact ⟨key, hk, hkt⟩
  · rintro ⟨key, hk, hkt⟩
    refine firstOcc_mem [] _ ?_ t (List.mem_filterMap.2 ⟨key, hk, hkt⟩) (by simp)
    intro u hu
    obtain ⟨key2, _, hk2⟩ := List.mem_filterMap.1 hu
    exact tripleOf_isSegment key2 u hk2

theorem triplesOf_nodup (values : Values) : (triplesOf values).Nodup :=
  firstOcc_nodup [] _

theorem triplesOf_segTriple (values : Values) : ∀ t ∈ triplesOf values, segTriple t := by
  intro t ht
  obtain ⟨key, _, hk⟩ := (mem_triplesOf values t).1 ht
  exact tripleOf_isSegment key t hk

theorem eq_singleton_of_nodup {α : Type} (l : List α) (a : α) (hn : l.Nodup)
    (hm : ∀ x, x ∈ l ↔ x = a) : l = [a] := by
  have hp : l.Perm [a] := (List.perm_ext_iff_of_nodup hn (List.nodup_singleton a)).2
    (fun x => by simp [hm x])
  exact List.perm_singleton.1 hp

theorem eq_pair_of_nodup {α : Type} (l : List α) (a b : α) (hab : a ≠ b) (hn : l.Nodup)
    (hm : ∀ x, x ∈ l ↔ x = a ∨ x = b) : l = [a, b] ∨ l = [b, a] := by
  have hp : l.Perm [a, b] := (List.perm_ext_iff_of_nodup hn (by simp [hab])).2
    (fun x => by simp [hm x])
  have hlen := hp.length_eq
  match l, hlen with
  | [x, y], _ =>
    have hx := (hm x).1 (by simp)
    have hy := (hm y).1 (by simp)
    have hxy : x ≠ y := by
      intro e
      subst e
      simp at hn
    rcases hx with hx | hx <;> rcases hy with hy | hy
    · exact absurd (hx.trans hy.symm) hxy
    · left
      rw [hx, hy]
    · right
      rw [hx, hy]
    · exact absurd (hx.trans hy.symm) hxy

/-! ## Lemmas: multimaps given by their entries -/

theorem Get_of_mem (values : Values) (k x : String) (xs : List String)
    (hn : (values.map Prod.fst).Nodup) (h : (k, x :: xs) ∈ values) : values.Get k = x := by
  unfold Values.Get
  rw [mapGet_of_mem_nodup values k (x :: xs) hn h]

theorem Get_of_not_mem (values : Values) (k : String) (h : k ∉ values.map Prod.fst) :
    values.Get k = "" := by
  unfold Values.Get
  cases hg : mapGet values k with
  | none => rfl
  | some v =>
    have := (mapGet_isSome_iff values k).1 (by simp [hg])
    exact absurd this h

theorem attrKey_ne (d0 d1 d2 x y : String) (hxy : x ≠ y) :
    attrKey d0 d1 d2 x ≠ attrKey d0 d1 d2 y := by
  intro h
  have h1 := congrArg String.toList h
  rw [attrKey_toList, attrKey_toList] at h1
  simp only [List.append_cancel_left_eq, List.cons.injEq, true_and,
    List.append_cancel_right_eq] at h1
  exact hxy (String.ext h1)

theorem attrKey_ne_of_ne (d0 d1 d2 e2 x y : String) (h : d2 ≠ e2) (h2 : isSegment d2 = true)
    (g2 : isSegment e2 = true) (h0 : isSegment d0 = true) (h1 : isSegment d1 = true)
    (hx : isSegment x = true) (hy : isSegment y = true) :
    attrKey d0 d1 d2 x ≠ attrKey d0 d1 e2 y := by
  intro he
  have ha := fields_attrKey d0 d1 d2 x h0 h1 h2 hx
  have hb := fields_attrKey d0 d1 e2 y h0 h1 g2 hy
  rw [he, hb] at ha
  simp at ha
  exact h ha.1.symm

theorem isSegment_QueryField : isSegment QueryField = true := by decide

theorem isSegment_QueryValue : isSegment QueryValue = true := by decide

theorem isSegment_QueryCondition : isSegment QueryCondition = true := by decide

theorem triplesOf_single (values : Values) (t : String × String × String)
    (hne : values ≠ []) (hall : ∀ key ∈ values.map Prod.fst, tripleOf key = some t) :
    triplesOf values = [t] := by
  apply eq_singleton_of_nodup _ _ (triplesOf_nodup values)
  intro x
  rw [mem_triplesOf]
  constructor
  · rintro ⟨key, hk, hx⟩
    rw [hall key hk] at hx
    exact (Option.some.inj hx).symm
  · intro hx
    subst hx
    cases values with
    | nil => exact absurd rfl hne
    | cons kv rest => exact ⟨kv.1, by simp, hall kv.1 (by simp)⟩

theorem Parse_of_single (c : Cast) (ord : MapOrder) (values : Values)
    (t : String × String × String) (e : Expr) (h : triplesOf values = [t])
    (hl : leafOf c values t = some e) : Parse c ord values = some [(t.1, [e])] := by
  rw [Parse_eq, h]
  have hp := List.perm_singleton.1 (ord.perm t.1 [(t.2.1, (⟨OpOr, [e]⟩ : Logical))])
  simp [addTriples, hl, addLeaf, mapGet, mapSet, combineStep, hp, orExpr]

theorem Parse_of_single_dropped (c : Cast) (ord : MapOrder) (values : Values)
    (t : String × String × String) (h : triplesOf values = [t])
    (hl : leafOf c values t = none) : Parse c ord values = some [] := by
  rw [Parse_eq, h]
  simp [addTriples, hl]

theorem tripleEntries_nodup (name a o f v code : String) :
    ((tripleEntries name a o f v code).map Prod.fst).Nodup := by
  have h1 := attrKey_ne name a o QueryField QueryValue (by decide)
  have h2 := attrKey_ne name a o QueryField QueryCondition (by decide)
  have h3 := attrKey_ne name a o QueryValue QueryCondition (by decide)
  simp [tripleEntries, h1, h2, h3]

theorem single_facts (values : Values) (name a o f v code : String)
    (hname : isSegment name = true) (ha : isSegment a = true) (ho : isSegment o = true)
    (hv : values.Perm (tripleEntries name a o f v code)) :
    triplesOf values = [(name, a, o)] ∧ values.Get (attrKey name a o QueryField) = f
      ∧ values.Get (attrKey name a o QueryValue) = v
      ∧ values.Get (attrKey name a o QueryCondition) = code := by
  have hnd : (values.map Prod.fst).Nodup :=
    (List.Perm.nodup_iff (hv.map Prod.fst)).2 (tripleEntries_nodup name a o f v code)
  refine ⟨?_, ?_, ?_, ?_⟩
  · apply triplesOf_single
    · intro h
      rw [h] at hv
      simpa [tripleEntries] using hv.length_eq
    · intro key hk
      have hk2 := (hv.map Prod.fst).mem_iff.1 hk
      simp only [tripleEntries, List.map_cons, List.map_nil, List.mem_cons,
        List.mem_singleton, List.not_mem_nil, or_false] at hk2
      rcases hk2 with h | h | h <;> subst h
      · exact tripleOf_attrKey name a o _ hname ha ho isSegment_QueryField
      · exact tripleOf_attrKey name a o _ hname ha ho isSegment_QueryValue
      · exact tripleOf_attrKey name a o _ hname ha ho isSegment_QueryCondition
  · exact Get_of_mem values _ f [] hnd (hv.mem_iff.2 (by simp [tripleEntries]))
  · exact Get_of_mem values _ v [] hnd (hv.mem_iff.2 (by simp [tripleEntries]))
  · exact Get_of_mem values _ code [] hnd (hv.mem_iff.2 (by simp [tripleEntries]))

/-! ## One triple -/

theorem leafOf_eq (c : Cast) (values : Values) (name a o f v code : String) (op : Operator)
    (val : Val) (hf : f ≠ "") (hcode : conditions code = some op)
    (hF : values.Get (attrKey name a o QueryField) = f)
    (hV : values.Get (attrKey name a o QueryValue) = v)
    (hC : values.Get (attrKey name a o QueryCondition) = code)
    (hp : parse c v op = some val) :
    leafOf c values (name, a, o) = mkExpr op f val := by
  simp [leafOf, hF, hV, hC, hf, hcode, hp]

theorem ToFilter_of_single (c : Cast) (ord : MapOrder) (values : Values)
    (t : String × String × String) (e : Expr) (h : triplesOf values = [t])
    (hl : leafOf c values t = some e) : ToFilter c ord values t.1 = some [e] := by
  simp [ToFilter, Parse_of_single c ord values t e h hl, mapGet]

theorem conditions_cases (code : String) (op : Operator) (h : conditions code = some op) :
    op = OpEq ∨ op = OpNe ∨ op = OpGt ∨ op = OpGte ∨ op = OpLt ∨ op = OpLte ∨ op = OpIn
      ∨ op = OpNin ∨ op = OpRegex := by
  unfold conditions at h
  by_cases h1 : code = CondEmpty
  · rw [if_pos h1] at h
    exact Or.inl (Option.some.inj h).symm
  rw [if_neg h1] at h
  by_cases h2 : code = CondEq
  · rw [if_pos h2] at h
    exact Or.inl (Option.some.inj h).symm
  rw [if_neg h2] at h
  by_cases h3 : code = CondNe
  · rw [if_pos h3] at h
    exact Or.inr (Or.inl (Option.some.inj h).symm)
  rw [if_neg h3] at h
  by_cases h4 : code = CondGt
  · rw [if_pos h4] at h
    exact Or.inr (Or.inr (Or.inl (Option.some.inj h).symm))
  rw [if_neg h4] at h
  by_cases h5 : code = CondGte
  · rw [if_pos h5] at h
    exact Or.inr (Or.inr (Or.inr (Or.inl (Option.some.inj h).symm)))
  rw [if_neg h5] at h
  by_cases h6 : code = CondLt
  · rw [if_pos h6] at h
    exact Or.inr (Or.inr (Or.inr (Or.inr (Or.inl (Option.some.inj h).symm))))
  rw [if_neg h6] at h
  by_cases h7 : code = CondLte
  · rw [if_pos h7] at h
    exact Or.inr (Or.inr (Or.inr (Or.inr (Or.inr (Or.inl (Option.some.inj h).symm)))))
  rw [if_neg h7] at h
  by_cases h8 : code = CondIn
  · rw [if_pos h8] at h
    exact Or.inr (Or.inr (Or.inr (Or.inr (Or.inr (Or.inr (Or.inl (Option.some.inj h).symm))))))
  rw [if_neg h8] at h
  by_cases h9 : code = CondNin
  · rw [if_pos h9] at h
    exact Or.inr (Or.inr (Or.inr (Or.inr (Or.inr (Or.inr (Or.inr
      (Or.inl (Option.some.inj h).symm)))))))
  rw [if_neg h9] at h
  by_cases h10 : code = CondRegex
  · rw [if_pos h10] at h
    exact Or.inr (Or.inr (Or.inr (Or.inr (Or.inr (Or.inr (Or.inr
      (Or.inr (Option.some.inj h).symm)))))))
  rw [if_neg h10] at h
  by_cases h11 : code = CondLike
  · rw [if_pos h11] at h
    exact Or.inr (Or.inr (Or.inr (Or.inr (Or.inr (Or.inr (Or.inr
      (Or.inr (Option.some.inj h).symm)))))))
  rw [if_neg h11] at h
  exact absurd h (by simp)

theorem Build_named_leaf (op : Operator) (f : String) (val : Val) (hf : f ≠ "") :
    Filter.Build [Expr.field op f val] = .M [(f, .M [(op, val)])] := by
  have h : f.length > 0 := by
    rcases f with ⟨cs⟩
    cases cs with
    | nil => exact absurd rfl hf
    | cons x xs => simp [String.length]
  simp [Filter.Build, Filter.buildStep, h, mapSet, Expr.Build]

/-- C1 (as amended): a multimap holding exactly the three keys of one triple with a
non-empty field `f` and a catalog code other than regex/like gives the filter of the one
leaf `(op, f, coerced value)`, rendered as the single-key document `{f: {op: coerced}}`;
that leaf is the one built by the comparison constructor of `op` from `f` and the coerced
value, and for in/nin by `In`/`Nin` from `f` and the elements of the coerced list. -/
theorem single_triple_renders_one_leaf (c : Cast) (ord : MapOrder) (values : Values)
    (name a o f v code : String) (op : Operator)
    (hname : isSegment name = true) (ha : isSegment a = true) (ho : isSegment o = true)
    (hf : f ≠ "") (hcode : conditions code = some op) (hop : op ≠ OpRegex)
    (hv : values.Perm (tripleEntries name a o f v code)) :
    ∃ val, parse c v op = some val
      ∧ ToFilter c ord values name = some [Expr.field op f val]
      ∧ (ToFilter c ord values name).map Filter.Build = some (.M [(f, .M [(op, val)])])
      ∧ (∀ ctor, comparisonCtor op = some ctor →
          Filter.Build [ctor f val] = .M [(f, .M [(op, val)])])
      ∧ (∀ ctor xs, listCtor op = some ctor → val = .arr xs →
          Filter.Build [ctor f xs] = .M [(f, .M [(op, val)])])
      ∧ ((comparisonCtor op).isSome ∨ (listCtor op).isSome) := by
  obtain ⟨val, hp⟩ := parse_total c v op
  obtain ⟨ht, hF, hV, hC⟩ := single_facts values name a o f v code hname ha ho hv
  have hl : leafOf c values (name, a, o) = some (Expr.field op f val) := by
    rw [leafOf_eq c values name a o f v code op val hf hcode hF hV hC hp]
    simp [mkExpr, hop]
  have hT := ToFilter_of_single c ord values (name, a, o) _ ht hl
  have hB := Build_named_leaf op f val hf
  refine ⟨val, hp, hT, ?_, ?_, ?_, ?_⟩
  · rw [hT]
    simp [hB]
  · intro ctor hctor
    rw [← hB]
    unfold comparisonCtor at hctor
    split_ifs at hctor with h1 h2 h3 h4 h5 h6 <;> cases hctor
    · rw [h1]; rfl
    · rw [h2]; rfl
    · rw [h3]; rfl
    · rw [h4]; rfl
    · rw [h5]; rfl
    · rw [h6]; rfl
  · intro ctor xs hctor hxs
    rw [← hB, hxs]
    unfold listCtor at hctor
    split_ifs at hctor with h1 h2 <;> cases hctor
    · rw [h1]; rfl
    · rw [h2]; rfl
  · rcases conditions_cases code op hcode with h | h | h | h | h | h | h | h | h
    all_goals first
      | exact absurd h hop
      | (subst h; simp [comparisonCtor, listCtor, OpEq, OpNe, OpGt, OpGte, OpLt, OpLte, OpIn,
          OpNin])

/-- Example A through C1: `filters[0][0]` with field `sku`, value `ABC`, condition `eq`
renders to `{sku: {$eq: "ABC"}}`. -/
theorem single_triple_renders_one_leaf_witness :
    (ToFilter goCast MapOrder.insertion (tripleEntries "filters" "0" "0" "sku" "ABC" "eq")
        "filters").map Filter.Build = some (.M [("sku", .M [("$eq", .str "ABC")])]) := by
  obtain ⟨val, hp, _, hdoc, _⟩ := single_triple_renders_one_leaf goCast MapOrder.insertion
    (tripleEntries "filters" "0" "0" "sku" "ABC" "eq") "filters" "0" "0" "sku" "ABC" "eq" OpEq
    (by decide) (by decide) (by decide) (by decide) (by decide) (by decide) (List.Perm.refl _)
  have hval : val = .str "ABC" := by
    have h2 : parse goCast "ABC" OpEq = some (.str "ABC") := by rfl
    rw [h2] at hp
    exact (Option.some.inj hp).symm
  rw [hdoc, hval]
  rfl

/-- C1 as stated fails for in/nin with a value that is not coerced to a list: the triple
`qty`, empty value, `in` renders to `{qty: {$in: ""}}`, which no call of `In` renders to. -/
theorem single_triple_in_not_builder :
    (ToFilter goCast MapOrder.insertion (tripleEntries "filters" "0" "0" "qty" "" "in")
        "filters").map Filter.Build = some (.M [("qty", .M [("$in", .str "")])])
      ∧ ∀ xs : List Val, Filter.Build [In "qty" xs] ≠ .M [("qty", .M [("$in", .str "")])] := by
  refine ⟨by rfl, ?_⟩
  intro xs h
  have hlen : 0 < "qty".length := by decide
  simp [Filter.Build, Filter.buildStep, In, mapSet, Expr.Build, hlen] at h

/-! ## The regex and like codes -/

/-- C9: for a non-empty field `f` and any raw value `v`, the complete triple with code
`regex` and the same triple with code `like` give the same one-leaf filter, the leaf being
`Regex(f, v, "i")`: operator `$regex`, name `f`, pattern `v` itself, options `"i"`. -/
theorem regex_like_same_leaf (c : Cast) (ord : MapOrder) (values1 values2 : Values)
    (name a o f v : String)
    (hname : isSegment name = true) (ha : isSegment a = true) (ho : isSegment o = true)
    (hf : f ≠ "")
    (h1 : values1.Perm (tripleEntries name a o f v CondRegex))
    (h2 : values2.Perm (tripleEntries name a o f v CondLike)) :
    ToFilter c ord values1 name = some [Regex f v ["i"]]
      ∧ ToFilter c ord values2 name = some [Regex f v ["i"]]
      ∧ Regex f v ["i"] = Expr.field OpRegex f (.regex v "i") := by
  have hp : parse c v OpRegex = some (.str v) := parse_regex_or_empty c v OpRegex (Or.inl rfl)
  have hm : mkExpr OpRegex f (.str v) = some (Regex f v ["i"]) := by simp [mkExpr]
  refine ⟨?_, ?_, rfl⟩
  · obtain ⟨ht, hF, hV, hC⟩ := single_facts values1 name a o f v CondRegex hname ha ho h1
    have hl := leafOf_eq c values1 name a o f v CondRegex OpRegex (.str v) hf (by rfl) hF hV hC hp
    rw [hm] at hl
    exact ToFilter_of_single c ord values1 (name, a, o) _ ht hl
  · obtain ⟨ht, hF, hV, hC⟩ := single_facts values2 name a o f v CondLike hname ha ho h2
    have hl := leafOf_eq c values2 name a o f v CondLike OpRegex (.str v) hf (by rfl) hF hV hC hp
    rw [hm] at hl
    exact ToFilter_of_single c ord values2 (name, a, o) _ ht hl

/-- C9 on `filters[0][0]` with field `sku` and the value `WSH%`: under `regex` and under
`like` the leaf has the pattern `WSH%` unchanged and the options `i`. -/
theorem regex_like_same_leaf_witness :
    ToFilter goCast MapOrder.insertion (tripleEntries "filters" "0" "0" "sku" "WSH%" "regex")
        "filters" = some [Expr.field "$regex" "sku" (.regex "WSH%" "i")]
      ∧ ToFilter goCast MapOrder.insertion (tripleEntries "filters" "0" "0" "sku" "WSH%" "like")
        "filters" = some [Expr.field "$regex" "sku" (.regex "WSH%" "i")] := by
  have h := regex_like_same_leaf goCast MapOrder.insertion
    (tripleEntries "filters" "0" "0" "sku" "WSH%" "regex")
    (tripleEntries "filters" "0" "0" "sku" "WSH%" "like") "filters" "0" "0" "sku" "WSH%"
    (by decide) (by decide) (by decide) (by decide) (List.Perm.refl _) (List.Perm.refl _)
  exact ⟨h.1, h.2.1⟩

/-! ## Two triples of one group -/

theorem triplesOf_head (values : Values) (k : String) (vs : List String) (rest : Values)
    (t : String × String × String) (h : values = (k, vs) :: rest) (ht : tripleOf k = some t) :
    ∃ l, triplesOf values = t :: l := by
  subst h
  refine ⟨firstOcc [groupKey t.1 t.2.1 t.2.2] ((rest.map Prod.fst).filterMap tripleOf), ?_⟩
  simp [triplesOf, List.filterMap_cons, ht, firstOcc]

theorem pairEntries_nodup (name a o1 o2 f1 v1 f2 v2 : String)
    (hname : isSegment name = true) (ha : isSegment a = true) (ho1 : isSegment o1 = true)
    (ho2 : isSegment o2 = true) (ho : o1 ≠ o2) :
    ((pairEntries name a o1 o2 f1 v1 f2 v2).map Prod.fst).Nodup := by
  unfold pairEntries
  rw [List.map_append]
  refine List.Nodup.append (tripleEntries_nodup _ _ _ _ _ _) (tripleEntries_nodup _ _ _ _ _ _) ?_
  intro k hk1 hk2
  simp only [tripleEntries, List.map_cons, List.map_nil, List.mem_cons, List.mem_singleton,
    List.not_mem_nil, or_false] at hk1 hk2
  have key : ∀ x y, isSegment x = true → isSegment y = true →
      attrKey name a o1 x ≠ attrKey name a o2 y :=
    fun x y hx hy => attrKey_ne_of_ne name a o1 o2 x y ho ho1 ho2 hname ha hx hy
  have sF := isSegment_QueryField
  have sV := isSegment_QueryValue
  have sC := isSegment_QueryCondition
  rcases hk1 with h | h | h <;> rcases hk2 with g | g | g <;> rw [h] at g
  · exact key _ _ sF sF g
  · exact key _ _ sF sV g
  · exact key _ _ sF sC g
  · exact key _ _ sV sF g
  · exact key _ _ sV sV g
  · exact key _ _ sV sC g
  · exact key _ _ sC sF g
  · exact key _ _ sC sV g
  · exact key _ _ sC sC g

theorem pair_keys (values : Values) (name a o1 o2 f1 v1 f2 v2 : String)
    (hname : isSegment name = true) (ha : isSegment a = true) (ho1 : isSegment o1 = true)
    (ho2 : isSegment o2 = true)
    (hv : values.Perm (pairEntries name a o1 o2 f1 v1 f2 v2)) :
    ∀ key ∈ values.map Prod.fst,
      tripleOf key = some (name, a, o1) ∨ tripleOf key = some (name, a, o2) := by
  intro key hk
  have hk2 := (hv.map Prod.fst).mem_iff.1 hk
  simp only [pairEntries, tripleEntries, List.map_cons, List.map_nil, List.mem_cons,
    List.mem_singleton, List.not_mem_nil, or_false, List.cons_append, List.nil_append] at hk2
  rcases hk2 with h | h | h | h | h | h <;> subst h
  · exact Or.inl (tripleOf_attrKey name a o1 _ hname ha ho1 isSegment_QueryField)
  · exact Or.inl (tripleOf_attrKey name a o1 _ hname ha ho1 isSegment_QueryValue)
  · exact Or.inl (tripleOf_attrKey name a o1 _ hname ha ho1 isSegment_QueryCondition)
  · exact Or.inr (tripleOf_attrKey name a o2 _ hname ha ho2 isSegment_QueryField)
  · exact Or.inr (tripleOf_attrKey name a o2 _ hname ha ho2 isSegment_QueryValue)
  · exact Or.inr (tripleOf_attrKey name a o2 _ hname ha ho2 isSegment_QueryCondition)

theorem pair_triplesOf (values : Values) (name a o1 o2 f1 v1 f2 v2 : String)
    (hname : isSegment name = true) (ha : isSegment a = true) (ho1 : isSegment o1 = true)
    (ho2 : isSegment o2 = true) (ho : o1 ≠ o2)
    (hv : values.Perm (pairEntries name a o1 o2 f1 v1 f2 v2)) :
    triplesOf values = (if tripleOf ((values.map Prod.fst).headD "") = some (name, a, o1)
      then [(name, a, o1), (name, a, o2)] else [(name, a, o2), (name, a, o1)]) := by
  have hkeys := pair_keys values name a o1 o2 f1 v1 f2 v2 hname ha ho1 ho2 hv
  have hne : (name, a, o1) ≠ (name, a, o2) := by
    intro h
    simp only [Prod.mk.injEq, true_and] at h
    exact ho h
  have hmem : ∀ x, x ∈ triplesOf values ↔ x = (name, a, o1) ∨ x = (name, a, o2) := by
    intro x
    rw [mem_triplesOf]
    constructor
    · rintro ⟨key, hk, hx⟩
      rcases hkeys key hk with h | h <;> rw [h] at hx
      · exact Or.inl (Option.some.inj hx).symm
      · exact Or.inr (Option.some.inj hx).symm
    · rintro (h | h) <;> subst h
      · refine ⟨attrKey name a o1 QueryField, ?_,
          tripleOf_attrKey name a o1 _ hname ha ho1 isSegment_QueryField⟩
        exact (hv.map Prod.fst).mem_iff.2 (by simp [pairEntries, tripleEntries])
      · refine ⟨attrKey name a o2 QueryField, ?_,
          tripleOf_attrKey name a o2 _ hname ha ho2 isSegment_QueryField⟩
        exact (hv.map Prod.fst).mem_iff.2 (by simp [pairEntries, tripleEntries])
  have hpair := eq_pair_of_nodup _ _ _ hne (triplesOf_nodup values) hmem
  cases hvals : values with
  | nil =>
    rw [hvals] at hv
    simpa [pairEntries, tripleEntries] using hv.length_eq
  | cons kv rest =>
    obtain ⟨k, vs⟩ := kv
    rw [← hvals]
    have hhead : (values.map Prod.fst).headD "" = k := by simp [hvals]
    rw [hhead]
    have hk : k ∈ values.map Prod.fst := by simp [hvals]
    rcases hkeys k hk with h | h
    · obtain ⟨l, hl⟩ := triplesOf_head values k vs rest _ hvals h
      rw [if_pos h]
      rcases hpair with hp | hp
      · exact hp
      · rw [hp] at hl
        simp only [List.cons.injEq, Prod.mk.injEq, true_and] at hl
        exact absurd hl.1.symm ho
    · obtain ⟨l, hl⟩ := triplesOf_head values k vs rest _ hvals h
      have hneq : ¬ tripleOf k = some (name, a, o1) := by
        rw [h]
        intro e
        exact hne (Option.some.inj e).symm
      rw [if_neg hneq]
      rcases hpair with hp | hp
      · rw [hp] at hl
        simp only [List.cons.injEq, Prod.mk.injEq, true_and] at hl
        exact absurd hl.1 ho
      · exact hp

theorem Parse_of_pair (c : Cast) (ord : MapOrder) (values : Values)
    (name a o1 o2 : String) (e1 e2 : Expr)
    (h : triplesOf values = [(name, a, o1), (name, a, o2)])
    (hl1 : leafOf c values (name, a, o1) = some e1)
    (hl2 : leafOf c values (name, a, o2) = some e2) :
    Parse c ord values = some [(name, [Expr.logical OpOr [e1, e2]])] := by
  rw [Parse_eq, h]
  have hp := List.perm_singleton.1 (ord.perm name [(a, (⟨OpOr, [e1, e2]⟩ : Logical))])
  simp [addTriples, hl1, hl2, addLeaf, mapGet, mapSet, combineStep, hp, orExpr, Logical.toExpr]

theorem length_pos_of_ne_empty (f : String) (hf : f ≠ "") : f.length > 0 := by
  rcases f with ⟨cs⟩
  cases cs with
  | nil => exact absurd rfl hf
  | cons x xs => simp [String.length]

theorem Build_or_pair (op1 op2 : Operator) (f1 f2 : String) (w1 w2 : Val) (hf1 : f1 ≠ "")
    (hf2 : f2 ≠ "") :
    Filter.Build [Expr.logical OpOr [Expr.field op1 f1 w1, Expr.field op2 f2 w2]]
      = .M [(OpOr, .arr [.M [(f1, .M [(op1, w1)])], .M [(f2, .M [(op2, w2)])]])] := by
  have h1 := length_pos_of_ne_empty f1 hf1
  have h2 := length_pos_of_ne_empty f2 hf2
  simp [Filter.Build, Filter.buildStep, mapSet, Expr.Build, Logical.buildData,
    Logical.buildItem, h1, h2]

/-- C2 (as amended): a multimap holding exactly two complete triples of one group
(same name and andIndex, different orIndex) with non-empty fields and condition `eq`
renders to the single-key document `{$or: [d, d']}` whose two entries are the named-leaf
documents `{f1: {$eq: v1'}}` and `{f2: {$eq: v2'}}`, in the order in which the key
enumeration first meets the two triples: the triple of the first enumerated key comes
first. -/
theorem two_triples_render_or (c : Cast) (ord : MapOrder) (values : Values)
    (name a o1 o2 f1 v1 f2 v2 : String)
    (hname : isSegment name = true) (ha : isSegment a = true) (ho1 : isSegment o1 = true)
    (ho2 : isSegment o2 = true) (ho : o1 ≠ o2) (hf1 : f1 ≠ "") (hf2 : f2 ≠ "")
    (hv : values.Perm (pairEntries name a o1 o2 f1 v1 f2 v2)) :
    ∃ w1 w2, parse c v1 OpEq = some w1 ∧ parse c v2 OpEq = some w2
      ∧ (ToFilter c ord values name).map Filter.Build
        = some (if tripleOf ((values.map Prod.fst).headD "") = some (name, a, o1)
            then .M [(OpOr, .arr [.M [(f1, .M [(OpEq, w1)])], .M [(f2, .M [(OpEq, w2)])]])]
            else .M [(OpOr, .arr [.M [(f2, .M [(OpEq, w2)])], .M [(f1, .M [(OpEq, w1)])]])]) := by
  obtain ⟨w1, hp1⟩ := parse_total c v1 OpEq
  obtain ⟨w2, hp2⟩ := parse_total c v2 OpEq
  refine ⟨w1, w2, hp1, hp2, ?_⟩
  have hnd : (values.map Prod.fst).Nodup :=
    (List.Perm.nodup_iff (hv.map Prod.fst)).2
      (pairEntries_nodup name a o1 o2 f1 v1 f2 v2 hname ha ho1 ho2 ho)
  have hmem : ∀ kv, kv ∈ pairEntries name a o1 o2 f1 v1 f2 v2 → kv ∈ values :=
    fun kv h => hv.mem_iff.2 h
  have hl1 : leafOf c values (name, a, o1) = some (Expr.field OpEq f1 w1) := by
    rw [leafOf_eq c values name a o1 f1 v1 CondEq OpEq w1 hf1 (by rfl)
      (Get_of_mem values _ f1 [] hnd (hmem _ (by simp [pairEntries, tripleEntries])))
      (Get_of_mem values _ v1 [] hnd (hmem _ (by simp [pairEntries, tripleEntries])))
      (Get_of_mem values _ CondEq [] hnd (hmem _ (by simp [pairEntries, tripleEntries]))) hp1]
    rfl
  have hl2 : leafOf c values (name, a, o2) = some (Expr.field OpEq f2 w2) := by
    rw [leafOf_eq c values name a o2 f2 v2 CondEq OpEq w2 hf2 (by rfl)
      (Get_of_mem values _ f2 [] hnd (hmem _ (by simp [pairEntries, tripleEntries])))
      (Get_of_mem values _ v2 [] hnd (hmem _ (by simp [pairEntries, tripleEntries])))
      (Get_of_mem values _ CondEq [] hnd (hmem _ (by simp [pairEntries, tripleEntries]))) hp2]
    rfl
  have ht := pair_triplesOf values name a o1 o2 f1 v1 f2 v2 hname ha ho1 ho2 ho hv
  by_cases hh : tripleOf ((values.map Prod.fst).headD "") = some (name, a, o1)
  · rw [if_pos hh] at ht
    rw [if_pos hh]
    simp [ToFilter, Parse_of_pair c ord values name a o1 o2 _ _ ht hl1 hl2, mapGet,
      Build_or_pair OpEq OpEq f1 f2 w1 w2 hf1 hf2]
  · rw [if_neg hh] at ht
    rw [if_neg hh]
    simp [ToFilter, Parse_of_pair c ord values name a o2 o1 _ _ ht hl2 hl1, mapGet,
      Build_or_pair OpEq OpEq f2 f1 w2 w1 hf2 hf1]

/-- Example E through C2, with the keys of the `sku` triple enumerated first: the document
is `{$or: [{sku: {$eq: "ABC"}}, {price: {$eq: 40}}]}`. -/
theorem two_triples_render_or_witness :
    (ToFilter goCast MapOrder.insertion
        (pairEntries "filters" "0" "0" "1" "sku" "ABC" "price" "40") "filters").map Filter.Build
      = some (.M [("$or", .arr [.M [("sku", .M [("$eq", .str "ABC")])],
          .M [("price", .M [("$eq", .float (.ofInt 40))])]])]) := by
  obtain ⟨w1, w2, hp1, hp2, h⟩ := two_triples_render_or goCast MapOrder.insertion
    (pairEntries "filters" "0" "0" "1" "sku" "ABC" "price" "40")
    "filters" "0" "0" "1" "sku" "ABC" "price" "40"
    (by decide) (by decide) (by decide) (by decide) (by decide) (by decide) (by decide)
    (List.Perm.refl _)
  have e1 : w1 = .str "ABC" := by
    have h2 : parse goCast "ABC" OpEq = some (.str "ABC") := by rfl
    rw [h2] at hp1
    exact (Option.some.inj hp1).symm
  have e2 : w2 = .float (.ofInt 40) := by
    have h2 : parse goCast "40" OpEq = some (.float (.ofInt 40)) := by rfl
    rw [h2] at hp2
    exact (Option.some.inj hp2).symm
  rw [h, e1, e2]
  rfl

/-- C2 as stated fails: with a key of the `price` triple (orIndex 1) enumerated before
the keys of the `sku` triple (orIndex 0), the OR array lists `price` first, and the
document is not the one with `sku` first. -/
theorem two_triples_order_follows_enumeration :
    (ToFilter goCast MapOrder.insertion
        (tripleEntries "filters" "0" "1" "price" "40" "eq"
          ++ tripleEntries "filters" "0" "0" "sku" "ABC" "eq") "filters").map Filter.Build
      = some (.M [("$or", .arr [.M [("price", .M [("$eq", .float (.ofInt 40))])],
          .M [("sku", .M [("$eq", .str "ABC")])]])])
    ∧ (ToFilter goCast MapOrder.insertion
        (tripleEntries "filters" "0" "1" "price" "40" "eq"
          ++ tripleEntries "filters" "0" "0" "sku" "ABC" "eq") "filters").map Filter.Build
      ≠ some (.M [("$or", .arr [.M [("sku", .M [("$eq", .str "ABC")])],
          .M [("price", .M [("$eq", .float (.ofInt 40))])]])]) := by
  have h : (ToFilter goCast MapOrder.insertion
        (tripleEntries "filters" "0" "1" "price" "40" "eq"
          ++ tripleEntries "filters" "0" "0" "sku" "ABC" "eq") "filters").map Filter.Build
      = some (.M [("$or", .arr [.M [("price", .M [("$eq", .float (.ofInt 40))])],
          .M [("sku", .M [("$eq", .str "ABC")])]])]) := by rfl
  refine ⟨h, ?_⟩
  rw [h]
  intro e
  simp at e

/-! ## Lemmas: the contents of `tmp2` -/

theorem mapSet_ne_nil {β : Type} (m : List (String × β)) (k : String) (v : β) :
    mapSet m k v ≠ [] := by
  cases m with
  | nil => simp [mapSet]
  | cons hd tl =>
    obtain ⟨k1, v1⟩ := hd
    by_cases h : k1 = k <;> simp [mapSet, h]

theorem leafOf_isSome_iff (c : Cast) (values : Values) (t : String × String × String) :
    (leafOf c values t).isSome = true ↔ qualifies values t := by
  unfold leafOf qualifies
  by_cases hf : values.Get (attrKey t.1 t.2.1 t.2.2 QueryField) = ""
  · simp [hf]
  · simp only [hf, if_false, ne_eq, not_false_eq_true, true_and]
    cases hc : conditions (values.Get (attrKey t.1 t.2.1 t.2.2 QueryCondition)) with
    | none => simp
    | some op =>
      obtain ⟨val, hv⟩ := parse_total c (values.Get (attrKey t.1 t.2.1 t.2.2 QueryValue)) op
      obtain ⟨e, he⟩ := mkExpr_parse c op
        (values.Get (attrKey t.1 t.2.1 t.2.2 QueryField)) _ val hv
      simp [hv, he]

theorem leafOf_isLeaf (c : Cast) (values : Values) (t : String × String × String) (e : Expr)
    (h : leafOf c values t = some e) : ∃ op f v, e = Expr.field op f v := by
  unfold leafOf at h
  split_ifs at h
  split at h
  · cases h
  · split at h
    · cases h
    · rename_i op _ val _
      unfold mkExpr at h
      split_ifs at h
      · split at h
        · cases h
          exact ⟨_, _, _, rfl⟩
        · cases h
      · cases h
        exact ⟨_, _, _, rfl⟩

theorem groupAt_addLeaf (m : List (String × List (String × Logical))) (d0 d1 : String)
    (e : Expr) (n a : String) :
    groupAt (addLeaf m d0 d1 e) n a
      = if d0 = n ∧ d1 = a then
          some ⟨((groupAt m n a).getD ⟨OpOr, []⟩).Op, ((groupAt m n a).getD ⟨OpOr, []⟩).Data ++ [e]⟩
        else groupAt m n a := by
  unfold groupAt addLeaf
  by_cases h0 : d0 = n
  · subst h0
    rw [mapGet_mapSet_self]
    by_cases h1 : d1 = a
    · subst h1
      simp [mapGet_mapSet_self]
    · simp [h1, mapGet_mapSet_of_ne _ _ _ _ h1]
  · simp [h0, mapGet_mapSet_of_ne _ _ _ _ h0]

theorem tmp2WF_addLeaf (m : List (String × List (String × Logical))) (d0 d1 : String)
    (e : Expr) (h : tmp2WF m) : tmp2WF (addLeaf m d0 d1 e) := by
  unfold addLeaf
  refine ⟨mapSet_nodup _ _ _ h.1, ?_⟩
  intro n inner hn
  by_cases h0 : d0 = n
  · subst h0
    rw [mapGet_mapSet_self] at hn
    cases hn
    refine ⟨mapSet_nodup _ _ _ ?_, mapSet_ne_nil _ _ _⟩
    cases hg : mapGet m d0 with
    | none => simp
    | some inner0 => simpa using (h.2 d0 inner0 hg).1
  · rw [mapGet_mapSet_of_ne _ _ _ _ h0] at hn
    exact h.2 n inner hn

theorem addTriples_cons (c : Cast) (values : Values) (t : String × String × String)
    (ts : List (String × String × String)) (m : List (String × List (String × Logical))) :
    addTriples c values (t :: ts) m
      = addTriples c values ts
          (match leafOf c values t with
            | none => m
            | some e => addLeaf m t.1 t.2.1 e) := rfl

theorem tmp2WF_addTriples (c : Cast) (values : Values) (ts : List (String × String × String))
    (m : List (String × List (String × Logical))) (h : tmp2WF m) :
    tmp2WF (addTriples c values ts m) := by
  induction ts generalizing m with
  | nil => exact h
  | cons t ts ih =>
    rw [addTriples_cons]
    apply ih
    cases leafOf c values t with
    | none => exact h
    | some e => exact tmp2WF_addLeaf m _ _ e h

theorem groupAt_addTriples (c : Cast) (values : Values) (ts : List (String × String × String))
    (m : List (String × List (String × Logical))) (n a : String) :
    groupAt (addTriples c values ts m) n a
      = if (leavesOf c values ts n a).isEmpty then groupAt m n a
        else some ⟨((groupAt m n a).getD ⟨OpOr, []⟩).Op,
          ((groupAt m n a).getD ⟨OpOr, []⟩).Data ++ leavesOf c values ts n a⟩ := by
  induction ts generalizing m with
  | nil => simp [addTriples, leavesOf]
  | cons t ts ih =>
    rw [addTriples_cons, ih]
    by_cases hm : t.1 = n ∧ t.2.1 = a
    · cases hl : leafOf c values t with
      | none =>
        have : leavesOf c values (t :: ts) n a = leavesOf c values ts n a := by
          simp [leavesOf, List.filter_cons, hm, List.filterMap_cons, hl]
        rw [this]
      | some e =>
        have : leavesOf c values (t :: ts) n a = e :: leavesOf c values ts n a := by
          simp [leavesOf, List.filter_cons, hm, List.filterMap_cons, hl]
        rw [this]
        simp only [groupAt_addLeaf, hm, and_self, if_true, Option.getD_some]
        cases hr : leavesOf c values ts n a with
        | nil => simp
        | cons x xs => simp
    · have : leavesOf c values (t :: ts) n a = leavesOf c values ts n a := by
        simp [leavesOf, List.filter_cons, hm]
      rw [this]
      cases hl : leafOf c values t with
      | none => rfl
      | some e => simp only [groupAt_addLeaf, hm, if_false]

theorem groupAt_tmp2 (c : Cast) (values : Values) (ts : List (String × String × String))
    (n a : String) :
    groupAt (addTriples c values ts []) n a
      = if (leavesOf c values ts n a).isEmpty then none
        else some ⟨OpOr, leavesOf c values ts n a⟩ := by
  rw [groupAt_addTriples]
  simp [groupAt, mapGet]

/-! ## Lemmas: the second loop of `Parse` -/

theorem combineStep_eq (ord : MapOrder) (result : List (String × Filter))
    (entry : String × List (String × Logical)) :
    combineStep ord result entry
      = match nameFilter (andData ord entry.1 entry.2) with
        | none => result
        | some f => mapSet result entry.1 f := by
  unfold combineStep nameFilter andData
  split <;> rfl

theorem mapGet_none_of_not_mem {β : Type} (m : List (String × β)) (k : String)
    (h : k ∉ m.map Prod.fst) : mapGet m k = none := by
  cases hg : mapGet m k with
  | none => rfl
  | some v => exact absurd ((mapGet_isSome_iff m k).1 (by simp [hg])) h

theorem combine_get (ord : MapOrder) (tmp2 : List (String × List (String × Logical)))
    (hn : (tmp2.map Prod.fst).Nodup) (result : List (String × Filter)) (n : String) :
    mapGet (tmp2.foldl (combineStep ord) result) n
      = match mapGet tmp2 n with
        | none => mapGet result n
        | some inner =>
          match nameFilter (andData ord n inner) with
          | none => mapGet result n
          | some f => some f := by
  induction tmp2 generalizing result with
  | nil => simp [mapGet]
  | cons hd tl ih =>
    obtain ⟨k, inner⟩ := hd
    simp only [List.map_cons, List.nodup_cons] at hn
    rw [List.foldl_cons, ih hn.2, combineStep_eq]
    by_cases hk : k = n
    · subst hk
      rw [mapGet_none_of_not_mem tl k hn.1]
      simp only [mapGet, if_true]
      cases nameFilter (andData ord k inner) with
      | none => rfl
      | some f => simp [mapGet_mapSet_self]
    · simp only [mapGet, hk, if_false]
      have hres : mapGet (match nameFilter (andData ord k inner) with
          | none => result
          | some f => mapSet result k f) n = mapGet result n := by
        cases nameFilter (andData ord k inner) with
        | none => rfl
        | some f => simp [mapGet_mapSet_of_ne _ _ _ _ hk]
      simp only [hres]

theorem tmp2Of_WF (c : Cast) (values : Values) : tmp2WF (tmp2Of c values) :=
  tmp2WF_addTriples c values _ [] ⟨by simp, by simp [mapGet]⟩

theorem ToFilter_eq (c : Cast) (ord : MapOrder) (values : Values) (name : String) :
    ToFilter c ord values name
      = some (match mapGet (tmp2Of c values) name with
          | none => []
          | some inner => (nameFilter (andData ord name inner)).getD []) := by
  unfold ToFilter
  rw [Parse_eq]
  simp only [Option.some.injEq]
  have h := combine_get ord (tmp2Of c values) (tmp2Of_WF c values).1 [] name
  unfold tmp2Of at h
  unfold tmp2Of
  rw [h]
  cases mapGet (addTriples c values (triplesOf values) []) name with
  | none => simp [mapGet]
  | some inner =>
    cases hnf : nameFilter (andData ord name inner) with
    | none => simp [hnf, mapGet]
    | some f => simp [hnf]

theorem andData_length (ord : MapOrder) (n : String) (inner : List (String × Logical)) :
    (andData ord n inner).length = inner.length := by
  simp [andData, (ord.perm n inner).length_eq]

theorem nameFilter_isSome (data : List Expr) (h : data ≠ []) : ∃ f, nameFilter data = some f := by
  match data, h with
  | [e], _ => exact ⟨_, rfl⟩
  | e1 :: e2 :: es, _ => exact ⟨_, rfl⟩

theorem mapGet_addLeaf_isSome (m : List (String × List (String × Logical))) (d0 d1 : String)
    (e : Expr) (n : String) :
    (mapGet (addLeaf m d0 d1 e) n).isSome = true ↔ d0 = n ∨ (mapGet m n).isSome = true := by
  unfold addLeaf
  by_cases h : d0 = n
  · subst h
    simp [mapGet_mapSet_self]
  · simp [mapGet_mapSet_of_ne _ _ _ _ h, h]

theorem mapGet_addTriples_isSome (c : Cast) (values : Values)
    (ts : List (String × String × String)) (m : List (String × List (String × Logical)))
    (n : String) :
    (mapGet (addTriples c values ts m) n).isSome = true
      ↔ (mapGet m n).isSome = true
        ∨ ∃ t ∈ ts, t.1 = n ∧ (leafOf c values t).isSome = true := by
  induction ts generalizing m with
  | nil => simp [addTriples]
  | cons t ts ih =>
    rw [addTriples_cons, ih]
    cases hl : leafOf c values t with
    | none =>
      constructor
      · rintro (h | ⟨u, hu, h⟩)
        · exact Or.inl h
        · exact Or.inr ⟨u, List.mem_cons_of_mem _ hu, h⟩
      · rintro (h | ⟨u, hu, h⟩)
        · exact Or.inl h
        · rcases List.mem_cons.1 hu with e | e
          · subst e
            rw [hl] at h
            simp at h
          · exact Or.inr ⟨u, e, h⟩
    | some e =>
      simp only [mapGet_addLeaf_isSome]
      constructor
      · rintro ((h | h) | ⟨u, hu, h⟩)
        · exact Or.inr ⟨t, List.mem_cons_self _ _, h, by simp [hl]⟩
        · exact Or.inl h
        · exact Or.inr ⟨u, List.mem_cons_of_mem _ hu, h⟩
      · rintro (h | ⟨u, hu, h⟩)
        · exact Or.inl (Or.inr h)
        · rcases List.mem_cons.1 hu with e1 | e1
          · subst e1
            exact Or.inl (Or.inl h.1)
          · exact Or.inr ⟨u, e1, h⟩

theorem tripleOf_iff_fields (key : String) (t : String × String × String) :
    tripleOf key = some t ↔ ∃ x, fields key = [t.1, t.2.1, t.2.2, x] := by
  unfold tripleOf
  constructor
  · intro h
    split at h
    · rename_i d0 d1 d2 d3 heq
      cases h
      exact ⟨d3, heq⟩
    · cases h
  · rintro ⟨x, hx⟩
    rw [hx]

theorem mapGet_tmp2Of_isSome (c : Cast) (values : Values) (n : String) :
    (mapGet (tmp2Of c values) n).isSome = true
      ↔ ∃ key ∈ values.map Prod.fst, ∃ a o x, fields key = [n, a, o, x]
          ∧ qualifies values (n, a, o) := by
  unfold tmp2Of
  rw [mapGet_addTriples_isSome]
  simp only [mapGet, Option.isSome_none, Bool.false_eq_true, false_or]
  constructor
  · rintro ⟨t, ht, hn, hl⟩
    obtain ⟨key, hk, hkt⟩ := (mem_triplesOf values t).1 ht
    obtain ⟨x, hx⟩ := (tripleOf_iff_fields key t).1 hkt
    obtain ⟨t0, t1, t2⟩ := t
    simp only at hn
    subst hn
    exact ⟨key, hk, t1, t2, x, hx, (leafOf_isSome_iff c values _).1 hl⟩
  · rintro ⟨key, hk, a, o, x, hx, hq⟩
    refine ⟨(n, a, o), (mem_triplesOf values _).2 ⟨key, hk, ?_⟩, rfl,
      (leafOf_isSome_iff c values _).2 hq⟩
    exact (tripleOf_iff_fields key _).2 ⟨x, hx⟩

/-! ## Dropped triples -/

/-- C3: `Parse` never fails; its result has an entry for a name exactly when some key of
four fields `[name, a, o, _]` names a triple whose field value is non-empty and whose
condition value is a key of the catalog (an absent condition reads as `""`); and when no
triple of the name qualifies, `ToFilter` is the empty filter, rendered as the empty
document `bson.D{}`. -/
theorem parse_drops_malformed_groups (c : Cast) (ord : MapOrder) (values : Values)
    (name : String) :
    ∃ result, Parse c ord values = some result
      ∧ ((mapGet result name).isSome = true
          ↔ ∃ key ∈ values.map Prod.fst, ∃ a o x, fields key = [name, a, o, x]
              ∧ values.Get (attrKey name a o QueryField) ≠ ""
              ∧ (conditions (values.Get (attrKey name a o QueryCondition))).isSome = true)
      ∧ ((¬ ∃ key ∈ values.map Prod.fst, ∃ a o x, fields key = [name, a, o, x]
              ∧ values.Get (attrKey name a o QueryField) ≠ ""
              ∧ (conditions (values.Get (attrKey name a o QueryCondition))).isSome = true)
          → ToFilter c ord values name = some []
            ∧ (ToFilter c ord values name).map Filter.Build = some (.D [])) := by
  have hP := Parse_eq c ord values
  have hq := mapGet_tmp2Of_isSome c values name
  unfold qualifies at hq
  simp only at hq
  have hget := combine_get ord (tmp2Of c values) (tmp2Of_WF c values).1 [] name
  refine ⟨_, hP, ?_, ?_⟩
  · rw [← hq]
    show (mapGet ((tmp2Of c values).foldl (combineStep ord) []) name).isSome = true ↔ _
    rw [hget]
    cases hm : mapGet (tmp2Of c values) name with
    | none => simp [mapGet]
    | some inner =>
      have hne : andData ord name inner ≠ [] := by
        intro h
        have hl := andData_length ord name inner
        rw [h] at hl
        exact ((tmp2Of_WF c values).2 name inner hm).2 (List.length_eq_zero.1 hl.symm)
      obtain ⟨f, hf⟩ := nameFilter_isSome _ hne
      simp [hf]
  · intro hno
    rw [← hq] at hno
    have hnone : mapGet (tmp2Of c values) name = none := by
      cases hm : mapGet (tmp2Of c values) name with
      | none => rfl
      | some inner => simp [hm] at hno
    have hT : ToFilter c ord values name = some [] := by
      rw [ToFilter_eq, hnone]
    refine ⟨hT, ?_⟩
    rw [hT]
    rfl

/-- C3 on a multimap whose sole triple has an unknown condition code (`to`): no triple
qualifies, there is no entry for the name, and the filter renders to the empty document. -/
theorem parse_drops_malformed_groups_witness :
    Parse goCast MapOrder.insertion (tripleEntries "filters" "2" "0" "price" "49.99" "to")
        = some []
      ∧ (ToFilter goCast MapOrder.insertion
          (tripleEntries "filters" "2" "0" "price" "49.99" "to") "filters").map Filter.Build
        = some (.D []) := by
  obtain ⟨result, hP, hiff, himp⟩ := parse_drops_malformed_groups goCast MapOrder.insertion
    (tripleEntries "filters" "2" "0" "price" "49.99" "to") "filters"
  have hres : Parse goCast MapOrder.insertion
      (tripleEntries "filters" "2" "0" "price" "49.99" "to") = some [] := by rfl
  rw [hres] at hP
  have hr : result = [] := (Option.some.inj hP).symm
  subst hr
  refine ⟨hres, (himp ?_).2⟩
  intro h
  have h2 := hiff.2 h
  simp [mapGet] at h2

/-! ## Lemmas: the shape of parsed filters -/

theorem leavesOf_isLeaf (c : Cast) (values : Values) (ts : List (String × String × String))
    (n a : String) : ∀ e ∈ leavesOf c values ts n a, e.isLeaf = true := by
  intro e he
  unfold leavesOf at he
  obtain ⟨t, _, ht⟩ := List.mem_filterMap.1 he
  obtain ⟨op, f, v, rfl⟩ := leafOf_isLeaf c values t e ht
  rfl

theorem groupAt_of_mapGet (m : List (String × List (String × Logical))) (n a : String)
    (inner : List (String × Logical)) (h : mapGet m n = some inner) :
    groupAt m n a = mapGet inner a := by
  simp [groupAt, h]

theorem inner_entries (c : Cast) (values : Values) (n : String)
    (inner : List (String × Logical)) (h : mapGet (tmp2Of c values) n = some inner) :
    ∀ kv ∈ inner, kv.2 = ⟨OpOr, leavesOf c values (triplesOf values) n kv.1⟩
      ∧ leavesOf c values (triplesOf values) n kv.1 ≠ [] := by
  intro kv hkv
  obtain ⟨a, l⟩ := kv
  have hnd := ((tmp2Of_WF c values).2 n inner h).1
  have hg := mapGet_of_mem_nodup inner a l hnd hkv
  rw [← groupAt_of_mapGet _ n a inner h] at hg
  unfold tmp2Of at hg
  rw [groupAt_tmp2] at hg
  cases hl : leavesOf c values (triplesOf values) n a with
  | nil => simp [hl] at hg
  | cons x xs =>
    simp only [hl, List.isEmpty_cons, Bool.false_eq_true, if_false, Option.some.injEq] at hg
    exact ⟨hg.symm, by simp⟩

theorem inner_keys_iff (c : Cast) (values : Values) (n : String)
    (inner : List (String × Logical)) (h : mapGet (tmp2Of c values) n = some inner) (a : String) :
    a ∈ inner.map Prod.fst ↔ leavesOf c values (triplesOf values) n a ≠ [] := by
  rw [← mapGet_isSome_iff, ← groupAt_of_mapGet _ n a inner h]
  unfold tmp2Of
  rw [groupAt_tmp2]
  cases hl : leavesOf c values (triplesOf values) n a with
  | nil => simp
  | cons x xs => simp

theorem orExpr_isGroupExpr (leaves : List Expr) (hne : leaves ≠ [])
    (hl : ∀ e ∈ leaves, e.isLeaf = true) : isGroupExpr (orExpr ⟨OpOr, leaves⟩) := by
  match leaves, hne, hl with
  | [e], _, hl => exact Or.inl (hl e (by simp))
  | e1 :: e2 :: es, _, hl =>
    exact Or.inr ⟨e1 :: e2 :: es, rfl, by simp, hl⟩

theorem andData_isGroupExpr (c : Cast) (ord : MapOrder) (values : Values) (n : String)
    (inner : List (String × Logical)) (h : mapGet (tmp2Of c values) n = some inner) :
    ∀ e ∈ andData ord n inner, isGroupExpr e := by
  intro e he
  unfold andData at he
  obtain ⟨kv, hkv, rfl⟩ := List.mem_map.1 he
  have hkv2 : kv ∈ inner := (ord.perm n inner).mem_iff.1 hkv
  obtain ⟨h1, h2⟩ := inner_entries c values n inner h kv hkv2
  rw [h1]
  exact orExpr_isGroupExpr _ h2 (leavesOf_isLeaf c values _ n kv.1)

theorem nameFilter_shape (data : List Expr) (f : Filter) (hd : ∀ e ∈ data, isGroupExpr e)
    (h : nameFilter data = some f) : ∃ e, f = [e] ∧ isNameExpr e := by
  match data, hd, h with
  | [e], hd, h =>
    cases h
    exact ⟨e, rfl, Or.inl (hd e (by simp))⟩
  | e1 :: e2 :: es, hd, h =>
    cases h
    exact ⟨_, rfl, Or.inr ⟨e1 :: e2 :: es, rfl, by simp, hd⟩⟩

theorem nodes_of_isLeaf (e : Expr) (h : e.isLeaf = true) : e.nodes = [e] := by
  cases e with
  | logical op data => simp [Expr.isLeaf] at h
  | field op name value => simp [Expr.nodes]

theorem mem_nodesOfList (es : List Expr) (x : Expr) :
    x ∈ Expr.nodesOfList es ↔ ∃ e ∈ es, x ∈ e.nodes := by
  induction es with
  | nil => simp [Expr.nodesOfList]
  | cons e es ih => simp [Expr.nodesOfList, ih]

theorem nodes_isGroupExpr (e : Expr) (h : isGroupExpr e) (op : Operator) (data : List Expr)
    (hm : Expr.logical op data ∈ e.nodes) : 2 ≤ data.length := by
  rcases h with h | ⟨d, rfl, hlen, hleaf⟩
  · rw [nodes_of_isLeaf e h] at hm
    simp only [List.mem_singleton] at hm
    rw [← hm] at h
    simp [Expr.isLeaf] at h
  · simp only [Expr.nodes, List.mem_cons] at hm
    rcases hm with hm | hm
    · cases hm
      exact hlen
    · obtain ⟨x, hx, hxm⟩ := (mem_nodesOfList d _).1 hm
      rw [nodes_of_isLeaf x (hleaf x hx)] at hxm
      simp only [List.mem_singleton] at hxm
      have := hleaf x hx
      rw [← hxm] at this
      simp [Expr.isLeaf] at this

theorem nodes_isNameExpr (e : Expr) (h : isNameExpr e) (op : Operator) (data : List Expr)
    (hm : Expr.logical op data ∈ e.nodes) : 2 ≤ data.length := by
  rcases h with h | ⟨d, rfl, hlen, hg⟩
  · exact nodes_isGroupExpr e h op data hm
  · simp only [Expr.nodes, List.mem_cons] at hm
    rcases hm with hm | hm
    · cases hm
      exact hlen
    · obtain ⟨x, hx, hxm⟩ := (mem_nodesOfList d _).1 hm
      exact nodes_isGroupExpr x (hg x hx) op data hxm

theorem buildData_length (data : List Expr) :
    (Logical.buildData data).length = data.length := by
  induction data with
  | nil => simp [Logical.buildData]
  | cons e es ih => simp [Logical.buildData, ih]

theorem parsed_filter_shape (c : Cast) (ord : MapOrder) (values : Values)
    (result : List (String × Filter)) (name : String) (f : Filter)
    (hP : Parse c ord values = some result) (hf : mapGet result name = some f) :
    ∃ inner, mapGet (tmp2Of c values) name = some inner
      ∧ nameFilter (andData ord name inner) = some f := by
  rw [Parse_eq] at hP
  have hr := (Option.some.inj hP).symm
  subst hr
  have hget := combine_get ord (tmp2Of c values) (tmp2Of_WF c values).1 [] name
  unfold tmp2Of at hget
  rw [hget] at hf
  unfold tmp2Of
  cases hm : mapGet (addTriples c values (triplesOf values) []) name with
  | none => simp [hm, mapGet] at hf
  | some inner =>
    refine ⟨inner, rfl, ?_⟩
    simp only [hm] at hf
    cases hn : nameFilter (andData ord name inner) with
    | none => simp [hn, mapGet] at hf
    | some g =>
      simp only [hn] at hf
      rw [hf]

/-- C4: in every filter that `Parse` returns, every reachable Logical node has at least
two children and renders to an array of that same length, so no rendered and/or array has
length 0 or 1; the filter is one expression, which is a leaf, an OR of at least two
leaves, or an AND of at least two such group expressions.  An OR container with exactly
one leaf stands for that leaf, and a name with exactly one group for that group's
expression. -/
theorem parse_logicals_have_two_children (c : Cast) (ord : MapOrder) (values : Values)
    (result : List (String × Filter)) (name : String) (f : Filter)
    (hP : Parse c ord values = some result) (hf : mapGet result name = some f) :
    (∃ e, f = [e] ∧ isNameExpr e)
      ∧ (∀ e ∈ f, ∀ op data, Expr.logical op data ∈ e.nodes →
          2 ≤ data.length
            ∧ ∃ xs, (Expr.logical op data).Build = .arr xs ∧ xs.length = data.length)
      ∧ (∀ e : Expr, orExpr ⟨OpOr, [e]⟩ = e)
      ∧ (∀ e : Expr, nameFilter [e] = some [e]) := by
  obtain ⟨inner, hm, hn⟩ := parsed_filter_shape c ord values result name f hP hf
  obtain ⟨e, he, hshape⟩ := nameFilter_shape _ f (andData_isGroupExpr c ord values name inner hm) hn
  refine ⟨⟨e, he, hshape⟩, ?_, fun _ => rfl, fun _ => rfl⟩
  intro x hx op data hmem
  rw [he, List.mem_singleton] at hx
  subst hx
  exact ⟨nodes_isNameExpr x hshape op data hmem, Logical.buildData data, by simp [Expr.Build],
    buildData_length data⟩

/-- C4 on three triples in two groups (`sku` twice in group 0, `price` in group 1): the
filter is an AND of an OR of two leaves and a leaf, and both Logical nodes have two
children. -/
theorem parse_logicals_have_two_children_witness :
    Parse goCast MapOrder.insertion
        (tripleEntries "filters" "0" "0" "sku" "WSH" "eq"
          ++ tripleEntries "filters" "0" "1" "sku" "WP" "eq"
          ++ tripleEntries "filters" "1" "0" "price" "40" "eq")
      = some [("filters", [Expr.logical "$and"
          [Expr.logical "$or" [Expr.field "$eq" "sku" (.str "WSH"),
            Expr.field "$eq" "sku" (.str "WP")],
           Expr.field "$eq" "price" (.float (.ofInt 40))]])]
    ∧ ∀ e ∈ [Expr.logical "$and"
          [Expr.logical "$or" [Expr.field "$eq" "sku" (.str "WSH"),
            Expr.field "$eq" "sku" (.str "WP")],
           Expr.field "$eq" "price" (.float (.ofInt 40))]],
        ∀ op data, Expr.logical op data ∈ e.nodes →
          2 ≤ data.length
            ∧ ∃ xs, (Expr.logical op data).Build = .arr xs ∧ xs.length = data.length :=
  ⟨by rfl, (parse_logicals_have_two_children goCast MapOrder.insertion
    (tripleEntries "filters" "0" "0" "sku" "WSH" "eq"
      ++ tripleEntries "filters" "0" "1" "sku" "WP" "eq"
      ++ tripleEntries "filters" "1" "0" "price" "40" "eq") _ "filters" _
    (by rfl) (by rfl)).2.1⟩

/-! ## Several groups of one name -/

theorem leavesOf_ne_nil_iff (c : Cast) (values : Values) (n a : String) :
    leavesOf c values (triplesOf values) n a ≠ []
      ↔ ∃ key ∈ values.map Prod.fst, ∃ o x, fields key = [n, a, o, x]
          ∧ qualifies values (n, a, o) := by
  constructor
  · intro h
    obtain ⟨e, he⟩ := List.exists_mem_of_ne_nil _ h
    unfold leavesOf at he
    obtain ⟨t, ht, hl⟩ := List.mem_filterMap.1 he
    rw [List.mem_filter] at ht
    obtain ⟨ht1, ht2⟩ := ht
    simp only [decide_eq_true_eq] at ht2
    obtain ⟨key, hk, hkt⟩ := (mem_triplesOf values t).1 ht1
    obtain ⟨x, hx⟩ := (tripleOf_iff_fields key t).1 hkt
    obtain ⟨t0, t1, t2⟩ := t
    simp only at ht2
    obtain ⟨rfl, rfl⟩ := ht2
    exact ⟨key, hk, t2, x, hx, (leafOf_isSome_iff c values _).1 (by simp [hl])⟩
  · rintro ⟨key, hk, o, x, hx, hq⟩
    have hl := (leafOf_isSome_iff c values (n, a, o)).2 hq
    obtain ⟨e, he⟩ := Option.isSome_iff_exists.1 hl
    have hmem : e ∈ leavesOf c values (triplesOf values) n a := by
      unfold leavesOf
      refine List.mem_filterMap.2 ⟨(n, a, o), ?_, he⟩
      rw [List.mem_filter]
      exact ⟨(mem_triplesOf values _).2 ⟨key, hk, (tripleOf_iff_fields key _).2 ⟨x, hx⟩⟩,
        by simp⟩
    exact List.ne_nil_of_mem hmem

theorem nameFilter_of_two (data : List Expr) (h : 2 ≤ data.length) :
    nameFilter data = some [Expr.logical OpAnd data] := by
  match data, h with
  | e1 :: e2 :: es, _ => rfl

theorem inner_map_orExpr (c : Cast) (values : Values) (n : String)
    (inner : List (String × Logical)) (h : mapGet (tmp2Of c values) n = some inner) :
    inner.map (fun kv => orExpr kv.2) = (inner.map Prod.fst).map (groupExpr c values n) := by
  rw [List.map_map]
  apply List.map_congr_left
  intro kv hkv
  have h1 := (inner_entries c values n inner h kv hkv).1
  simp [groupExpr, h1]

/-- C5 (as amended): when a name has `k ≥ 2` distinct andIndex groups that each retain
at least one valid triple, the filter that `Parse` returns for the name has exactly one
top-level expression, an AND Logical, and the children of that AND are the `k` group
expressions, one per group (in the order in which the inner map is enumerated). -/
theorem groups_become_one_and (c : Cast) (ord : MapOrder) (values : Values) (name : String)
    (groups : List String) (hnd : groups.Nodup) (hk : 2 ≤ groups.length)
    (hg : ∀ a, a ∈ groups ↔ ∃ key ∈ values.map Prod.fst, ∃ o x, fields key = [name, a, o, x]
      ∧ qualifies values (name, a, o)) :
    ∃ children, ToFilter c ord values name = some [Expr.logical OpAnd children]
      ∧ children.length = groups.length
      ∧ children.Perm (groups.map (groupExpr c values name)) := by
  obtain ⟨a0, ha0⟩ : ∃ a, a ∈ groups := by
    cases groups with
    | nil => simp at hk
    | cons a _ => exact ⟨a, List.mem_cons_self _ _⟩
  obtain ⟨key, hkey, o, x, hx, hq⟩ := (hg a0).1 ha0
  have hsome : (mapGet (tmp2Of c values) name).isSome = true :=
    (mapGet_tmp2Of_isSome c values name).2 ⟨key, hkey, a0, o, x, hx, hq⟩
  obtain ⟨inner, hinner⟩ := Option.isSome_iff_exists.1 hsome
  have hkeys : (inner.map Prod.fst).Perm groups := by
    refine (List.perm_ext_iff_of_nodup ((tmp2Of_WF c values).2 name inner hinner).1 hnd).2 ?_
    intro a
    rw [inner_keys_iff c values name inner hinner a, leavesOf_ne_nil_iff, hg a]
  have hperm : (andData ord name inner).Perm (groups.map (groupExpr c values name)) := by
    unfold andData
    refine ((ord.perm name inner).map _).trans ?_
    rw [inner_map_orExpr c values name inner hinner]
    exact hkeys.map _
  have hlen : (andData ord name inner).length = groups.length := by
    rw [hperm.length_eq, List.length_map]
  refine ⟨andData ord name inner, ?_, hlen, hperm⟩
  rw [ToFilter_eq, hinner]
  simp [nameFilter_of_two _ (hlen ▸ hk)]

/-- C5 (as amended) on two groups, `sku` in group 0 and `price` in group 1: the filter is
the one expression `And(sku = "ABC", price = 40)`. -/
theorem groups_become_one_and_witness :
    ∃ children, ToFilter goCast MapOrder.insertion
        (tripleEntries "filters" "0" "0" "sku" "ABC" "eq"
          ++ tripleEntries "filters" "1" "0" "price" "40" "eq") "filters"
        = some [Expr.logical OpAnd children]
      ∧ children.length = 2 := by
  have hfields0 : ∀ attr, isSegment attr = true →
      fields (attrKey "filters" "0" "0" attr) = ["filters", "0", "0", attr] :=
    fun attr h => fields_attrKey _ _ _ _ (by decide) (by decide) (by decide) h
  have hfields1 : ∀ attr, isSegment attr = true →
      fields (attrKey "filters" "1" "0" attr) = ["filters", "1", "0", attr] :=
    fun attr h => fields_attrKey _ _ _ _ (by decide) (by decide) (by decide) h
  obtain ⟨children, h1, h2, _⟩ := groups_become_one_and goCast MapOrder.insertion
    (tripleEntries "filters" "0" "0" "sku" "ABC" "eq"
      ++ tripleEntries "filters" "1" "0" "price" "40" "eq") "filters" ["0", "1"]
    (by decide) (by decide)
    (by
      intro a
      constructor
      · intro ha
        simp only [List.mem_cons, List.mem_singleton, List.not_mem_nil, or_false] at ha
        rcases ha with rfl | rfl
        · exact ⟨attrKey "filters" "0" "0" QueryField, by simp [tripleEntries], "0", QueryField,
            hfields0 _ isSegment_QueryField, by decide, by decide⟩
        · exact ⟨attrKey "filters" "1" "0" QueryField, by simp [tripleEntries], "0", QueryField,
            hfields1 _ isSegment_QueryField, by decide, by decide⟩
      · rintro ⟨key, hkey, o, x, hx, _⟩
        simp only [tripleEntries, List.map_cons, List.map_nil, List.mem_cons,
          List.mem_singleton, List.not_mem_nil, or_false, List.cons_append, List.nil_append,
          List.map_append] at hkey
        rcases hkey with h | h | h | h | h | h <;> subst h
        · rw [hfields0 _ isSegment_QueryField] at hx
          simp only [List.cons.injEq, true_and] at hx
          simp [← hx.1]
        · rw [hfields0 _ isSegment_QueryValue] at hx
          simp only [List.cons.injEq, true_and] at hx
          simp [← hx.1]
        · rw [hfields0 _ isSegment_QueryCondition] at hx
          simp only [List.cons.injEq, true_and] at hx
          simp [← hx.1]
        · rw [hfields1 _ isSegment_QueryField] at hx
          simp only [List.cons.injEq, true_and] at hx
          simp [← hx.1]
        · rw [hfields1 _ isSegment_QueryValue] at hx
          simp only [List.cons.injEq, true_and] at hx
          simp [← hx.1]
        · rw [hfields1 _ isSegment_QueryCondition] at hx
          simp only [List.cons.injEq, true_and] at hx
          simp [← hx.1])
  exact ⟨children, h1, h2⟩

/-- C5 as stated fails: with two groups (`sku` in group 0, `price` in group 1) the filter
has one top-level expression, the AND of the two group expressions, not two. -/
theorem two_groups_one_top_level_expr :
    ToFilter goCast MapOrder.insertion
        (tripleEntries "filters" "0" "0" "sku" "ABC" "eq"
          ++ tripleEntries "filters" "1" "0" "price" "40" "eq") "filters"
      = some [Expr.logical "$and" [Expr.field "$eq" "sku" (.str "ABC"),
          Expr.field "$eq" "price" (.float (.ofInt 40))]]
    ∧ (ToFilter goCast MapOrder.insertion
        (tripleEntries "filters" "0" "0" "sku" "ABC" "eq"
          ++ tripleEntries "filters" "1" "0" "price" "40" "eq") "filters").map List.length
      ≠ some 2 := by
  have h : ToFilter goCast MapOrder.insertion
        (tripleEntries "filters" "0" "0" "sku" "ABC" "eq"
          ++ tripleEntries "filters" "1" "0" "price" "40" "eq") "filters"
      = some [Expr.logical "$and" [Expr.field "$eq" "sku" (.str "ABC"),
          Expr.field "$eq" "price" (.float (.ofInt 40))]] := by rfl
  refine ⟨h, ?_⟩
  rw [h]
  simp

/-! ## The coercion: literal values, pagination -/

/-- C8: if the operator is `$regex` or the raw string is empty, `parse` returns the raw
string itself, as a string, whatever the other rules would give. -/
theorem parse_keeps_regex_and_empty (c : Cast) (val : String) (op : Operator)
    (h : op = OpRegex ∨ val = "") : parse c val op = some (.str val) :=
  parse_regex_or_empty c val op h

/-- C8 on the values `null`, `42`, `true`, `1,2` under `$regex` and on the empty string
under `$eq` and `$in`. -/
theorem parse_keeps_regex_and_empty_witness :
    parse goCast "null" OpRegex = some (.str "null")
      ∧ parse goCast "42" OpRegex = some (.str "42")
      ∧ parse goCast "true" OpRegex = some (.str "true")
      ∧ parse goCast "1,2" OpRegex = some (.str "1,2")
      ∧ parse goCast "" OpEq = some (.str "")
      ∧ parse goCast "" OpIn = some (.str "") :=
  ⟨parse_keeps_regex_and_empty goCast "null" OpRegex (Or.inl rfl),
    parse_keeps_regex_and_empty goCast "42" OpRegex (Or.inl rfl),
    parse_keeps_regex_and_empty goCast "true" OpRegex (Or.inl rfl),
    parse_keeps_regex_and_empty goCast "1,2" OpRegex (Or.inl rfl),
    parse_keeps_regex_and_empty goCast "" OpEq (Or.inr rfl),
    parse_keeps_regex_and_empty goCast "" OpIn (Or.inr rfl)⟩

/-- C6 as stated fails: under `$in` the raw string `1,abc,3` splits into three elements,
the first converts to a float, and `apply` skips the element `abc` that does not: the
result is the two-element list `[1, 3]`, neither three elements nor the raw strings. -/
theorem apply_drops_rejected_elements :
    Split "1,abc,3" ',' = ["1", "abc", "3"]
      ∧ parse goCast "1,abc,3" OpIn
        = some (.arr [.float (Float64.ofInt 1), .float (Float64.ofInt 3)])
      ∧ parse goCast "1,abc,3" OpIn ≠ some (.arr [.str "1", .str "abc", .str "3"]) := by
  have h : parse goCast "1,abc,3" OpIn
      = some (.arr [.float (Float64.ofInt 1), .float (Float64.ofInt 3)]) := by rfl
  refine ⟨by rfl, h, ?_⟩
  rw [h]
  simp

theorem order_step_total (o : List (String × Val)) (item : String) :
    ∃ o2, order.step o item = some o2 := by
  unfold order.step
  by_cases h : item.length > 0
  · rw [if_pos h]
    rcases item with ⟨cs⟩
    cases cs with
    | nil => simp [String.length] at h
    | cons x xs =>
      simp only [String.toList, List.head?_cons]
      split_ifs <;> exact ⟨_, rfl⟩
  · rw [if_neg h]
    exact ⟨_, rfl⟩

theorem order_total (data : List String) : ∃ v, order data = some v := by
  unfold order
  have h : ∀ (o : List (String × Val)), ∃ o2, data.foldlM order.step o = some o2 := by
    induction data with
    | nil => exact fun o => ⟨o, rfl⟩
    | cons item rest ih =>
      intro o
      obtain ⟨o1, h1⟩ := order_step_total o item
      obtain ⟨o2, h2⟩ := ih o1
      exact ⟨o2, by simp [List.foldlM_cons, h1, h2]⟩
  obtain ⟨o2, h2⟩ := h []
  exact ⟨Val.D o2, by simp [h2]⟩

theorem sortOf_total (values : Values) : ∃ s, sortOf values = some s := by
  unfold sortOf
  cases mapGet values QuerySortArr with
  | some o =>
    obtain ⟨v, hv⟩ := order_total o
    exact ⟨some v, by simp [hv]⟩
  | none =>
    cases mapGet values QuerySort with
    | some o =>
      obtain ⟨v, hv⟩ := order_total o
      exact ⟨some v, by simp [hv]⟩
    | none => exact ⟨none, rfl⟩

/-- C10: `ToCriteria` always returns, and with `i` the integer that `cast.ToInt64E`
converts the value of `index` to, `Index = 0` when `i` is negative and `Index = i`
otherwise; with `j` the integer converted from `size`, `Size = 20` when `j` is zero or
negative and `Size = j` otherwise, with no upper bound.  When the conversion fails (as for
the empty string that an absent key reads as) the parsed integer is `0`, so `Index = 0`
and `Size = 20`. -/
theorem criteria_index_and_size (c : Cast) (ord : MapOrder) (values : Values)
    (filterName : String) :
    ∃ crit, ToCriteria c ord values filterName = some crit
      ∧ (∀ i, c.ToInt64E (values.Get QueryIndex) = some i →
          crit.Index = (if i < 0 then 0 else i))
      ∧ (c.ToInt64E (values.Get QueryIndex) = none → crit.Index = 0)
      ∧ (∀ j, c.ToInt64E (values.Get QuerySize) = some j →
          crit.Size = (if j ≤ 0 then 20 else j))
      ∧ (c.ToInt64E (values.Get QuerySize) = none → crit.Size = 20)
      ∧ (∀ i, c.ToInt64E (values.Get QueryIndex) = some i → 0 ≤ i → crit.Index = i)
      ∧ (∀ j, c.ToInt64E (values.Get QuerySize) = some j → 0 < j → crit.Size = j)
      ∧ crit.Index = (if c.ToInt64 (values.Get QueryIndex) < 0 then 0
          else c.ToInt64 (values.Get QueryIndex))
      ∧ crit.Size = (if c.ToInt64 (values.Get QuerySize) ≤ 0 then 20
          else c.ToInt64 (values.Get QuerySize))
      ∧ (∀ s i, c.ToInt64E s = some i → c.ToInt64 s = i)
      ∧ (∀ s, c.ToInt64E s = none → c.ToInt64 s = 0)
      ∧ (QueryIndex ∉ values.map Prod.fst → values.Get QueryIndex = "")
      ∧ (QuerySize ∉ values.map Prod.fst → values.Get QuerySize = "") := by
  obtain ⟨s, hs⟩ := sortOf_total values
  obtain ⟨f, hf⟩ : ∃ f, ToFilter c ord values filterName = some f :=
    ⟨_, ToFilter_eq c ord values filterName⟩
  have hsome : ∀ s i, c.ToInt64E s = some i → c.ToInt64 s = i := by
    intro s i h
    simp [Cast.ToInt64, h]
  have hnone : ∀ s, c.ToInt64E s = none → c.ToInt64 s = 0 := by
    intro s h
    simp [Cast.ToInt64, h]
  refine ⟨⟨Filter.Build f, s,
      if c.ToInt64 (values.Get QueryIndex) < 0 then 0 else c.ToInt64 (values.Get QueryIndex),
      if c.ToInt64 (values.Get QuerySize) ≤ 0 then DefaultSize
      else c.ToInt64 (values.Get QuerySize)⟩,
    by simp only [ToCriteria, hs, hf], ?_, ?_, ?_, ?_, ?_, ?_, rfl, rfl, hsome, hnone,
    Get_of_not_mem values _, Get_of_not_mem values _⟩
  · intro i hi
    simp only [hsome _ i hi]
  · intro hi
    simp only [hnone _ hi]
    rfl
  · intro j hj
    simp only [hsome _ j hj]
    rfl
  · intro hj
    simp only [hnone _ hj]
    rfl
  · intro i hi h0
    simp only [hsome _ i hi]
    rw [if_neg (by omega)]
  · intro j hj h0
    simp only [hsome _ j hj]
    rw [if_neg (by omega)]

/-- C10 on Example D (`index=-5&size=0`: `Index = 0`, `Size = 20`), on `index=3&size=7`
(both integers are kept), on `size=100000` without `index` (no upper bound, absent index
is `0`) and on `index=abc&size=abc` (failed conversions: `0` and `20`). -/
theorem criteria_index_and_size_witness :
    (∃ crit, ToCriteria goCast MapOrder.insertion [("index", ["-5"]), ("size", ["0"])]
        "filters" = some crit ∧ crit.Index = 0 ∧ crit.Size = 20)
      ∧ (∃ crit, ToCriteria goCast MapOrder.insertion [("index", ["3"]), ("size", ["7"])]
        "filters" = some crit ∧ crit.Index = 3 ∧ crit.Size = 7)
      ∧ (∃ crit, ToCriteria goCast MapOrder.insertion [("size", ["100000"])]
        "filters" = some crit ∧ crit.Index = 0 ∧ crit.Size = 100000)
      ∧ (∃ crit, ToCriteria goCast MapOrder.insertion [("index", ["abc"]), ("size", ["abc"])]
        "filters" = some crit ∧ crit.Index = 0 ∧ crit.Size = 20) := by
  refine ⟨?_, ?_, ?_, ?_⟩
  · obtain ⟨crit, h, hi, _, hs, _⟩ := criteria_index_and_size goCast MapOrder.insertion
      [("index", ["-5"]), ("size", ["0"])] "filters"
    exact ⟨crit, h, by rw [hi (-5) (by rfl)]; decide, by rw [hs 0 (by rfl)]; decide⟩
  · obtain ⟨crit, h, _, _, _, _, hi, hs, _⟩ := criteria_index_and_size goCast
      MapOrder.insertion [("index", ["3"]), ("size", ["7"])] "filters"
    exact ⟨crit, h, hi 3 (by rfl) (by decide), hs 7 (by rfl) (by decide)⟩
  · obtain ⟨crit, h, _, hi, _, _, _, hs, _⟩ := criteria_index_and_size goCast
      MapOrder.insertion [("size", ["100000"])] "filters"
    exact ⟨crit, h, hi (by rfl), hs 100000 (by rfl) (by decide)⟩
  · obtain ⟨crit, h, _, hi, _, hs, _⟩ := criteria_index_and_size goCast
      MapOrder.insertion [("index", ["abc"]), ("size", ["abc"])] "filters"
    exact ⟨crit, h, hi (by rfl), hs (by rfl)⟩

/-! ## Lists of integer literals under in and nin -/

theorem toLower_of_isDigit (ch : Char) (h : ch.isDigit = true) : ch.toLower = ch := by
  unfold Char.isDigit at h
  unfold Char.toLower
  simp only [Bool.and_eq_true, decide_eq_true_eq] at h
  have h1 : ch.val.toNat ≤ 57 := h.2
  have h2 : ¬ (ch.toNat ≥ 65 ∧ ch.toNat ≤ 90) := by
    intro h3
    have : ch.toNat = ch.val.toNat := rfl
    omega
  simp only [h2, if_false]

theorem isLitChar_ne_comma (ch : Char) (h : isLitChar ch) : ch ≠ ',' := by
  rintro rfl
  rcases h with h | h | h
  · exact absurd h (by decide)
  · exact absurd h (by decide)
  · exact absurd h (by decide)

theorem isLitChar_toLower (ch : Char) (h : isLitChar ch) : ch.toLower ≠ 'n' := by
  rcases h with h | h | h
  · rw [toLower_of_isDigit ch h]
    rintro rfl
    exact absurd h (by decide)
  · subst h
    decide
  · subst h
    decide

theorem isDigits_chars (s : String) (h : isDigits s = true) :
    s.toList ≠ [] ∧ ∀ ch ∈ s.toList, isLitChar ch := by
  unfold isDigits at h
  simp only [Bool.and_eq_true, Bool.not_eq_true', List.isEmpty_eq_false, List.all_eq_true] at h
  refine ⟨?_, fun ch hch => Or.inl (h.2 ch hch)⟩
  intro e
  rw [e] at h
  simp at h

theorem isIntLit_chars (s : String) (h : isIntLit s = true) :
    s.toList ≠ [] ∧ ∀ ch ∈ s.toList, isLitChar ch := by
  unfold isIntLit at h
  split at h
  · rename_i rest heq
    rw [heq]
    refine ⟨by simp, ?_⟩
    intro ch hch
    rcases List.mem_cons.1 hch with e | e
    · exact Or.inr (Or.inl e)
    · exact (isDigits_chars _ h).2 ch e
  · rename_i rest heq
    rw [heq]
    refine ⟨by simp, ?_⟩
    intro ch hch
    rcases List.mem_cons.1 hch with e | e
    · exact Or.inr (Or.inr e)
    · exact (isDigits_chars _ h).2 ch e
  · exact isDigits_chars s h

theorem joinComma_cons_cons (s t : String) (rest : List String) :
    (joinComma (s :: t :: rest)).toList = s.toList ++ ',' :: (joinComma (t :: rest)).toList := by
  simp [joinComma, String.toList]

theorem Split_joinComma (lits : List String) (hne : lits ≠ [])
    (hc : ∀ s ∈ lits, ∀ ch ∈ s.toList, ch ≠ ',') : Split (joinComma lits) ',' = lits := by
  induction lits with
  | nil => exact absurd rfl hne
  | cons s rest ih =>
    have hs : ∀ x ∈ s.toList, ¬ ((fun y => y == ',') x = true) := by
      intro x hx
      simpa using hc s (List.mem_cons_self _ _) x hx
    cases rest with
    | nil =>
      unfold Split List.splitOn
      simp only [joinComma]
      rw [List.splitOnP_eq_single _ _ hs]
      rfl
    | cons t rest2 =>
      have ih2 := ih (by simp) (fun u hu => hc u (List.mem_cons_of_mem _ hu))
      unfold Split List.splitOn at ih2 ⊢
      rw [joinComma_cons_cons, List.splitOnP_first _ _ hs ',' (by simp), List.map_cons, ih2]
      rfl

theorem joinComma_head (lits : List String) (hne : lits ≠ [])
    (hl : ∀ s ∈ lits, s.toList ≠ [] ∧ ∀ ch ∈ s.toList, isLitChar ch) :
    ∃ ch rest, (joinComma lits).toList = ch :: rest ∧ isLitChar ch := by
  match lits, hne, hl with
  | [s], _, hl =>
    obtain ⟨h1, h2⟩ := hl s (by simp)
    obtain ⟨ch, rest, hs⟩ := List.exists_cons_of_ne_nil h1
    exact ⟨ch, rest, by simpa [joinComma] using hs, h2 ch (by rw [hs]; exact List.mem_cons_self _ _)⟩
  | s :: t :: more, _, hl =>
    obtain ⟨h1, h2⟩ := hl s (by simp)
    obtain ⟨ch, rest, hs⟩ := List.exists_cons_of_ne_nil h1
    refine ⟨ch, rest ++ ',' :: (joinComma (t :: more)).toList, ?_, h2 ch (by rw [hs]; exact List.mem_cons_self _ _)⟩
    rw [joinComma_cons_cons, hs]
    rfl

theorem not_null_of_head (val : String) (ch : Char) (rest : List Char)
    (h : val.toList = ch :: rest) (hch : isLitChar ch) :
    val ≠ "" ∧ EqualFold val "null" = false ∧ EqualFold val "nil" = false := by
  have hl := isLitChar_toLower ch hch
  refine ⟨?_, ?_, ?_⟩
  · rintro rfl
    simp [String.toList] at h
  · unfold EqualFold
    rw [h]
    have : "null".toList.map Char.toLower = ['n', 'u', 'l', 'l'] := by decide
    rw [this]
    simp [hl]
  · unfold EqualFold
    rw [h]
    have : "nil".toList.map Char.toLower = ['n', 'i', 'l'] := by decide
    rw [this]
    simp [hl]

theorem apply_all_accepted {T : Type} (data : List String) (fn : String → Option T)
    (xs : List T) (hne : data ≠ []) (h : data.map fn = xs.map some) :
    apply data fn = some (xs, true) := by
  have hfm : ∀ (l : List String) (ys : List T), l.map fn = ys.map some → l.filterMap fn = ys := by
    intro l
    induction l with
    | nil =>
      intro ys hy
      cases ys with
      | nil => rfl
      | cons y ys => simp at hy
    | cons a l ih =>
      intro ys hy
      cases ys with
      | nil => simp at hy
      | cons y ys =>
        simp only [List.map_cons, List.cons.injEq] at hy
        simp [List.filterMap_cons, hy.1, ih ys hy.2]
  cases data with
  | nil => exact absurd rfl hne
  | cons d0 rest =>
    cases xs with
    | nil => simp at h
    | cons x xs =>
      simp only [List.map_cons, List.cons.injEq] at h
      simp [apply, h.1, hfm rest xs h.2]

theorem parse_in_floats (c : Cast) (lits : List String) (op : Operator) (xs : List Float64)
    (hop : op = OpIn ∨ op = OpNin) (hne : lits ≠ [])
    (hlit : ∀ s ∈ lits, isIntLit s = true) (hx : lits.map c.ToFloat64E = xs.map some) :
    parse c (joinComma lits) op = some (.arr (xs.map Val.float)) := by
  have hchars := fun s hs => isIntLit_chars s (hlit s hs)
  obtain ⟨ch, rest, hhead, hch⟩ := joinComma_head lits hne hchars
  obtain ⟨h1, h2, h3⟩ := not_null_of_head _ ch rest hhead hch
  have hsplit : Split (joinComma lits) ',' = lits :=
    Split_joinComma lits hne (fun s hs x hx => isLitChar_ne_comma x ((hchars s hs).2 x hx))
  have hreg : op ≠ OpRegex := by
    rcases hop with h | h <;> rw [h] <;> decide
  unfold parse
  rw [if_neg (by simp [h1, hreg]), if_neg (by simp [h2, h3]), if_pos hop, hsplit,
    apply_all_accepted lits c.ToFloat64E xs hne hx]

/-- C7 (as amended): for a triple with condition `in` (or `nin`) whose value is a
comma-separated list of decimal integer literals, each of which the float conversion
accepts, the rendered filter holds under `$in` (`$nin`) the list of those numbers as
floating-point values, one per literal and in input order, not as strings. -/
theorem in_list_renders_floats (c : Cast) (ord : MapOrder) (values : Values)
    (name a o f code : String) (op : Operator) (lits : List String) (xs : List Float64)
    (hname : isSegment name = true) (ha : isSegment a = true) (ho : isSegment o = true)
    (hf : f ≠ "") (hcode : code = CondIn ∨ code = CondNin) (hop : conditions code = some op)
    (hne : lits ≠ []) (hlit : ∀ s ∈ lits, isIntLit s = true)
    (hx : lits.map c.ToFloat64E = xs.map some)
    (hv : values.Perm (tripleEntries name a o f (joinComma lits) code)) :
    (op = OpIn ∨ op = OpNin)
      ∧ xs.length = lits.length
      ∧ (ToFilter c ord values name).map Filter.Build
        = some (.M [(f, .M [(op, .arr (xs.map Val.float))])]) := by
  have hop2 : op = OpIn ∨ op = OpNin := by
    rcases hcode with h | h <;> subst h
    · exact Or.inl (Option.some.inj hop).symm
    · exact Or.inr (Option.some.inj hop).symm
  have hreg : op ≠ OpRegex := by
    rcases hop2 with h | h <;> rw [h] <;> decide
  have hp := parse_in_floats c lits op xs hop2 hne hlit hx
  obtain ⟨ht, hF, hV, hC⟩ := single_facts values name a o f (joinComma lits) code hname ha ho hv
  have hl : leafOf c values (name, a, o) = some (Expr.field op f (.arr (xs.map Val.float))) := by
    rw [leafOf_eq c values name a o f (joinComma lits) code op _ hf hop hF hV hC hp]
    simp [mkExpr, hreg]
  have hT := ToFilter_of_single c ord values (name, a, o) _ ht hl
  refine ⟨hop2, ?_, ?_⟩
  · have := congrArg List.length hx
    simpa using this.symm
  · rw [hT]
    simp [Build_named_leaf op f _ hf]

/-- Example C through C7 (as amended): field `qty`, value `1,2,3`, condition `in` renders
to `{qty: {$in: [1, 2, 3]}}` with float64 elements. -/
theorem in_list_renders_floats_witness :
    (ToFilter goCast MapOrder.insertion (tripleEntries "filters" "0" "0" "qty" "1,2,3" "in")
        "filters").map Filter.Build
      = some (.M [("qty", .M [("$in",
          .arr [.float (Float64.ofInt 1), .float (Float64.ofInt 2), .float (Float64.ofInt 3)])])]) :=
  (in_list_renders_floats goCast MapOrder.insertion
    (tripleEntries "filters" "0" "0" "qty" "1,2,3" "in") "filters" "0" "0" "qty" "in" OpIn
    ["1", "2", "3"] [Float64.ofInt 1, Float64.ofInt 2, Float64.ofInt 3]
    (by decide) (by decide) (by decide) (by decide) (Or.inl rfl) (by rfl) (by simp)
    (by decide) (by rfl) (List.Perm.refl _)).2.2

/-- C7 as stated fails: field `qty`, value `1,2,3`, condition `in` renders to the list of
the float64 values 1, 2, 3, which is not the list of the int64 values 1, 2, 3. -/
theorem in_list_not_integers :
    (ToFilter goCast MapOrder.insertion (tripleEntries "filters" "0" "0" "qty" "1,2,3" "in")
        "filters").map Filter.Build
      = some (.M [("qty", .M [("$in",
          .arr [.float (Float64.ofInt 1), .float (Float64.ofInt 2), .float (Float64.ofInt 3)])])])
    ∧ (ToFilter goCast MapOrder.insertion (tripleEntries "filters" "0" "0" "qty" "1,2,3" "in")
        "filters").map Filter.Build
      ≠ some (.M [("qty", .M [("$in", .arr [.int 1, .int 2, .int 3])])]) := by
  have h : (ToFilter goCast MapOrder.insertion
        (tripleEntries "filters" "0" "0" "qty" "1,2,3" "in") "filters").map Filter.Build
      = some (.M [("qty", .M [("$in",
          .arr [.float (Float64.ofInt 1), .float (Float64.ofInt 2), .float (Float64.ofInt 3)])])]) := by
    rfl
  refine ⟨h, ?_⟩
  rw [h]
  simp

/-! ## Lists under in and nin -/

theorem listOf_length_le (c : Cast) (d0 : String) (data : List String) :
    (listOf c d0 data).length ≤ data.length := by
  unfold listOf
  cases c.ToFloat64E d0 with
  | some x => simpa using List.length_filterMap_le _ _
  | none =>
    cases c.ToInt64E d0 with
    | some x => simpa using List.length_filterMap_le _ _
    | none =>
      cases c.ToTimeE d0 with
      | some x => simpa using List.length_filterMap_le _ _
      | none => simp

theorem filterMap_length_of_all {T : Type} (fn : String → Option T) (data : List String)
    (h : ∀ s ∈ data, (fn s).isSome = true) : (data.filterMap fn).length = data.length := by
  induction data with
  | nil => rfl
  | cons d rest ih =>
    obtain ⟨x, hx⟩ := Option.isSome_iff_exists.1 (h d (List.mem_cons_self _ _))
    simp [List.filterMap_cons, hx, ih (fun s hs => h s (List.mem_cons_of_mem _ hs))]

/-- C6 (as amended): for a raw string that is non-empty and not null/nil under
case folding, coerced under `$in` or `$nin` and splitting on commas into the elements
`d0, ..., d(n-1)`, the result is a list chosen by the first element alone: if `d0`
converts to float, the floats of the elements that convert to float, in order; else the
same with integer; else the same with timestamp; and if `d0` converts to none of the
three, the `n` raw strings.  The list has at most `n` elements, and exactly `n` when every
element converts to float. -/
theorem parse_list_by_first_element (c : Cast) (val : String) (op : Operator)
    (hne : val ≠ "") (hnull : EqualFold val "null" = false) (hnil : EqualFold val "nil" = false)
    (hop : op = OpIn ∨ op = OpNin) :
    ∃ d0 rest, Split val ',' = d0 :: rest
      ∧ parse c val op = some (.arr (listOf c d0 (d0 :: rest)))
      ∧ (listOf c d0 (d0 :: rest)).length ≤ (Split val ',').length
      ∧ ((∀ s ∈ Split val ',', (c.ToFloat64E s).isSome = true) →
          listOf c d0 (d0 :: rest) = ((d0 :: rest).filterMap c.ToFloat64E).map Val.float
            ∧ (listOf c d0 (d0 :: rest)).length = (Split val ',').length) := by
  obtain ⟨d0, rest, hs⟩ := List.exists_cons_of_ne_nil (Split_ne_nil val ',')
  have hreg : op ≠ OpRegex := by
    rcases hop with h | h <;> rw [h] <;> decide
  refine ⟨d0, rest, hs, ?_, ?_, ?_⟩
  · unfold parse
    rw [if_neg (by simp [hne, hreg]), if_neg (by simp [hnull, hnil]), if_pos hop, hs]
    unfold listOf apply
    cases hf : c.ToFloat64E d0 with
    | some x => simp [List.filterMap_cons, hf]
    | none =>
      cases hi : c.ToInt64E d0 with
      | some x => simp [List.filterMap_cons, hf, hi]
      | none =>
        cases ht : c.ToTimeE d0 with
        | some x => simp [List.filterMap_cons, hf, hi, ht]
        | none => simp [hf, hi, ht]
  · rw [hs]
    exact listOf_length_le c d0 (d0 :: rest)
  · intro hall
    rw [hs] at hall ⊢
    obtain ⟨x, hx⟩ := Option.isSome_iff_exists.1 (hall d0 (List.mem_cons_self _ _))
    have h1 : listOf c d0 (d0 :: rest) = ((d0 :: rest).filterMap c.ToFloat64E).map Val.float := by
      simp [listOf, hx]
    refine ⟨h1, ?_⟩
    rw [h1, List.length_map, filterMap_length_of_all _ _ hall]

/-- C6 (as amended) on `1,abc,3` under `$in`: the first element converts to a float, the
element `abc` is left out, and the result is the list of the floats 1 and 3. -/
theorem parse_list_by_first_element_witness :
    parse goCast "1,abc,3" OpIn
      = some (.arr [.float (Float64.ofInt 1), .float (Float64.ofInt 3)]) := by
  obtain ⟨d0, rest, hs, hp, _⟩ := parse_list_by_first_element goCast "1,abc,3" OpIn
    (by decide) (by decide) (by decide) (Or.inl rfl)
  have hs2 : Split "1,abc,3" ',' = ["1", "abc", "3"] := by rfl
  rw [hs2] at hs
  simp only [List.cons.injEq] at hs
  obtain ⟨h0, hr⟩ := hs
  subst h0
  subst hr
  rw [hp]
  rfl

/-! ## The sort specification -/

theorem orderSpec_cons (item : String) (rest : List String) :
    orderSpec (item :: rest) = orderSpec [item] ++ orderSpec rest := by
  unfold orderSpec
  by_cases h : item ≠ "" ∧ item ≠ "-"
  · simp [List.filter_cons, h]
  · simp [List.filter_cons, h]

theorem order_step_eq (o : List (String × Val)) (item : String) :
    order.step o item = some (o ++ orderSpec [item]) := by
  rcases item with ⟨cs⟩
  cases cs with
  | nil => simp [order.step, orderSpec, String.length]
  | cons x xs =>
    have hne : (String.mk (x :: xs)) ≠ "" := by
      intro h
      have := congrArg String.data h
      simp at this
    by_cases hx : x = '-'
    · subst hx
      cases xs with
      | nil =>
        have hd : (String.mk ['-']) = "-" := rfl
        simp [order.step, orderSpec, String.length, String.toList, hd]
      | cons y ys =>
        have hnd : (String.mk ('-' :: y :: ys)) ≠ "-" := by
          intro h
          have := congrArg String.data h
          simp at this
        simp [order.step, orderSpec, String.length, String.toList, hne, hnd]
    · have hnd : (String.mk (x :: xs)) ≠ "-" := by
        intro h
        have := congrArg String.data h
        simp at this
        exact hx this.1
      simp [order.step, orderSpec, String.length, String.toList, hne, hnd, hx]

theorem order_foldlM_eq (data : List String) (o : List (String × Val)) :
    data.foldlM order.step o = some (o ++ orderSpec data) := by
  induction data generalizing o with
  | nil => simp [orderSpec]
  | cons item rest ih =>
    rw [List.foldlM_cons, order_step_eq]
    simp only [Option.bind_eq_bind, Option.some_bind]
    rw [ih, orderSpec_cons item rest, List.append_assoc]

theorem order_eq (data : List String) : order data = some (.D (orderSpec data)) := by
  unfold order
  rw [order_foldlM_eq]
  simp

/-- C11: for every list of sort entries, `order` returns exactly the sub-sequence of the
entries that are non-empty and not the single character `-`, in input order, an entry not
starting with `-` as `(entry, 1)` and an entry starting with `-` as (entry without its
first character, `-1`); for Example B, `[sku, -amount]` gives `[(sku, 1), (amount, -1)]`. -/
theorem order_is_the_sort_spec (data : List String) :
    order data = some (.D (orderSpec data))
      ∧ orderSpec data = (data.filter (fun s => decide (s ≠ "" ∧ s ≠ "-"))).map
          (fun s => if s.toList.head? = some '-' then (String.mk (s.toList.drop 1), Val.int (-1))
            else (s, Val.int 1))
      ∧ order ["sku", "-amount"] = some (.D [("sku", .int 1), ("amount", .int (-1))]) :=
  ⟨order_eq data, rfl, by rfl⟩

/-! ## The sort of the criteria -/

theorem ToCriteria_eq (c : Cast) (ord : MapOrder) (values : Values) (filterName : String) :
    ∃ f s, ToFilter c ord values filterName = some f ∧ sortOf values = some s
      ∧ ToCriteria c ord values filterName
        = some ⟨Filter.Build f, s,
            if c.ToInt64 (values.Get QueryIndex) < 0 then 0
            else c.ToInt64 (values.Get QueryIndex),
            if c.ToInt64 (values.Get QuerySize) ≤ 0 then DefaultSize
            else c.ToInt64 (values.Get QuerySize)⟩ := by
  obtain ⟨s, hs⟩ := sortOf_total values
  obtain ⟨f, hf⟩ : ∃ f, ToFilter c ord values filterName = some f :=
    ⟨_, ToFilter_eq c ord values filterName⟩
  exact ⟨f, s, hf, hs, by simp only [ToCriteria, hs, hf]⟩

/-- C12: the sort of `ToCriteria` is `order` of the values of `sort[]` whenever that key
is present, whatever the key `sort` holds (also when every `sort[]` entry is ignored: the
sort is then the empty list, not nil); it is `order` of the values of `sort` when only
`sort` is present; and it is nil when neither key is present. -/
theorem sort_array_form_first (c : Cast) (ord : MapOrder) (values : Values)
    (filterName : String) :
    ∃ crit, ToCriteria c ord values filterName = some crit
      ∧ (∀ o, mapGet values QuerySortArr = some o →
          crit.SortBy = order o ∧ crit.SortBy = some (.D (orderSpec o)))
      ∧ (mapGet values QuerySortArr = none → ∀ o, mapGet values QuerySort = some o →
          crit.SortBy = order o ∧ crit.SortBy = some (.D (orderSpec o)))
      ∧ (mapGet values QuerySortArr = none → mapGet values QuerySort = none →
          crit.SortBy = none) := by
  obtain ⟨f, s, _, hs, hc⟩ := ToCriteria_eq c ord values filterName
  refine ⟨_, hc, ?_, ?_, ?_⟩
  · intro o ho
    simp only [sortOf, ho, order_eq, Option.map_some', Option.some.injEq] at hs
    simp [← hs, order_eq]
  · intro hn o ho
    simp only [sortOf, hn, ho, order_eq, Option.map_some', Option.some.injEq] at hs
    simp [← hs, order_eq]
  · intro hn hn2
    simp only [sortOf, hn, hn2, Option.some.injEq] at hs
    simp [← hs]

/-- C12 on a multimap that holds `sort[]=-` and `sort=sku`: the sort is the empty list of
the array form, and `sort` is not read. -/
theorem sort_array_form_first_witness :
    ∃ crit, ToCriteria goCast MapOrder.insertion [("sort[]", ["-"]), ("sort", ["sku"])] "filters"
        = some crit ∧ crit.SortBy = some (.D []) := by
  obtain ⟨crit, h, h1, _⟩ := sort_array_form_first goCast MapOrder.insertion
    [("sort[]", ["-"]), ("sort", ["sku"])] "filters"
  refine ⟨crit, h, ?_⟩
  rw [(h1 ["-"] (by rfl)).1]
  rfl

/-! ## The rendering of a Logical -/

theorem length_pos_iff_ne_empty (s : String) : s.length > 0 ↔ s ≠ "" := by
  rcases s with ⟨cs⟩
  cases cs with
  | nil => simp [String.length]
  | cons x xs =>
    simp only [String.length, List.length_cons, gt_iff_lt, Nat.zero_lt_succ, ne_eq, true_iff]
    intro h
    have := congrArg String.data h
    simp at this

theorem buildItem_eq (e : Expr) : Logical.buildItem e = childEntrySpec e := by
  cases e with
  | logical p d => simp [Logical.buildItem, childEntrySpec, Expr.Build]
  | field o n v =>
    by_cases h : n = ""
    · subst h
      simp [Logical.buildItem, childEntrySpec]
    · have h2 := (length_pos_iff_ne_empty n).2 h
      simp [Logical.buildItem, childEntrySpec, h, h2]

theorem buildData_eq (data : List Expr) :
    Logical.buildData data = data.map childEntrySpec := by
  induction data with
  | nil => simp [Logical.buildData]
  | cons e es ih => simp [Logical.buildData, ih, buildItem_eq]

/-- C13: a Logical renders to an array with exactly one entry per child, in child order:
`{n: {o: v}}` for a named leaf, `{o: v}` for an anonymous leaf, `{p: array}` for a
Logical child with operator `p`; and at the top level of a filter a Logical with operator
`p` sets the key `p` of the filter document to its rendered array. -/
theorem logical_renders_children_in_order (op : Operator) (data : List Expr) :
    Logical.Build ⟨op, data⟩ = .arr (data.map childEntrySpec)
      ∧ (data.map childEntrySpec).length = data.length
      ∧ (∀ i (h : i < data.length),
          (data.map childEntrySpec)[i]? = some (childEntrySpec (data.get ⟨i, h⟩)))
      ∧ (∀ o n v, n ≠ "" → childEntrySpec (.field o n v) = .M [(n, .M [(o, v)])])
      ∧ (∀ o v, childEntrySpec (.field o "" v) = .M [(o, v)])
      ∧ (∀ p d, childEntrySpec (.logical p d) = .M [(p, .arr (d.map childEntrySpec))])
      ∧ (∀ result, Filter.buildStep result (.logical op data)
          = mapSet result op (.arr (data.map childEntrySpec)))
      ∧ Filter.Build [.logical op data] = .M [(op, .arr (data.map childEntrySpec))] := by
  have hB : ∀ p d, Expr.Build (.logical p d) = .arr (d.map childEntrySpec) := by
    intro p d
    simp [Expr.Build, buildData_eq]
  refine ⟨hB op data, by simp, ?_, ?_, ?_, ?_, ?_, ?_⟩
  · intro i h
    simp [List.getElem?_map, List.getElem?_eq_getElem h]
  · intro o n v hn
    simp [childEntrySpec, hn]
  · intro o v
    simp [childEntrySpec]
  · intro p d
    simp [childEntrySpec, hB]
  · intro result
    simp [Filter.buildStep, hB]
  · simp [Filter.Build, Filter.buildStep, hB, mapSet]

/-- C13 on `Or(Eq(a, 1), {$gt: 2}, And(Eq(b, 3)))`: three entries, in child order. -/
theorem logical_renders_children_in_order_witness :
    Logical.Build ⟨OpOr, [Eq "a" (.int 1), Expr.field OpGt "" (.int 2), And [Eq "b" (.int 3)]]⟩
      = .arr [.M [("a", .M [("$eq", .int 1)])], .M [("$gt", .int 2)],
          .M [("$and", .arr [.M [("b", .M [("$eq", .int 3)])]])]] := by
  rw [(logical_renders_children_in_order OpOr
    [Eq "a" (.int 1), Expr.field OpGt "" (.int 2), And [Eq "b" (.int 3)]]).1]
  rfl

/-! ## Lemmas: merging entries into a document -/

theorem mergeInto_nil (result : List (String × Val)) : mergeInto result [] = result :=
  rfl

theorem mergeInto_cons (result : List (String × Val)) (kv : String × Val)
    (es : List (String × Val)) :
    mergeInto result (kv :: es) = mergeInto (mapSet result kv.1 kv.2) es := rfl

theorem mergeInto_append (result es1 es2 : List (String × Val)) :
    mergeInto result (es1 ++ es2) = mergeInto (mergeInto result es1) es2 := by
  simp [mergeInto, List.foldl_append]

theorem mergeInto_nodup (result es : List (String × Val))
    (h : (result.map Prod.fst).Nodup) : ((mergeInto result es).map Prod.fst).Nodup := by
  induction es generalizing result with
  | nil => exact h
  | cons kv es ih =>
    rw [mergeInto_cons]
    exact ih _ (mapSet_nodup _ _ _ h)

theorem mergeInto_length_le (result es : List (String × Val)) :
    (mergeInto result es).length ≤ result.length + es.length := by
  induction es generalizing result with
  | nil => simp [mergeInto_nil]
  | cons kv es ih =>
    rw [mergeInto_cons]
    have h1 := ih (mapSet result kv.1 kv.2)
    have h2 : (mapSet result kv.1 kv.2).length ≤ result.length + 1 := by
      by_cases hm : kv.1 ∈ result.map Prod.fst
      · rw [mapSet_length_of_mem _ _ _ hm]
        omega
      · rw [mapSet_length_of_not_mem _ _ _ hm]
    simp only [List.length_cons]
    omega

theorem mapGet_mergeInto (result es : List (String × Val)) (k : String) :
    mapGet (mergeInto result es) k
      = match es.reverse.find? (fun kv => decide (kv.1 = k)) with
        | some kv => some kv.2
        | none => mapGet result k := by
  induction es using List.reverseRecOn generalizing result with
  | nil => simp [mergeInto_nil]
  | append_singleton es kv ih =>
    rw [mergeInto_append, List.reverse_append]
    simp only [List.reverse_cons, List.reverse_nil, List.nil_append, List.singleton_append,
      List.find?_cons]
    show mapGet (mapSet (mergeInto result es) kv.1 kv.2) k = _
    by_cases hk : kv.1 = k
    · subst hk
      simp [mapGet_mapSet_self]
    · simp only [hk, decide_False]
      rw [mapGet_mapSet_of_ne _ _ _ _ hk, ih]

theorem mergeInto_of_nodup (result es : List (String × Val))
    (h : ((result ++ es).map Prod.fst).Nodup) : mergeInto result es = result ++ es := by
  induction es generalizing result with
  | nil => simp [mergeInto_nil]
  | cons kv es ih =>
    rw [mergeInto_cons]
    have hnot : kv.1 ∉ result.map Prod.fst := by
      intro hm
      rw [List.map_append, List.nodup_append] at h
      exact h.2.2 hm (by simp)
    have hset : mapSet result kv.1 kv.2 = result ++ [kv] := by
      clear ih h
      induction result with
      | nil => simp [mapSet]
      | cons hd tl ih2 =>
        obtain ⟨k1, v1⟩ := hd
        have hk : k1 ≠ kv.1 := by
          intro e
          exact hnot (by simp [e])
        have htl : kv.1 ∉ tl.map Prod.fst := by
          intro hm
          exact hnot (by simp [hm])
        simp [mapSet, hk, ih2 htl]
    rw [hset, ih]
    · simp
    · simpa using h

theorem buildStep_eq (result : List (String × Val)) (e : Expr) :
    Filter.buildStep result e = mapSet result (topEntry e).1 (topEntry e).2 := by
  cases e with
  | logical op data => simp [Filter.buildStep, topEntry]
  | field op name value =>
    by_cases h : name = ""
    · subst h
      simp [Filter.buildStep, topEntry, Expr.Build, mergeInto]
    · have h2 := (length_pos_iff_ne_empty name).2 h
      simp [Filter.buildStep, topEntry, Expr.Build, h, h2]

theorem foldl_buildStep (f : Filter) (result : List (String × Val)) :
    f.foldl Filter.buildStep result = mergeInto result (f.map topEntry) := by
  induction f generalizing result with
  | nil => rfl
  | cons e es ih =>
    rw [List.foldl_cons, ih, buildStep_eq, List.map_cons, mergeInto_cons]

theorem Filter_Build_eq (f : Filter) :
    Filter.Build f = if f.isEmpty then .D [] else .M (mergeInto [] (f.map topEntry)) := by
  cases f with
  | nil => rfl
  | cons e es =>
    simp only [Filter.Build, List.length_cons, Nat.succ_ne_zero, if_false, List.isEmpty_cons,
      Bool.false_eq_true, foldl_buildStep]

theorem find_last_entry (es1 es2 : List (String × Val)) (kv : String × Val)
    (h : ∀ x ∈ es2, x.1 ≠ kv.1) :
    (es1 ++ kv :: es2).reverse.find? (fun x => decide (x.1 = kv.1)) = some kv := by
  rw [List.reverse_append, List.reverse_cons, List.append_assoc, List.find?_append]
  have hnone : es2.reverse.find? (fun x => decide (x.1 = kv.1)) = none := by
    rw [List.find?_eq_none]
    intro x hx
    simpa using h x (List.mem_reverse.1 hx)
  simp [hnone]

/-! ## Colliding keys in `Filter.Build` -/

/-- C19: the document of `Filter.Build` has one entry per key, holding what the last
top-level expression with that key contributes: of two named leaves with the same name
(or two Logicals with the same operator) only the later one is rendered.  The number of
entries is at most the number of top-level expressions, it is smaller for
`[Eq(a, 1), Eq(a, 2)]`, and it is equal when the contributed keys are pairwise distinct. -/
theorem filter_build_last_key_wins (f : Filter) :
    ∃ m, Filter.Build f = (if f.isEmpty then .D m else .M m)
      ∧ (m.map Prod.fst).Nodup
      ∧ m.length ≤ f.length
      ∧ (∀ k, mapGet m k
          = ((f.map topEntry).reverse.find? (fun kv => decide (kv.1 = k))).map Prod.snd)
      ∧ (∀ pre post o n v, n ≠ "" → f = pre ++ Expr.field o n v :: post →
          (∀ e ∈ post, (topEntry e).1 ≠ n) → mapGet m n = some (.M [(o, v)]))
      ∧ (∀ pre post p d, f = pre ++ Expr.logical p d :: post →
          (∀ e ∈ post, (topEntry e).1 ≠ p) → mapGet m p = some (Expr.Build (.logical p d)))
      ∧ (((f.map topEntry).map Prod.fst).Nodup → m = f.map topEntry ∧ m.length = f.length)
      ∧ Filter.Build [Eq "a" (.int 1), Eq "a" (.int 2)] = .M [("a", .M [("$eq", .int 2)])] := by
  have hget : ∀ k, mapGet (mergeInto [] (f.map topEntry)) k
      = ((f.map topEntry).reverse.find? (fun kv => decide (kv.1 = k))).map Prod.snd := by
    intro k
    rw [mapGet_mergeInto]
    cases (f.map topEntry).reverse.find? (fun kv => decide (kv.1 = k)) with
    | none => simp [mapGet]
    | some kv => simp
  refine ⟨mergeInto [] (f.map topEntry), ?_, mergeInto_nodup _ _ (by simp), ?_, hget,
    ?_, ?_, ?_, by rfl⟩
  · rw [Filter_Build_eq]
    cases f with
    | nil => rfl
    | cons e es => rfl
  · simpa using mergeInto_length_le [] (f.map topEntry)
  · intro pre post o n v hn hf hpost
    rw [hget, hf, List.map_append, List.map_cons]
    have hte : topEntry (Expr.field o n v) = (n, .M [(o, v)]) := by simp [topEntry, hn]
    rw [hte]
    have := find_last_entry (pre.map topEntry) (post.map topEntry) (n, .M [(o, v)])
      (by
        intro x hx
        obtain ⟨e, he, rfl⟩ := List.mem_map.1 hx
        exact hpost e he)
    simp only at this
    rw [this]
    rfl
  · intro pre post p d hf hpost
    rw [hget, hf, List.map_append, List.map_cons]
    have hte : topEntry (Expr.logical p d) = (p, Expr.Build (.logical p d)) := rfl
    rw [hte]
    have := find_last_entry (pre.map topEntry) (post.map topEntry)
      (p, Expr.Build (.logical p d))
      (by
        intro x hx
        obtain ⟨e, he, rfl⟩ := List.mem_map.1 hx
        exact hpost e he)
    simp only at this
    rw [this]
    rfl
  · intro hnd
    have h := mergeInto_of_nodup [] (f.map topEntry) (by simpa using hnd)
    rw [h]
    simp

/-- C19 on `[Eq(a, 1), Gt(b, 0), Eq(a, 2)]`: at most three entries, and the entry of `a`
is the rendering of the last leaf only. -/
theorem filter_build_last_key_wins_witness :
    ∃ m, Filter.Build [Eq "a" (.int 1), Gt "b" (.int 0), Eq "a" (.int 2)] = .M m
      ∧ m.length ≤ 3 ∧ mapGet m "a" = some (.M [("$eq", .int 2)]) := by
  obtain ⟨m, hm, _, hlen, _, hleaf, _, _, _⟩ := filter_build_last_key_wins
    [Eq "a" (.int 1), Gt "b" (.int 0), Eq "a" (.int 2)]
  exact ⟨m, by simpa using hm, hlen,
    hleaf [Eq "a" (.int 1), Gt "b" (.int 0)] [] OpEq "a" (.int 2) (by decide) rfl (by simp)⟩

/-! ## ElemMatch -/

theorem ElemMatch_step_leaf (value : List (String × Val)) (o n : String) (v : Val) :
    ElemMatch.step value (.field o n v)
      = mapSet value (topEntry (.field o n v)).1 (topEntry (.field o n v)).2 := by
  by_cases h : n = ""
  · subst h
    simp [ElemMatch.step, topEntry, Expr.Build, mergeInto]
  · have h2 := (length_pos_iff_ne_empty n).2 h
    simp [ElemMatch.step, topEntry, Expr.Build, h, h2]

theorem ElemMatch_step_logical (value : List (String × Val)) (p : Operator) (d : List Expr) :
    ElemMatch.step value (.logical p d) = value := by
  simp [ElemMatch.step, Expr.Build]

theorem ElemMatch_foldl_leaves (subs : List Expr) (value : List (String × Val))
    (h : ∀ e ∈ subs, e.isLeaf = true) :
    subs.foldl ElemMatch.step value = mergeInto value (subs.map topEntry) := by
  induction subs generalizing value with
  | nil => rfl
  | cons e es ih =>
    have he := h e (List.mem_cons_self _ _)
    cases e with
    | logical p d => simp [Expr.isLeaf] at he
    | field o n v =>
      rw [List.foldl_cons, ElemMatch_step_leaf, ih _ (fun x hx => h x (List.mem_cons_of_mem _ hx)),
        List.map_cons, mergeInto_cons]

theorem ElemMatch_foldl_filter (subs : List Expr) (value : List (String × Val)) :
    subs.foldl ElemMatch.step value
      = (subs.filter (fun e => e.isLeaf)).foldl ElemMatch.step value := by
  induction subs generalizing value with
  | nil => rfl
  | cons e es ih =>
    cases e with
    | logical p d =>
      rw [List.foldl_cons, ElemMatch_step_logical, ih]
      simp [List.filter_cons, Expr.isLeaf]
    | field o n v =>
      rw [List.foldl_cons, ih]
      simp [List.filter_cons, Expr.isLeaf]

/-- C14: for a list of leaves whose contributed keys are pairwise distinct,
`ElemMatch(field, subs...)` is the leaf with operator `$elemMatch`, name `field` and a
value document that holds, for each named leaf `(n, o, v)`, the key `n` with `{o: v}`, for
each anonymous leaf `(o, v)`, the key `o` with `v`, and no other key. -/
theorem elemMatch_of_leaves (field : String) (subs : List Expr)
    (hleaf : ∀ e ∈ subs, e.isLeaf = true)
    (hkeys : ((subs.map topEntry).map Prod.fst).Nodup) :
    ElemMatch field subs = .field OpElemMatch field (.M (subs.map topEntry))
      ∧ (∀ o n v, n ≠ "" → topEntry (.field o n v) = (n, .M [(o, v)]))
      ∧ (∀ o v, topEntry (.field o "" v) = (o, v))
      ∧ (∀ k w, (k, w) ∈ subs.map topEntry ↔ ∃ e ∈ subs, topEntry e = (k, w)) := by
  refine ⟨?_, ?_, ?_, ?_⟩
  · unfold ElemMatch
    rw [ElemMatch_foldl_leaves subs [] hleaf, mergeInto_of_nodup [] _ (by simpa using hkeys)]
    simp
  · intro o n v hn
    simp [topEntry, hn]
  · intro o v
    simp [topEntry]
  · intro k w
    simp [List.mem_map]

/-- C14 on `ElemMatch(items, Eq(sku, "A"), {$gt: 2})`: the value document holds the key
`sku` with `{$eq: "A"}` and the key `$gt` with `2`. -/
theorem elemMatch_of_leaves_witness :
    ElemMatch "items" [Eq "sku" (.str "A"), Expr.field OpGt "" (.int 2)]
      = .field "$elemMatch" "items" (.M [("sku", .M [("$eq", .str "A")]), ("$gt", .int 2)]) :=
  (elemMatch_of_leaves "items" [Eq "sku" (.str "A"), Expr.field OpGt "" (.int 2)]
    (by simp [Eq, Expr.isLeaf]) (by decide)).1

/-- C20: `ElemMatch` ignores Logical sub-expressions: it gives the same leaf for `subs`
and for `subs` without its Logical nodes, since a Logical renders to an array, not to a
document; `ElemMatch(field, Or(a, b))` has the empty document as its value. -/
theorem elemMatch_ignores_logicals (field : String) (subs : List Expr) :
    ElemMatch field subs = ElemMatch field (subs.filter (fun e => e.isLeaf))
      ∧ (∀ p d, ∃ xs, Expr.Build (.logical p d) = .arr xs)
      ∧ (∀ a b, ElemMatch field [Or [a, b]] = .field OpElemMatch field (.M [])) := by
  refine ⟨?_, ?_, ?_⟩
  · unfold ElemMatch
    rw [ElemMatch_foldl_filter]
  · intro p d
    exact ⟨Logical.buildData d, by simp [Expr.Build]⟩
  · intro a b
    simp [ElemMatch, Or, ElemMatch_step_logical]

/-! ## The kinds of the elements of a coerced list -/

theorem listOf_one_kind (c : Cast) (d0 : String) (data : List String) :
    (∀ x ∈ listOf c d0 data, x.isFloat = true) ∨ (∀ x ∈ listOf c d0 data, x.isInt = true)
      ∨ (∀ x ∈ listOf c d0 data, x.isTime = true)
      ∨ (∀ x ∈ listOf c d0 data, x.isStr = true) := by
  unfold listOf
  cases c.ToFloat64E d0 with
  | some x =>
    left
    intro y hy
    obtain ⟨z, _, rfl⟩ := List.mem_map.1 hy
    rfl
  | none =>
    cases c.ToInt64E d0 with
    | some x =>
      right; left
      intro y hy
      obtain ⟨z, _, rfl⟩ := List.mem_map.1 hy
      rfl
    | none =>
      cases c.ToTimeE d0 with
      | some x =>
        right; right; left
        intro y hy
        obtain ⟨z, _, rfl⟩ := List.mem_map.1 hy
        rfl
      | none =>
        right; right; right
        intro y hy
        obtain ⟨z, _, rfl⟩ := List.mem_map.1 hy
        rfl

theorem parse_list_eq (c : Cast) (val : String) (op : Operator) (d0 : String)
    (rest : List String) (hs : Split val ',' = d0 :: rest)
    (h1 : ¬ (val = "" ∨ op = OpRegex))
    (h2 : ¬ (EqualFold val "null" = true ∨ EqualFold val "nil" = true))
    (h3 : op = OpIn ∨ op = OpNin) :
    parse c val op = some (.arr (listOf c d0 (d0 :: rest))) := by
  unfold parse
  rw [if_neg h1, if_neg h2, if_pos h3, hs]
  unfold listOf apply
  cases hf : c.ToFloat64E d0 with
  | some x => simp [List.filterMap_cons, hf]
  | none =>
    cases hi : c.ToInt64E d0 with
    | some x => simp [List.filterMap_cons, hf, hi]
    | none =>
      cases ht : c.ToTimeE d0 with
      | some x => simp [List.filterMap_cons, hf, hi, ht]
      | none => simp [hf, hi, ht]

theorem parse_scalar_not_arr (c : Cast) (val : String) (op : Operator) (xs : List Val)
    (h1 : ¬ (val = "" ∨ op = OpRegex))
    (h2 : ¬ (EqualFold val "null" = true ∨ EqualFold val "nil" = true))
    (h3 : ¬ (op = OpIn ∨ op = OpNin)) : parse c val op ≠ some (.arr xs) := by
  unfold parse
  rw [if_neg h1, if_neg h2, if_neg h3]
  cases c.ToFloat64E val <;> cases c.ToInt64E val <;> cases c.ToBoolE val <;>
    cases c.ToTimeE val <;> simp

theorem parse_arr_eq_listOf (c : Cast) (val : String) (op : Operator) (xs : List Val)
    (h : parse c val op = some (.arr xs)) :
    ∃ d0 rest, Split val ',' = d0 :: rest ∧ xs = listOf c d0 (d0 :: rest) := by
  obtain ⟨d0, rest, hs⟩ := List.exists_cons_of_ne_nil (Split_ne_nil val ',')
  by_cases h1 : val = "" ∨ op = OpRegex
  · rw [parse_regex_or_empty c val op (Or.symm h1)] at h
    simp at h
  · by_cases h2 : EqualFold val "null" = true ∨ EqualFold val "nil" = true
    · unfold parse at h
      rw [if_neg h1, if_pos h2] at h
      simp at h
    · by_cases h3 : op = OpIn ∨ op = OpNin
      · rw [parse_list_eq c val op d0 rest hs h1 h2 h3] at h
        simp only [Option.some.injEq, Val.arr.injEq] at h
        exact ⟨d0, rest, hs, h.symm⟩
      · exact absurd h (parse_scalar_not_arr c val op xs h1 h2 h3)

/-- C15: whenever `parse` returns a list, all its elements are of one and the same
kind: all float64, or all int64, or all timestamps, or all strings. -/
theorem parsed_list_has_one_kind (c : Cast) (val : String) (op : Operator) (xs : List Val)
    (h : parse c val op = some (.arr xs)) :
    (∀ x ∈ xs, x.isFloat = true) ∨ (∀ x ∈ xs, x.isInt = true) ∨ (∀ x ∈ xs, x.isTime = true)
      ∨ (∀ x ∈ xs, x.isStr = true) := by
  obtain ⟨d0, rest, _, hx⟩ := parse_arr_eq_listOf c val op xs h
  rw [hx]
  exact listOf_one_kind c d0 (d0 :: rest)

/-- C15 on `1,abc,3` under `$in` (two floats) and on `abc,1` under `$nin` (two strings). -/
theorem parsed_list_has_one_kind_witness :
    parse goCast "1,abc,3" OpIn
        = some (.arr [.float (Float64.ofInt 1), .float (Float64.ofInt 3)])
      ∧ ((∀ x ∈ [Val.float (Float64.ofInt 1), Val.float (Float64.ofInt 3)], x.isFloat = true)
        ∨ (∀ x ∈ [Val.float (Float64.ofInt 1), Val.float (Float64.ofInt 3)], x.isInt = true)
        ∨ (∀ x ∈ [Val.float (Float64.ofInt 1), Val.float (Float64.ofInt 3)], x.isTime = true)
        ∨ (∀ x ∈ [Val.float (Float64.ofInt 1), Val.float (Float64.ofInt 3)], x.isStr = true))
      ∧ parse goCast "abc,1" OpNin = some (.arr [.str "abc", .str "1"]) :=
  ⟨by rfl, parsed_list_has_one_kind goCast "1,abc,3" OpIn _ (by rfl), by rfl⟩

/-! ## GetCriteria -/

theorem ToCriteria_bounds (c : Cast) (ord : MapOrder) (values : Values) (filterName : String) :
    ∃ crit, ToCriteria c ord values filterName = some crit ∧ 0 < crit.Size ∧ 0 ≤ crit.Index := by
  obtain ⟨f, s, _, _, hc⟩ := ToCriteria_eq c ord values filterName
  refine ⟨_, hc, ?_, ?_⟩
  · show (0 : Int) < (if _ then DefaultSize else _)
    split_ifs with h
    · decide
    · omega
  · show (0 : Int) ≤ (if _ then (0 : Int) else _)
    split_ifs with h
    · decide
    · omega

/-- C16: the criteria of `GetCriteria` always have `Size > 0` and `Index ≥ 0`;
`GetCriteria` returns an error exactly when `url.ParseQuery` does, the error is that of
`url.ParseQuery`, and the criteria then have `Size = 20`, `Index = 0`, a nil sort and a
nil filter. -/
theorem getCriteria_bounds_and_error {E : Type} (parseQuery : String → Values × Option E)
    (c : Cast) (ord : MapOrder) (query filterName : String) :
    ∃ crit err, GetCriteria parseQuery c ord query filterName = some (crit, err)
      ∧ 0 < crit.Size ∧ 0 ≤ crit.Index
      ∧ err = (parseQuery query).2
      ∧ (err.isSome = true ↔ ((parseQuery query).2).isSome = true)
      ∧ (err.isSome = true →
          crit.Size = 20 ∧ crit.Index = 0 ∧ crit.SortBy = none ∧ crit.Filter = .null)
      ∧ (err = none → ToCriteria c ord (parseQuery query).1 filterName = some crit) := by
  unfold GetCriteria
  cases hq : (parseQuery query).2 with
  | some e =>
    refine ⟨⟨.null, none, 0, DefaultSize⟩, some e, rfl, by decide, by decide, rfl, by simp, ?_,
      by simp⟩
    intro _
    exact ⟨rfl, rfl, rfl, rfl⟩
  | none =>
    obtain ⟨crit, hc, hsize, hindex⟩ := ToCriteria_bounds c ord (parseQuery query).1 filterName
    exact ⟨crit, none, by simp only [hc, Option.map_some'], hsize, hindex, rfl, by simp,
      by simp, fun _ => hc⟩

/-- C16 with a decoder that fails on `%zz` and decodes `index=-5&size=0`: on `%zz` the
error is the decoder's, and the criteria are the default ones. -/
theorem getCriteria_bounds_and_error_witness :
    ∃ crit err, GetCriteria (E := String)
        (fun q => if q = "%zz" then ([], some "invalid URL escape") else
          ([("index", ["-5"]), ("size", ["0"])], none))
        goCast MapOrder.insertion "%zz" "filters" = some (crit, err)
      ∧ err = some "invalid URL escape" ∧ crit.Size = 20 ∧ crit.Index = 0
      ∧ crit.SortBy = none := by
  obtain ⟨crit, err, h, _, _, herr, _, hfail, _⟩ := getCriteria_bounds_and_error (E := String)
    (fun q => if q = "%zz" then ([], some "invalid URL escape") else
      ([("index", ["-5"]), ("size", ["0"])], none))
    goCast MapOrder.insertion "%zz" "filters"
  have he : err = some "invalid URL escape" := by
    rw [herr]
    rfl
  obtain ⟨h1, h2, h3, _⟩ := hfail (by rw [he]; rfl)
  exact ⟨crit, err, h, he, h1, h2, h3⟩

/-! ## Totality -/

/-- C18: `Parse` is total, and none of its partial steps can fail: the body of the loop
returns for every key; under `$regex` `parse` returns the raw string, so the conversion to
a string in the regex branch succeeds; the comma split is never empty, so `apply` finds
`data[0]` and `parse` returns; `tmp2[d0][d1]` exists when the leaf is appended; every
lookup by `value` has four components; and `order` returns for every list of entries. -/
theorem parse_steps_never_fail (c : Cast) (ord : MapOrder) (values : Values) :
    (∃ result, Parse c ord values = some result)
      ∧ (∀ st key, ∃ st2, parseKey c values st key = some st2)
      ∧ (∀ raw field, parse c raw OpRegex = some (.str raw)
          ∧ mkExpr OpRegex field (.str raw) = some (Regex field raw ["i"]))
      ∧ (∀ op field raw val, parse c raw op = some val → ∃ e, mkExpr op field val = some e)
      ∧ (∀ val, ∃ d0 rest, Split val ',' = d0 :: rest)
      ∧ (∀ val, (∃ r, apply (Split val ',') c.ToFloat64E = some r)
          ∧ (∃ r, apply (Split val ',') c.ToInt64E = some r)
          ∧ (∃ r, apply (Split val ',') c.ToTimeE = some r))
      ∧ (∀ val op, ∃ v, parse c val op = some v)
      ∧ (∀ tmp2 d0 d1 e, ∃ t, appendExpr (ensureGroup tmp2 d0 d1) d0 d1 e = some t)
      ∧ (∀ d0 d1 d2 attr,
          value values [d0, d1, d2, attr] = some (values.Get (attrKey d0 d1 d2 attr)))
      ∧ (∀ o item, ∃ o2, order.step o item = some o2)
      ∧ (∀ data, ∃ v, order data = some v) := by
  refine ⟨⟨_, Parse_eq c ord values⟩, fun st key => ⟨_, parseKey_eq c values st key⟩, ?_,
    fun op field raw val h => mkExpr_parse c op field raw val h,
    fun val => List.exists_cons_of_ne_nil (Split_ne_nil val ','), ?_,
    fun val op => parse_total c val op,
    fun tmp2 d0 d1 e => ⟨_, appendExpr_ensureGroup tmp2 d0 d1 e⟩, fun _ _ _ _ => rfl,
    fun o item => order_step_total o item, fun data => order_total data⟩
  · intro raw field
    exact ⟨parse_regex_or_empty c raw OpRegex (Or.inl rfl), by simp [mkExpr]⟩
  · intro val
    exact ⟨apply_isSome_of_ne_nil _ _ (Split_ne_nil val ','),
      apply_isSome_of_ne_nil _ _ (Split_ne_nil val ','),
      apply_isSome_of_ne_nil _ _ (Split_ne_nil val ',')⟩

/-- C18 on the query of the comment of `MustGetCriteria`: `Parse` returns, with the two
`like` triples of group 0 in an OR, the `eq` triple of group 1, and the triple with the
unknown code `to` dropped. -/
theorem parse_steps_never_fail_witness :
    (∃ result, Parse goCast MapOrder.insertion exampleValues = some result)
      ∧ Parse goCast MapOrder.insertion exampleValues
        = some [("filters", [Expr.logical "$and"
            [Expr.logical "$or" [Expr.field "$regex" "sku" (.regex "WSH%29%" "i"),
              Expr.field "$regex" "sku" (.regex "WP%29%" "i")],
             Expr.field "$eq" "price" (.float (Float64.ofInt 40))]])] :=
  ⟨(parse_steps_never_fail goCast MapOrder.insertion exampleValues).1, by rfl⟩

/-! ## Lemmas: two enumerations of one multimap -/

theorem mapGet_perm {β : Type} (m1 m2 : List (String × β)) (h : m1.Perm m2)
    (hn : (m1.map Prod.fst).Nodup) (k : String) : mapGet m1 k = mapGet m2 k := by
  have hn2 : (m2.map Prod.fst).Nodup := (List.Perm.nodup_iff (h.map Prod.fst)).1 hn
  cases h1 : mapGet m1 k with
  | none =>
    have hk : k ∉ m1.map Prod.fst := by
      intro hm
      have := (mapGet_isSome_iff m1 k).2 hm
      simp [h1] at this
    have hk2 : k ∉ m2.map Prod.fst := fun hm => hk ((h.map Prod.fst).mem_iff.2 hm)
    exact (mapGet_none_of_not_mem m2 k hk2).symm
  | some v =>
    have hm := mapGet_mem m1 k v h1
    exact (mapGet_of_mem_nodup m2 k v hn2 (h.mem_iff.1 hm)).symm

theorem Get_perm (values1 values2 : Values) (h : values1.Perm values2)
    (hn : (values1.map Prod.fst).Nodup) (k : String) : values1.Get k = values2.Get k := by
  unfold Values.Get
  rw [mapGet_perm values1 values2 h hn k]

theorem leafOf_perm (c : Cast) (values1 values2 : Values) (h : values1.Perm values2)
    (hn : (values1.map Prod.fst).Nodup) : leafOf c values1 = leafOf c values2 := by
  funext t
  unfold leafOf
  simp only [Get_perm values1 values2 h hn]

theorem qualifies_perm (values1 values2 : Values) (h : values1.Perm values2)
    (hn : (values1.map Prod.fst).Nodup) (t : String × String × String) :
    qualifies values1 t ↔ qualifies values2 t := by
  unfold qualifies
  simp only [Get_perm values1 values2 h hn]

theorem triplesOf_perm (values1 values2 : Values) (h : values1.Perm values2) :
    (triplesOf values1).Perm (triplesOf values2) := by
  refine (List.perm_ext_iff_of_nodup (triplesOf_nodup values1) (triplesOf_nodup values2)).2 ?_
  intro t
  rw [mem_triplesOf, mem_triplesOf]
  constructor
  · rintro ⟨key, hk, ht⟩
    exact ⟨key, (h.map Prod.fst).mem_iff.1 hk, ht⟩
  · rintro ⟨key, hk, ht⟩
    exact ⟨key, (h.map Prod.fst).mem_iff.2 hk, ht⟩

theorem leavesOf_perm (c : Cast) (values1 values2 : Values) (h : values1.Perm values2)
    (hn : (values1.map Prod.fst).Nodup) (n a : String) :
    (leavesOf c values1 (triplesOf values1) n a).Perm
      (leavesOf c values2 (triplesOf values2) n a) := by
  unfold leavesOf
  rw [leafOf_perm c values1 values2 h hn]
  exact ((triplesOf_perm values1 values2 h).filter _).filterMap _

theorem mapGet_result (c : Cast) (ord : MapOrder) (values : Values) (n : String) :
    mapGet ((tmp2Of c values).foldl (combineStep ord) []) n
      = (mapGet (tmp2Of c values) n).bind (fun inner => nameFilter (andData ord n inner)) := by
  rw [combine_get ord (tmp2Of c values) (tmp2Of_WF c values).1 [] n]
  cases hm : mapGet (tmp2Of c values) n with
  | none => simp [mapGet]
  | some inner =>
    cases hf : nameFilter (andData ord n inner) with
    | none => simp [hf, mapGet]
    | some f => simp [hf]

theorem andData_eq_keys (c : Cast) (ord : MapOrder) (values : Values) (n : String)
    (inner : List (String × Logical)) (h : mapGet (tmp2Of c values) n = some inner) :
    andData ord n inner = ((ord.items n inner).map Prod.fst).map (groupExpr c values n) := by
  unfold andData
  rw [List.map_map]
  apply List.map_congr_left
  intro kv hkv
  have hkv2 : kv ∈ inner := (ord.perm n inner).mem_iff.1 hkv
  have h1 := (inner_entries c values n inner h kv hkv2).1
  simp [groupExpr, h1]

theorem inner_keys_perm (c : Cast) (values1 values2 : Values) (h : values1.Perm values2)
    (hn : (values1.map Prod.fst).Nodup) (n : String) (inner1 inner2 : List (String × Logical))
    (h1 : mapGet (tmp2Of c values1) n = some inner1)
    (h2 : mapGet (tmp2Of c values2) n = some inner2) :
    (inner1.map Prod.fst).Perm (inner2.map Prod.fst) := by
  refine (List.perm_ext_iff_of_nodup ((tmp2Of_WF c values1).2 n inner1 h1).1
    ((tmp2Of_WF c values2).2 n inner2 h2).1).2 ?_
  intro a
  rw [inner_keys_iff c values1 n inner1 h1 a, inner_keys_iff c values2 n inner2 h2 a]
  have hp := leavesOf_perm c values1 values2 h hn n a
  constructor
  · intro hne e
    rw [e] at hp
    exact hne (List.perm_nil.1 hp)
  · intro hne e
    rw [e] at hp
    exact hne (List.nil_perm.1 hp)

theorem tmp2Of_isSome_perm (c : Cast) (values1 values2 : Values) (h : values1.Perm values2)
    (hn : (values1.map Prod.fst).Nodup) (n : String) :
    (mapGet (tmp2Of c values1) n).isSome = true ↔ (mapGet (tmp2Of c values2) n).isSome = true := by
  rw [mapGet_tmp2Of_isSome, mapGet_tmp2Of_isSome]
  constructor
  · rintro ⟨key, hk, a, o, x, hf, hq⟩
    exact ⟨key, (h.map Prod.fst).mem_iff.1 hk, a, o, x, hf,
      (qualifies_perm values1 values2 h hn _).1 hq⟩
  · rintro ⟨key, hk, a, o, x, hf, hq⟩
    exact ⟨key, (h.map Prod.fst).mem_iff.2 hk, a, o, x, hf,
      (qualifies_perm values1 values2 h hn _).2 hq⟩

/-! ## Lemmas: renderings up to the order inside and/or arrays -/

theorem ListSim_refl (l : List Val) : ListSim l l := by
  induction l with
  | nil => exact ListSim.nil
  | cons a l ih => exact ListSim.cons a a l l (DocSim.refl a) ih

theorem ListSim_map (K : List String) (F G : String → Val)
    (h : ∀ a ∈ K, DocSim (F a) (G a)) : ListSim (K.map F) (K.map G) := by
  induction K with
  | nil => exact ListSim.nil
  | cons a K ih =>
    exact ListSim.cons _ _ _ _ (h a (List.mem_cons_self _ _))
      (ih (fun b hb => h b (List.mem_cons_of_mem _ hb)))

theorem Build_logical (op : Operator) (d : List Expr) :
    Expr.Build (.logical op d) = .arr (d.map childEntrySpec) := by
  simp [Expr.Build, buildData_eq]

theorem Build_single_logical (op : Operator) (d : List Expr) :
    Filter.Build [.logical op d] = .M [(op, .arr (d.map childEntrySpec))] := by
  simp [Filter.Build, Filter.buildStep, Build_logical, mapSet]

theorem orExpr_perm (l1 l2 : List Expr) (h : l1.Perm l2) :
    GroupSim (orExpr ⟨OpOr, l1⟩) (orExpr ⟨OpOr, l2⟩) := by
  match l1, h with
  | [], h =>
    rw [List.nil_perm.1 h]
    exact Or.inl rfl
  | [e], h =>
    rw [List.singleton_perm.1 h]
    exact Or.inl rfl
  | e1 :: e2 :: es, h =>
    have hlen := h.length_eq
    match l2, hlen with
    | x :: y :: zs, _ => exact Or.inr ⟨_, _, rfl, rfl, h⟩

theorem GroupSim_entry (e1 e2 : Expr) (h : GroupSim e1 e2) :
    DocSim (childEntrySpec e1) (childEntrySpec e2) := by
  rcases h with h | ⟨l1, l2, rfl, rfl, hp⟩
  · rw [h]
    exact DocSim.refl _
  · simp only [childEntrySpec, Build_logical]
    exact DocSim.doc _ _ (EntriesSim.logical OpOr _ _ _ [] [] (Or.inr rfl)
      (hp.map childEntrySpec) (ListSim_refl _) EntriesSim.nil)

theorem GroupSim_filter (e1 e2 : Expr) (h : GroupSim e1 e2) :
    DocSim (Filter.Build [e1]) (Filter.Build [e2]) := by
  rcases h with h | ⟨l1, l2, rfl, rfl, hp⟩
  · rw [h]
    exact DocSim.refl _
  · rw [Build_single_logical, Build_single_logical]
    exact DocSim.doc _ _ (EntriesSim.logical OpOr _ _ _ [] [] (Or.inr rfl)
      (hp.map childEntrySpec) (ListSim_refl _) EntriesSim.nil)

theorem nameFilter_sim (K1 K2 : List String) (g1 g2 : String → Expr) (hK : K1.Perm K2)
    (hg : ∀ a, GroupSim (g1 a) (g2 a)) (f1 f2 : Filter)
    (h1 : nameFilter (K1.map g1) = some f1) (h2 : nameFilter (K2.map g2) = some f2) :
    DocSim (Filter.Build f1) (Filter.Build f2) := by
  match K1, hK, h1 with
  | [], hK, h1 => simp [nameFilter] at h1
  | [a], hK, h1 =>
    have hK2 : K2 = [a] := List.perm_singleton.1 hK.symm
    rw [hK2] at h2
    simp only [List.map_cons, List.map_nil, nameFilter, Option.some.injEq] at h1 h2
    rw [← h1, ← h2]
    exact GroupSim_filter _ _ (hg a)
  | a :: b :: rest, hK, h1 =>
    have hlen := hK.length_eq
    have hlen2 : 2 ≤ (K2.map g2).length := by
      rw [List.length_map, ← hlen]
      simp
    rw [nameFilter_of_two _ hlen2] at h2
    rw [nameFilter_of_two _ (by simp)] at h1
    simp only [Option.some.injEq] at h1 h2
    rw [← h1, ← h2, Build_single_logical, Build_single_logical]
    refine DocSim.doc _ _ (EntriesSim.logical OpAnd _ ((K2.map g1).map childEntrySpec) _ [] []
      (Or.inl rfl) ?_ ?_ EntriesSim.nil)
    · exact (hK.map g1).map childEntrySpec
    · rw [List.map_map, List.map_map]
      exact ListSim_map K2 _ _ (fun x _ => GroupSim_entry _ _ (hg x))

theorem groupExpr_sim (c : Cast) (values1 values2 : Values) (h : values1.Perm values2)
    (hn : (values1.map Prod.fst).Nodup) (n a : String) :
    GroupSim (groupExpr c values1 n a) (groupExpr c values2 n a) :=
  orExpr_perm _ _ (leavesOf_perm c values1 values2 h hn n a)

theorem andData_keys (c : Cast) (ord1 ord2 : MapOrder) (values1 values2 : Values)
    (h : values1.Perm values2) (hn : (values1.map Prod.fst).Nodup) (n : String)
    (inner1 inner2 : List (String × Logical))
    (h1 : mapGet (tmp2Of c values1) n = some inner1)
    (h2 : mapGet (tmp2Of c values2) n = some inner2) :
    ∃ K1 K2 : List String, K1.Perm K2 ∧ K1.Perm (inner1.map Prod.fst)
      ∧ andData ord1 n inner1 = K1.map (groupExpr c values1 n)
      ∧ andData ord2 n inner2 = K2.map (groupExpr c values2 n) := by
  refine ⟨(ord1.items n inner1).map Prod.fst, (ord2.items n inner2).map Prod.fst, ?_,
    (ord1.perm n inner1).map Prod.fst, andData_eq_keys c ord1 values1 n inner1 h1,
    andData_eq_keys c ord2 values2 n inner2 h2⟩
  exact (((ord1.perm n inner1).map Prod.fst).trans
    (inner_keys_perm c values1 values2 h hn n inner1 inner2 h1 h2)).trans
    ((ord2.perm n inner2).map Prod.fst).symm

/-! ## Lemmas: a name with at most one valid triple -/

theorem filterMap_length_le_one {α β : Type} (l : List α) (g : α → Option β) (hn : l.Nodup)
    (h : ∀ x ∈ l, ∀ y ∈ l, (g x).isSome = true → (g y).isSome = true → x = y) :
    (l.filterMap g).length ≤ 1 := by
  induction l with
  | nil => simp
  | cons x xs ih =>
    have hn2 := (List.nodup_cons.1 hn).2
    have hx := (List.nodup_cons.1 hn).1
    have ih2 := ih hn2 (fun a ha b hb => h a (List.mem_cons_of_mem _ ha) b
      (List.mem_cons_of_mem _ hb))
    cases hg : g x with
    | none => simpa [List.filterMap_cons, hg] using ih2
    | some b =>
      have hnil : xs.filterMap g = [] := by
        rw [List.filterMap_eq_nil_iff]
        intro y hy
        cases hgy : g y with
        | none => rfl
        | some z =>
          have := h x (List.mem_cons_self _ _) y (List.mem_cons_of_mem _ hy) (by simp [hg])
            (by simp [hgy])
          rw [this] at hx
          exact absurd hy hx
      simp [List.filterMap_cons, hg, hnil]

theorem length_le_one_of_all_eq {α : Type} (l : List α) (hn : l.Nodup)
    (h : ∀ x ∈ l, ∀ y ∈ l, x = y) : l.length ≤ 1 := by
  match l, hn, h with
  | [], _, _ => simp
  | [x], _, _ => simp
  | x :: y :: rest, hn, h =>
    have := h x (by simp) y (by simp)
    rw [this] at hn
    simp at hn

theorem atMostOne_triples (values : Values) (n : String) (h : atMostOneValid values n)
    (t u : String × String × String) (ht : t ∈ triplesOf values) (hu : u ∈ triplesOf values)
    (htn : t.1 = n) (hun : u.1 = n) (hqt : qualifies values t) (hqu : qualifies values u) :
    t = u := by
  obtain ⟨k1, hk1, h1⟩ := (mem_triplesOf values t).1 ht
  obtain ⟨k2, hk2, h2⟩ := (mem_triplesOf values u).1 hu
  exact h k1 hk1 k2 hk2 t u h1 h2 htn hun hqt hqu

theorem leaves_le_one (c : Cast) (values : Values) (n a : String)
    (h : atMostOneValid values n) :
    (leavesOf c values (triplesOf values) n a).length ≤ 1 := by
  unfold leavesOf
  apply filterMap_length_le_one _ _ ((triplesOf_nodup values).filter _)
  intro x hx y hy hgx hgy
  rw [List.mem_filter] at hx hy
  simp only [decide_eq_true_eq] at hx hy
  exact atMostOne_triples values n h x y hx.1 hy.1 hx.2.1 hy.2.1
    ((leafOf_isSome_iff c values x).1 hgx) ((leafOf_isSome_iff c values y).1 hgy)

theorem mem_leavesOf (c : Cast) (values : Values) (n a : String) (e : Expr)
    (h : e ∈ leavesOf c values (triplesOf values) n a) :
    ∃ t ∈ triplesOf values, t.1 = n ∧ t.2.1 = a ∧ qualifies values t := by
  unfold leavesOf at h
  obtain ⟨t, ht, hl⟩ := List.mem_filterMap.1 h
  rw [List.mem_filter] at ht
  simp only [decide_eq_true_eq] at ht
  exact ⟨t, ht.1, ht.2.1, ht.2.2, (leafOf_isSome_iff c values t).1 (by simp [hl])⟩

theorem inner_le_one (c : Cast) (values : Values) (n : String)
    (inner : List (String × Logical)) (hm : mapGet (tmp2Of c values) n = some inner)
    (h : atMostOneValid values n) : (inner.map Prod.fst).length ≤ 1 := by
  apply length_le_one_of_all_eq _ ((tmp2Of_WF c values).2 n inner hm).1
  intro a ha b hb
  rw [inner_keys_iff c values n inner hm] at ha hb
  obtain ⟨e1, he1⟩ := List.exists_mem_of_ne_nil _ ha
  obtain ⟨e2, he2⟩ := List.exists_mem_of_ne_nil _ hb
  obtain ⟨t, ht, htn, hta, hqt⟩ := mem_leavesOf c values n a e1 he1
  obtain ⟨u, hu, hun, hua, hqu⟩ := mem_leavesOf c values n b e2 he2
  have := atMostOne_triples values n h t u ht hu htn hun hqt hqu
  rw [← hta, ← hua, this]

theorem atMostOne_filter (c : Cast) (ord : MapOrder) (values : Values) (n : String)
    (inner : List (String × Logical)) (hm : mapGet (tmp2Of c values) n = some inner)
    (h : atMostOneValid values n) :
    ∃ a e, inner.map Prod.fst = [a] ∧ leavesOf c values (triplesOf values) n a = [e]
      ∧ nameFilter (andData ord n inner) = some [e] := by
  have hlen := inner_le_one c values n inner hm h
  have hne := ((tmp2Of_WF c values).2 n inner hm).2
  obtain ⟨kv, rest, hin⟩ := List.exists_cons_of_ne_nil hne
  have hrest : rest = [] := by
    rw [hin] at hlen
    simp only [List.map_cons, List.length_cons, List.length_map] at hlen
    exact List.length_eq_zero.1 (by omega)
  subst hrest
  have hkey : kv.1 ∈ inner.map Prod.fst := by simp [hin]
  have hl1 := (inner_keys_iff c values n inner hm kv.1).1 hkey
  have hl2 := leaves_le_one c values n kv.1 h
  obtain ⟨e, es, hle⟩ := List.exists_cons_of_ne_nil hl1
  have hes : es = [] := by
    rw [hle] at hl2
    simp only [List.length_cons] at hl2
    exact List.length_eq_zero.1 (by omega)
  subst hes
  refine ⟨kv.1, e, by simp [hin], hle, ?_⟩
  have hitems : ord.items n inner = inner := by
    rw [hin]
    exact List.perm_singleton.1 (hin ▸ ord.perm n inner)
  rw [andData_eq_keys c ord values n inner hm, hitems, hin]
  simp [groupExpr, hle, orExpr, nameFilter]

/-! ## Two enumerations of one multimap -/

theorem atMostOne_perm (values1 values2 : Values) (h : values1.Perm values2)
    (hn : (values1.map Prod.fst).Nodup) (n : String) (h1 : atMostOneValid values1 n) :
    atMostOneValid values2 n := by
  intro key1 hk1 key2 hk2 t u ht hu htn hun hqt hqu
  exact h1 key1 ((h.map Prod.fst).mem_iff.2 hk1) key2 ((h.map Prod.fst).mem_iff.2 hk2) t u ht hu
    htn hun ((qualifies_perm values1 values2 h hn t).2 hqt)
    ((qualifies_perm values1 values2 h hn u).2 hqu)

theorem result_some (c : Cast) (ord : MapOrder) (values : Values) (n : String) (f : Filter)
    (h : mapGet ((tmp2Of c values).foldl (combineStep ord) []) n = some f) :
    ∃ inner, mapGet (tmp2Of c values) n = some inner
      ∧ nameFilter (andData ord n inner) = some f := by
  rw [mapGet_result] at h
  cases hm : mapGet (tmp2Of c values) n with
  | none => simp [hm] at h
  | some inner =>
    rw [hm] at h
    exact ⟨inner, rfl, h⟩

theorem result_isSome_iff (c : Cast) (ord : MapOrder) (values : Values) (n : String) :
    (mapGet ((tmp2Of c values).foldl (combineStep ord) []) n).isSome = true
      ↔ (mapGet (tmp2Of c values) n).isSome = true := by
  rw [mapGet_result]
  cases hm : mapGet (tmp2Of c values) n with
  | none => simp
  | some inner =>
    have hne : andData ord n inner ≠ [] := by
      intro h
      have hl := andData_length ord n inner
      rw [h] at hl
      exact ((tmp2Of_WF c values).2 n inner hm).2 (List.length_eq_zero.1 hl.symm)
    obtain ⟨f, hf⟩ := nameFilter_isSome _ hne
    simp [hf]

theorem Parse_eq_tmp2Of (c : Cast) (ord : MapOrder) (values : Values) :
    Parse c ord values = some ((tmp2Of c values).foldl (combineStep ord) []) :=
  Parse_eq c ord values

theorem ToFilter_of_Parse (c : Cast) (ord : MapOrder) (values : Values) (n : String) :
    ToFilter c ord values n
      = some ((mapGet ((tmp2Of c values).foldl (combineStep ord) []) n).getD []) := by
  simp [ToFilter, Parse_eq_tmp2Of]

theorem atMostOne_same (c : Cast) (ord1 ord2 : MapOrder) (values1 values2 : Values)
    (h : values1.Perm values2) (hn : (values1.map Prod.fst).Nodup) (n : String)
    (h1 : atMostOneValid values1 n) :
    mapGet ((tmp2Of c values1).foldl (combineStep ord1) []) n
      = mapGet ((tmp2Of c values2).foldl (combineStep ord2) []) n := by
  rw [mapGet_result, mapGet_result]
  have hiff := tmp2Of_isSome_perm c values1 values2 h hn n
  cases hm1 : mapGet (tmp2Of c values1) n with
  | none =>
    cases hm2 : mapGet (tmp2Of c values2) n with
    | none => rfl
    | some inner2 =>
      rw [hm1, hm2] at hiff
      simp at hiff
  | some inner1 =>
    cases hm2 : mapGet (tmp2Of c values2) n with
    | none =>
      rw [hm1, hm2] at hiff
      simp at hiff
    | some inner2 =>
      obtain ⟨a, e, hk, hl, hf⟩ := atMostOne_filter c ord1 values1 n inner1 hm1 h1
      obtain ⟨a2, e2, hk2, hl2, hf2⟩ := atMostOne_filter c ord2 values2 n inner2 hm2
        (atMostOne_perm values1 values2 h hn n h1)
      have hkp := inner_keys_perm c values1 values2 h hn n inner1 inner2 hm1 hm2
      rw [hk, hk2] at hkp
      have ha : a2 = a := by
        have := List.perm_singleton.1 hkp.symm
        simpa using this
      subst ha
      have hlp := leavesOf_perm c values1 values2 h hn n a2
      rw [hl, hl2] at hlp
      have he : [e2] = [e] := List.perm_singleton.1 hlp.symm
      simp only [Option.some_bind, hf, hf2, he]

/-- C17: for two enumerations of the keys of one multimap (and any two enumerations of
the inner maps of `tmp2`), the two results of `Parse` have the same names, and for each
name the two rendered filter documents are equal up to a permutation of the entries
inside each `$and`/`$or` array; for a name with at most one valid triple the two filters
are equal. -/
theorem parse_deterministic_up_to_order (c : Cast) (ord1 ord2 : MapOrder)
    (values1 values2 : Values) (h : values1.Perm values2)
    (hn : (values1.map Prod.fst).Nodup) :
    ∃ r1 r2, Parse c ord1 values1 = some r1 ∧ Parse c ord2 values2 = some r2
      ∧ (∀ n, (mapGet r1 n).isSome = true ↔ (mapGet r2 n).isSome = true)
      ∧ (∀ n f1 f2, mapGet r1 n = some f1 → mapGet r2 n = some f2 →
          DocSim (Filter.Build f1) (Filter.Build f2))
      ∧ (∀ n, atMostOneValid values1 n →
          mapGet r1 n = mapGet r2 n
            ∧ ToFilter c ord1 values1 n = ToFilter c ord2 values2 n) := by
  refine ⟨_, _, Parse_eq_tmp2Of c ord1 values1, Parse_eq_tmp2Of c ord2 values2, ?_, ?_, ?_⟩
  · intro n
    rw [result_isSome_iff, result_isSome_iff]
    exact tmp2Of_isSome_perm c values1 values2 h hn n
  · intro n f1 f2 h1 h2
    obtain ⟨inner1, hm1, hf1⟩ := result_some c ord1 values1 n f1 h1
    obtain ⟨inner2, hm2, hf2⟩ := result_some c ord2 values2 n f2 h2
    obtain ⟨K1, K2, hK, _, hd1, hd2⟩ :=
      andData_keys c ord1 ord2 values1 values2 h hn n inner1 inner2 hm1 hm2
    rw [hd1] at hf1
    rw [hd2] at hf2
    exact nameFilter_sim K1 K2 _ _ hK (fun a => groupExpr_sim c values1 values2 h hn n a)
      f1 f2 hf1 hf2
  · intro n h1
    have hsame := atMostOne_same c ord1 ord2 values1 values2 h hn n h1
    refine ⟨hsame, ?_⟩
    rw [ToFilter_of_Parse, ToFilter_of_Parse, hsame]

/-- C17 on the two triples `sku` and `price` of one group, enumerated `sku` first and
`price` first: the two documents are `{$or: [sku, price]}` and `{$or: [price, sku]}`,
equal up to the order inside the `$or` array. -/
theorem parse_deterministic_up_to_order_witness :
    DocSim
      (.M [("$or", .arr [.M [("sku", .M [("$eq", .str "ABC")])],
          .M [("price", .M [("$eq", .float (Float64.ofInt 40))])]])])
      (.M [("$or", .arr [.M [("price", .M [("$eq", .float (Float64.ofInt 40))])],
          .M [("sku", .M [("$eq", .str "ABC")])]])]) := by
  obtain ⟨r1, r2, h1, h2, _, hsim, _⟩ := parse_deterministic_up_to_order goCast
    MapOrder.insertion MapOrder.reversed
    (tripleEntries "filters" "0" "0" "sku" "ABC" "eq"
      ++ tripleEntries "filters" "0" "1" "price" "40" "eq")
    (tripleEntries "filters" "0" "1" "price" "40" "eq"
      ++ tripleEntries "filters" "0" "0" "sku" "ABC" "eq")
    List.perm_append_comm (by decide)
  have e1 : Parse goCast MapOrder.insertion
      (tripleEntries "filters" "0" "0" "sku" "ABC" "eq"
        ++ tripleEntries "filters" "0" "1" "price" "40" "eq")
      = some [("filters", [Expr.logical "$or" [Expr.field "$eq" "sku" (.str "ABC"),
          Expr.field "$eq" "price" (.float (Float64.ofInt 40))]])] := by rfl
  have e2 : Parse goCast MapOrder.reversed
      (tripleEntries "filters" "0" "1" "price" "40" "eq"
        ++ tripleEntries "filters" "0" "0" "sku" "ABC" "eq")
      = some [("filters", [Expr.logical "$or" [Expr.field "$eq" "price"
          (.float (Float64.ofInt 40)), Expr.field "$eq" "sku" (.str "ABC")]])] := by rfl
  rw [e1] at h1
  rw [e2] at h2
  have hr1 := (Option.some.inj h1).symm
  have hr2 := (Option.some.inj h2).symm
  subst hr1
  subst hr2
  exact hsim "filters" _ _ (by rfl) (by rfl)

/-- The relation `DocSim` is not coarser than the claim: it does not relate two documents
that differ by the order inside an array under another key than `$and` and `$or`. -/
theorem DocSim_keeps_other_arrays :
    ¬ DocSim (.M [("$in", .arr [.bool true, .bool false])])
      (.M [("$in", .arr [.bool false, .bool true])]) := by
  intro h
  cases h with
  | doc _ _ he =>
    cases he with
    | cons _ _ _ _ _ hd _ => cases hd
    | logical _ _ _ _ _ _ hk _ _ _ =>
      rcases hk with hk | hk
      · exact absurd hk (by decide)
      · exact absurd hk (by decide)

end MongoExt
